import Mathlib

/-!
# FUSE data path: direct and cached I/O backends

A shallow embedding of `fuse_module/fuse_io.c` and `fuse_module/fuse_node.h`.

* Offsets (`off_t`) and residual counts (`ssize_t`) are integers; the
  32-bit `int diff` of the direct write is reduced modulo `2 ^ 32` explicitly.
* The remote service is a state machine (`Daemon`); every exchange is recorded
  in a request log, so that the number, order and shape of the requests can be
  stated.
* The `while` loops of the direct backends take a fuel argument; `none` means
  the fuel ran out before the loop ended.
* Memory is a map from addresses to bytes.
-/

namespace Fuse

/-! ## errno values -/

def EINTR : Nat := 4
def EIO : Nat := 5
def EBADF : Nat := 9
def EFAULT : Nat := 14
def EINVAL : Nat := 22
def ETIMEDOUT : Nat := 60

/-! ## uio -/

inductive UioRw where
  | UIO_READ
  | UIO_WRITE
deriving DecidableEq, Repr

/-- The `struct uio` of a call, with its single segment flattened: `iov_base`
is the current address in the caller's memory `mem`.  `limit` is `none` for
`UIO_SYSSPACE` (the copy is a `bcopy` and cannot fail) and `some a` for
`UIO_USERSPACE`, where `a` is the first address that faults. -/
structure Uio where
  uio_rw : UioRw
  uio_offset : Int
  uio_resid : Int
  iov_base : Nat
  mem : Nat → Nat
  limit : Option Nat

/-- Whether moving `cnt` bytes at the cursor touches a faulting address. -/
def uio_faults (uio : Uio) (cnt : Nat) : Bool :=
  match uio.limit with
  | some a => decide (a < uio.iov_base + cnt)
  | none => false

/-- Cursor update of `uiomove` after `cnt` bytes were moved. -/
def uio_advance (uio : Uio) (cnt : Nat) : Uio :=
  { uio with
    iov_base := uio.iov_base + cnt
    uio_resid := uio.uio_resid - cnt
    uio_offset := uio.uio_offset + cnt }

/-- Kernel `uiomove(cp, n, uio)`: moves `min n uio_resid` bytes between the
kernel buffer `cp` and the caller's memory, in the direction of `uio_rw`,
advancing `iov_base` and `uio_offset` and lowering `uio_resid`.  Returns the
error, the kernel buffer afterwards and the uio afterwards.  A copy that
touches a faulting address returns `EFAULT` and moves nothing. -/
def uiomove (cp : Nat → Nat) (n : Nat) (uio : Uio) : Nat × (Nat → Nat) × Uio :=
  let cnt := min n uio.uio_resid.toNat
  if uio_faults uio cnt then (EFAULT, cp, uio)
  else
    match uio.uio_rw with
    | .UIO_READ =>
      (0, cp, { uio_advance uio cnt with
        mem := fun x => if uio.iov_base ≤ x ∧ x < uio.iov_base + cnt
          then cp (x - uio.iov_base) else uio.mem x })
    | .UIO_WRITE =>
      (0, fun i => if i < cnt then uio.mem (uio.iov_base + i) else cp i,
        uio_advance uio cnt)

/-! ## The remote service and the request log -/

/-- One entry of the log.  `read` and `write` are exchanges with the remote
service, each with its answer: the error of `fdisp_wait_answ` and the size the
answer reports (`iosize` of a read answer, `size` of `fuse_write_out`).
`bwrite` is a synchronous write-back of block `lbn`, entered with the dirty
interval `[dirtyoff, dirtyend)`.  `copyin` is the copy of `n` caller bytes
into block `lbn` at `on`, the block having the dirty interval
`[dirtyoff, dirtyend)` at that moment. -/
inductive Event where
  | read (fh : Nat) (offset : Int) (size : Nat) (err : Nat) (iosize : Nat)
  | write (fh : Nat) (offset : Int) (size : Nat) (payload : List Nat) (err : Nat) (written : Nat)
  | bwrite (lbn : Int) (dirtyoff dirtyend : Int)
  | copyin (lbn : Int) (on_ n : Int) (dirtyoff dirtyend : Int)
deriving DecidableEq, Repr

/-- The remote service behind `fdisp_wait_answ`.  `read` answers a
`FUSE_READ` of `(fh, offset, size)` with an error and a payload (whose length
is the answer's `iosize`); `write` answers a `FUSE_WRITE` of
`(fh, offset, size, payload)` with an error and the `size` field of
`fuse_write_out`. -/
structure Daemon (σ : Type) where
  read : σ → Nat → Int → Nat → σ × Nat × List Nat
  write : σ → Nat → Int → Nat → List Nat → σ × Nat × Nat

/-- Server state together with the log of the requests sent so far. -/
structure World (σ : Type) where
  st : σ
  log : List Event

/-- The bytes `cp[0 .. n)` as a list. -/
def bytesOf (cp : Nat → Nat) (n : Nat) : List Nat :=
  (List.range n).map cp

/-- Result of reinterpreting the low 32 bits of an integer as a C `int`. -/
def toInt32 (x : Int) : Int :=
  let r := x % 4294967296
  if r < 2147483648 then r else r - 4294967296

/-! ## The node -/

/-- Access intent of an open handle (`fufh_type_t`). -/
inductive FufhType where
  | FUFH_RDONLY
  | FUFH_WRONLY
deriving DecidableEq, Repr

/-- The fields of `struct fuse_vnode_data` the data path reads or writes.
`fufh` is the open-handle table (the handle id of a valid handle, per
intent), `cached_attrs_valid` the `timespec` as `(tv_sec, tv_nsec)`, `nlookup`
the lookup counter, and `cache_enable` the answer of
`fuse_vnode_cache_enable`. -/
structure fuse_vnode_data where
  nid : Nat
  fufh : FufhType → Option Nat
  cached_attrs_valid : Int × Int
  filesize : Int
  nlookup : Nat
  cache_enable : Bool

/-- Negotiated mount parameters: `max_read`, `max_write` and the negotiated
I/O size of the mount data. -/
structure Mount where
  max_read : Nat
  max_write : Nat
  iosize : Nat

def MAXBSIZE : Nat := 65536

/-- Modelled from the spec: `fuse_iosize` (its definition is not part of the
sources).  The block size is the smaller of the negotiated I/O size and the
platform maximum block size. -/
def fuse_iosize (mnt : Mount) : Nat :=
  min mnt.iosize MAXBSIZE

/-- Modelled from the spec: `fuse_filehandle_getrw` (fuse_file.c is not part of
the sources).  Resolves the open handle for the required intent and fails
when none exists; the error is `EBADF`. -/
def fuse_filehandle_getrw (fv : fuse_vnode_data) (t : FufhType) : Except Nat Nat :=
  match fv.fufh t with
  | some fh => .ok fh
  | none => .error EBADF

/-- Modelled from the spec: `fuse_vnode_setsize` (its definition is not part of
the sources) updates the tracked size to the new size. -/
def fuse_vnode_setsize (fv : fuse_vnode_data) (newsize : Int) : fuse_vnode_data :=
  { fv with filesize := newsize }

/-- Modelled from the spec: `fuse_vnode_extend` (its definition is not part of
the sources) extends the tracked size to the new size; it never shrinks it. -/
def fuse_vnode_extend (fv : fuse_vnode_data) (newsize : Int) : fuse_vnode_data :=
  if fv.filesize < newsize then { fv with filesize := newsize } else fv

/-! ## Direct backends -/

/-- The `while (uio->uio_resid > 0)` loop of `fuse_read_directbackend`. -/
def read_direct_loop {σ : Type} (d : Daemon σ) (max_read fh : Nat) :
    Nat → World σ → Uio → Option (Nat × World σ × Uio)
  | 0, w, uio => if 0 < uio.uio_resid then none else some (0, w, uio)
  | fuel + 1, w, uio =>
    if 0 < uio.uio_resid then
      let size := min uio.uio_resid.toNat max_read
      let ans := d.read w.st fh uio.uio_offset size
      let w1 : World σ := { st := ans.1, log := w.log ++ [Event.read fh uio.uio_offset size ans.2.1 ans.2.2.length] }
      if ans.2.1 ≠ 0 then some (ans.2.1, w1, uio)
      else
        let iosize := ans.2.2.length
        let mv := uiomove (fun i => ans.2.2.getD i 0) (min size iosize) uio
        if mv.1 ≠ 0 then some (mv.1, w1, mv.2.2)
        else if iosize < size then some (0, w1, mv.2.2)
        else read_direct_loop d max_read fh fuel w1 mv.2.2
    else some (0, w, uio)

/-- Embedding of `fuse_read_directbackend`. -/
def fuse_read_directbackend {σ : Type} (d : Daemon σ) (max_read fh : Nat)
    (fuel : Nat) (w : World σ) (uio : Uio) : Option (Nat × World σ × Uio) :=
  if uio.uio_resid = 0 then some (0, w, uio)
  else read_direct_loop d max_read fh fuel w uio

/-- The `while (uio->uio_resid > 0)` loop of `fuse_write_directbackend`.
`diff` is a C `int`: the difference of the chunk size and the acknowledged
size (a `uint32_t`) is truncated to 32 bits. -/
def write_direct_loop {σ : Type} (d : Daemon σ) (max_write fh : Nat) :
    Nat → World σ → fuse_vnode_data → Uio → Option (Nat × World σ × fuse_vnode_data × Uio)
  | 0, w, fv, uio => if 0 < uio.uio_resid then none else some (0, w, fv, uio)
  | fuel + 1, w, fv, uio =>
    if 0 < uio.uio_resid then
      let chunksize := min uio.uio_resid.toNat max_write
      let mv := uiomove (fun _ => 0) chunksize uio
      if mv.1 ≠ 0 then some (mv.1, w, fv, mv.2.2)
      else
        let payload := bytesOf mv.2.1 chunksize
        let ans := d.write w.st fh uio.uio_offset chunksize payload
        let w1 : World σ :=
          { st := ans.1, log := w.log ++
            [Event.write fh uio.uio_offset chunksize payload ans.2.1 (ans.2.2 % 4294967296)] }
        if ans.2.1 ≠ 0 then some (ans.2.1, w1, fv, mv.2.2)
        else
          let diff := toInt32 ((chunksize : Int) - ((ans.2.2 % 4294967296 : Nat) : Int))
          if diff < 0 then some (EINVAL, w1, fv, mv.2.2)
          else
            let uio2 : Uio := { mv.2.2 with
              uio_resid := mv.2.2.uio_resid + diff
              uio_offset := mv.2.2.uio_offset - diff }
            let fv2 := if fv.filesize < uio2.uio_offset
              then fuse_vnode_setsize fv uio2.uio_offset else fv
            write_direct_loop d max_write fh fuel w1 fv2 uio2
    else some (0, w, fv, uio)

/-- Embedding of `fuse_write_directbackend`. -/
def fuse_write_directbackend {σ : Type} (d : Daemon σ) (max_write fh : Nat)
    (fuel : Nat) (w : World σ) (fv : fuse_vnode_data) (uio : Uio) :
    Option (Nat × World σ × fuse_vnode_data × Uio) :=
  if uio.uio_resid = 0 then some (0, w, fv, uio)
  else write_direct_loop d max_write fh fuel w fv uio

/-! ## Cache blocks and the kernel buffer cache -/

inductive BioCmd where
  | BIO_READ
  | BIO_WRITE
deriving DecidableEq, Repr

/-- The fields of `struct buf` the data path reads or writes; every flag of
`b_flags` and `b_ioflags` that occurs in the source is a field of its own. -/
structure Buf where
  b_blkno : Int
  b_bcount : Int
  b_data : Nat → Nat
  b_resid : Int
  b_error : Nat
  b_iocmd : BioCmd
  b_dirtyoff : Int
  b_dirtyend : Int
  B_CACHE : Bool
  B_INVAL : Bool
  B_NOCACHE : Bool
  B_DELWRI : Bool
  B_DONE : Bool
  B_EINTR : Bool
  B_ASYNC : Bool
  B_PAGING : Bool
  B_NEEDCOMMIT : Bool
  BIO_ERROR : Bool

inductive vtype where
  | VNON
  | VREG
  | VDIR
  | VBLK
  | VCHR
  | VLNK
  | VSOCK
  | VFIFO
  | VBAD
deriving DecidableEq, Repr

/-- The vnode: `v_type`, the node `v_data` (`VTOFUD(vp)`, present on every
vnode the data path is called on) and `bufs`, the blocks the buffer cache
holds for it, by logical block number. -/
structure Vnode where
  v_type : vtype
  v_data : fuse_vnode_data
  bufs : Int → Option Buf

/-- Embedding of `fuse_invalidate_attr`: zeroes `cached_attrs_valid` of the
node. -/
def fuse_invalidate_attr (vp : Vnode) : Vnode :=
  { vp with v_data := { vp.v_data with cached_attrs_valid := (0, 0) } }

/-- A buffer fresh from `getnewbuf`: no memory, no flags. -/
def newbuf (lbn : Int) : Buf :=
  { b_blkno := lbn, b_bcount := 0, b_data := fun _ => 0, b_resid := 0, b_error := 0,
    b_iocmd := .BIO_READ, b_dirtyoff := 0, b_dirtyend := 0,
    B_CACHE := false, B_INVAL := false, B_NOCACHE := false, B_DELWRI := false,
    B_DONE := false, B_EINTR := false, B_ASYNC := false, B_PAGING := false,
    B_NEEDCOMMIT := false, BIO_ERROR := false }

/-- Kernel `allocbuf(bp, size)` for a VMIO buffer: `B_CACHE` is set when the
buffer is or becomes empty, and a buffer that grows loses `B_CACHE`, its new
pages not being valid. -/
def allocbuf (bp : Buf) (size : Int) : Buf :=
  let c := if size = 0 ∨ bp.b_bcount = 0 then true else bp.B_CACHE
  if bp.b_bcount < size then { bp with b_bcount := size, B_CACHE := false }
  else { bp with b_bcount := size, B_CACHE := c }

/-- Kernel `getblk(vp, lbn, size, ...)` without contention: the block the
cache holds for `lbn`, resized to `size`, or a fresh one.  The caller owns the
block until `brelse`. -/
def getblk (vp : Vnode) (lbn : Int) (size : Int) : Buf :=
  match vp.bufs lbn with
  | some bp => if bp.b_bcount = size then { bp with B_DONE := false }
    else allocbuf { bp with B_DONE := false } size
  | none => allocbuf (newbuf lbn) size

/-- Kernel `brelse(bp)`: a failed write is kept for a retry, a block that is
invalid, in error or empty leaves the cache, any other block stays. -/
def brelse (vp : Vnode) (bp : Buf) : Vnode :=
  if bp.b_iocmd = .BIO_WRITE ∧ bp.BIO_ERROR = true ∧ bp.B_INVAL = false then
    { vp with bufs := fun l => if l = bp.b_blkno
        then some { bp with BIO_ERROR := false, B_DELWRI := true } else vp.bufs l }
  else if bp.B_NOCACHE = true ∨ bp.B_INVAL = true ∨ bp.BIO_ERROR = true ∨ bp.b_bcount ≤ 0 then
    { vp with bufs := fun l => if l = bp.b_blkno then none else vp.bufs l }
  else
    { vp with bufs := fun l => if l = bp.b_blkno then some bp else vp.bufs l }

/-- Kernel `bufdone(bp)`: marks the transfer done; a read that ended without
error makes the block valid. -/
def bufdone (bp : Buf) : Buf :=
  if bp.b_iocmd = .BIO_READ ∧ bp.B_INVAL = false ∧ bp.B_NOCACHE = false ∧ bp.BIO_ERROR = false
  then { bp with B_DONE := true, B_CACHE := true }
  else { bp with B_DONE := true }

/-- Kernel `bufwait(bp)`: the result of a finished transfer. -/
def bufwait (bp : Buf) : Nat × Buf :=
  if bp.B_EINTR = true then (EINTR, { bp with B_EINTR := false })
  else if bp.BIO_ERROR = true then (if bp.b_error = 0 then EIO else bp.b_error, bp)
  else (0, bp)

/-- Kernel `bdirty(bp)`: marks the block as a delayed write. -/
def bdirty (bp : Buf) : Buf :=
  { bp with B_DELWRI := true, b_iocmd := .BIO_WRITE }

/-- Kernel `bzero(b_data + off, len)`. -/
def bzero (data : Nat → Nat) (off len : Nat) : Nat → Nat :=
  fun i => if off ≤ i ∧ i < off + len then 0 else data i

/-! ## Strategy bridge -/

/-- The start of the I/O: `B_INVAL` and `BIO_ERROR` are cleared. -/
def strategy_clear (bp : Buf) : Buf :=
  { bp with B_INVAL := false, BIO_ERROR := false }

/-- The uio of a fill: the whole block, read into `b_data`. -/
def strategy_read_uio (mnt : Mount) (bp : Buf) : Uio :=
  { uio_rw := .UIO_READ
    uio_offset := bp.b_blkno * (fuse_iosize mnt : Int)
    uio_resid := bp.b_bcount
    iov_base := 0
    mem := bp.b_data
    limit := none }

/-- The block after the direct read of a fill returned `error` and left the
uio `uio1`: a short read without error has its remainder zero-filled and its
residual cleared; an error is recorded in the block.  `nread` and `left` are
C `int`s. -/
def strategy_read_done (bp : Buf) (error : Nat) (uio1 : Uio) : Buf :=
  let short := error = 0 ∧ uio1.uio_resid ≠ 0
  let nread := toInt32 (bp.b_bcount - uio1.uio_resid)
  let left := toInt32 uio1.uio_resid
  let data1 := if short ∧ 0 < left then bzero uio1.mem nread.toNat left.toNat else uio1.mem
  let resid1 := if short then 0 else uio1.uio_resid
  if error ≠ 0 then
    bufdone { bp with b_data := data1, BIO_ERROR := true, b_error := error, b_resid := resid1 }
  else bufdone { bp with b_data := data1, b_resid := resid1 }

/-- The dirty interval of a flush, chopped at the tracked size. -/
def strategy_write_clamp (mnt : Mount) (fv : fuse_vnode_data) (bp : Buf) : Buf :=
  if fv.filesize < bp.b_blkno * (fuse_iosize mnt : Int) + bp.b_dirtyend
  then { bp with b_dirtyend := fv.filesize - bp.b_blkno * (fuse_iosize mnt : Int) }
  else bp

/-- The uio of a flush: the dirty interval, written from `b_data + b_dirtyoff`. -/
def strategy_write_uio (mnt : Mount) (bp : Buf) : Uio :=
  { uio_rw := .UIO_WRITE
    uio_offset := bp.b_blkno * (fuse_iosize mnt : Int) + bp.b_dirtyoff
    uio_resid := bp.b_dirtyend - bp.b_dirtyoff
    iov_base := bp.b_dirtyoff.toNat
    mem := bp.b_data
    limit := none }

/-- The block after the direct write of a flush returned `error`: a retryable
error (or a pending commit) keeps the dirty interval and marks the block as a
delayed write; anything else clears the dirty interval, an error also making
the block invalid. -/
def strategy_write_flags (bp : Buf) (error : Nat) : Buf :=
  if error = EINTR ∨ error = ETIMEDOUT ∨ (error = 0 ∧ bp.B_NEEDCOMMIT = true) then
    let b1 : Buf := { bp with B_INVAL := false, B_NOCACHE := false }
    let b2 : Buf := if b1.B_PAGING = false then { bdirty b1 with B_DONE := false } else b1
    if (error = EINTR ∨ error = ETIMEDOUT) ∧ b2.B_ASYNC = false
    then { b2 with B_EINTR := true } else b2
  else
    let b1 : Buf := if error ≠ 0
      then { bp with BIO_ERROR := true, B_INVAL := true, b_error := error }
      else bp
    { b1 with b_dirtyoff := 0, b_dirtyend := 0 }

/-- Embedding of `fuse_io_strategy`.  Returns the error, the world, the node
and the block afterwards. -/
def fuse_io_strategy {σ : Type} (d : Daemon σ) (mnt : Mount) (fuel : Nat)
    (w : World σ) (fv : fuse_vnode_data) (bp : Buf) :
    Option (Nat × World σ × fuse_vnode_data × Buf) :=
  match fuse_filehandle_getrw fv
      (if bp.b_iocmd = .BIO_READ then .FUFH_RDONLY else .FUFH_WRONLY) with
  | .error e => some (e, w, fv, { bp with BIO_ERROR := true, b_error := e })
  | .ok fh =>
    let bp0 := strategy_clear bp
    if bp0.b_iocmd = .BIO_READ then
      match fuse_read_directbackend d mnt.max_read fh fuel w (strategy_read_uio mnt bp0) with
      | none => none
      | some r => some (r.1, r.2.1, fv, strategy_read_done bp0 r.1 r.2.2)
    else
      let bp1 := strategy_write_clamp mnt fv bp0
      if bp1.b_dirtyoff < bp1.b_dirtyend then
        match fuse_write_directbackend d mnt.max_write fh fuel w fv
            (strategy_write_uio mnt bp1) with
        | none => none
        | some r =>
          some (r.1, r.2.1, r.2.2.1,
            bufdone { strategy_write_flags bp1 r.1 with b_resid := r.2.2.2.uio_resid })
      else some (0, w, fv, bufdone { bp1 with b_resid := 0 })

/-- The block as `bwrite` hands it to the strategy routine. -/
def bwrite_start (bp : Buf) : Buf :=
  { bp with
    B_DELWRI := false
    B_DONE := false
    BIO_ERROR := false
    B_CACHE := true
    b_iocmd := .BIO_WRITE }

/-- Kernel `bwrite(bp)`: the synchronous write of a block through the
strategy routine, followed by its release.  Returns the result of `bufwait`,
the world, the vnode after the release, and the block as the strategy routine
left it. -/
def bwrite {σ : Type} (d : Daemon σ) (mnt : Mount) (fuel : Nat)
    (w : World σ) (vp : Vnode) (bp : Buf) : Option (Nat × World σ × Vnode × Buf) :=
  let w0 : World σ :=
    { w with log := w.log ++ [Event.bwrite bp.b_blkno bp.b_dirtyoff bp.b_dirtyend] }
  if bp.B_INVAL = true then some (0, w0, brelse vp bp, bp)
  else
    match fuse_io_strategy d mnt fuel w0 vp.v_data (bwrite_start bp) with
    | none => none
    | some r =>
      if bp.B_ASYNC = false then
        some ((bufwait r.2.2.2).1, r.2.1,
          brelse { vp with v_data := r.2.2.1 } (bufwait r.2.2.2).2, (bufwait r.2.2.2).2)
      else some (0, r.2.1, { vp with v_data := r.2.2.1 }, r.2.2.2)

/-! ## Cached backends -/

/-- Offset within the block: `uio_offset & (biosize - 1)`. -/
def blockoff (offset : Int) (biosize : Nat) : Int :=
  ((offset.toNat &&& (biosize - 1) : Nat) : Int)

/-- The kernel buffer `b_data + on`. -/
def dataAt (data : Nat → Nat) (on_ : Nat) : Nat → Nat :=
  fun i => data (on_ + i)

/-- The block data after the kernel buffer `b_data + on` became `cp`. -/
def dataPut (data : Nat → Nat) (on_ : Nat) (cp : Nat → Nat) : Nat → Nat :=
  fun i => if on_ ≤ i then cp (i - on_) else data i

/-- The assignment `bp->b_iocmd = cmd`. -/
def set_iocmd (bp : Buf) (cmd : BioCmd) : Buf :=
  { bp with b_iocmd := cmd }

/-- The fill of an acquired block: a block without `B_CACHE` is read through
the strategy routine, a valid one is left alone. -/
def bio_fill {σ : Type} (d : Daemon σ) (mnt : Mount) (fuel : Nat)
    (w : World σ) (fv : fuse_vnode_data) (bp : Buf) :
    Option (Nat × World σ × fuse_vnode_data × Buf) :=
  if bp.B_CACHE = false
  then fuse_io_strategy d mnt fuel w fv (set_iocmd bp .BIO_READ)
  else some (0, w, fv, bp)

/-- The size of the block of a cached read: 0 past the end of the file, the
rest of the file in the block that holds the end, else the size carried
over. -/
def read_bio_bcount (filesize lbn biosize bcount : Int) : Int :=
  if filesize ≤ lbn * biosize then 0
  else if filesize < (lbn + 1) * biosize then filesize - lbn * biosize
  else bcount

/-- The number of bytes a turn of the cached read copies out. -/
def read_bio_n (on_ bcount resid : Int) : Int :=
  if on_ < bcount then min (bcount - on_) resid else 0

/-- The `do ... while` loop of `fuse_read_biobackend`; `bcount` is carried from
one turn to the next as in the source. -/
def read_bio_loop {σ : Type} (d : Daemon σ) (mnt : Mount) (filesize : Int) :
    Nat → Int → World σ → Vnode → Uio → Option (Nat × World σ × Vnode × Uio)
  | 0, _, _, _, _ => none
  | fuel + 1, bcount, w, vp, uio =>
    let biosize : Int := fuse_iosize mnt
    let lbn := uio.uio_offset / biosize
    let on_ := blockoff uio.uio_offset (fuse_iosize mnt)
    let bcount1 := read_bio_bcount filesize lbn biosize bcount
    match bio_fill d mnt fuel w vp.v_data (getblk vp lbn bcount1) with
    | none => none
    | some r =>
      let vp1 : Vnode := { vp with v_data := r.2.2.1 }
      if r.1 ≠ 0 then some (r.1, r.2.1, brelse vp1 r.2.2.2, uio)
      else
        let n := read_bio_n on_ bcount1 uio.uio_resid
        let mv := if 0 < n then uiomove (dataAt r.2.2.2.b_data on_.toNat) n.toNat uio
          else (0, dataAt r.2.2.2.b_data on_.toNat, uio)
        let vp2 := brelse vp1 r.2.2.2
        if mv.1 = 0 ∧ 0 < mv.2.2.uio_resid ∧ 0 < n
        then read_bio_loop d mnt filesize fuel bcount1 r.2.1 vp2 mv.2.2
        else some (mv.1, r.2.1, vp2, mv.2.2)

/-- Embedding of `fuse_read_biobackend`. -/
def fuse_read_biobackend {σ : Type} (d : Daemon σ) (mnt : Mount) (fuel : Nat)
    (w : World σ) (vp : Vnode) (uio : Uio) : Option (Nat × World σ × Vnode × Uio) :=
  if uio.uio_resid = 0 then some (0, w, vp, uio)
  else if uio.uio_offset < 0 then some (EINVAL, w, vp, uio)
  else read_bio_loop d mnt vp.v_data.filesize fuel (min MAXBSIZE (fuse_iosize mnt)) w vp uio

/-- Block acquisition of `fuse_write_biobackend` (the code from the label
`again` up to the test of `bp`): the size `bcount` of the block, the block,
and the node after the size update.  The first branch is the append case. -/
def write_bio_getblk (mnt : Mount) (vp : Vnode) (uio : Uio) (lbn on_ n : Int) :
    Int × Buf × fuse_vnode_data :=
  let biosize : Int := fuse_iosize mnt
  let fv := vp.v_data
  if uio.uio_offset = fv.filesize ∧ n ≠ 0 then
    let bp := getblk vp lbn on_
    let fv1 := fuse_vnode_extend fv (uio.uio_offset + n)
    let save := bp.B_CACHE
    let bp1 := allocbuf bp (on_ + n)
    (on_ + n, { bp1 with B_CACHE := bp1.B_CACHE || save }, fv1)
  else
    let bcount0 := on_ + n
    let bcount :=
      if lbn * biosize + bcount0 < fv.filesize then
        if (lbn + 1) * biosize < fv.filesize then biosize
        else fv.filesize - lbn * biosize
      else bcount0
    let bp := getblk vp lbn bcount
    let fv1 := if fv.filesize < uio.uio_offset + n
      then fuse_vnode_extend fv (uio.uio_offset + n) else fv
    (bcount, bp, fv1)

/-- The dirty interval after a copy of `n` bytes at `on`
(`if (n) { ... }` at the end of the loop body). -/
def dirty_merge (bp : Buf) (on_ n : Int) : Buf :=
  if n ≠ 0 then
    if 0 < bp.b_dirtyend then
      { bp with b_dirtyoff := min on_ bp.b_dirtyoff, b_dirtyend := max (on_ + n) bp.b_dirtyend }
    else { bp with b_dirtyoff := on_, b_dirtyend := on_ + n }
  else bp

/-- A write that covers the whole block makes it valid without a fill. -/
def write_bio_cover (bp : Buf) (on_ n bcount : Int) : Buf :=
  if on_ = 0 ∧ n = bcount
  then { bp with B_CACHE := true, B_INVAL := false, BIO_ERROR := false } else bp

/-- The dirty interval chopped at `bcount`, and zeroed when it is reversed or
degenerate. -/
def write_bio_chop (bp : Buf) (bcount : Int) : Buf :=
  let bp2 : Buf := if bcount < bp.b_dirtyend then { bp with b_dirtyend := bcount } else bp
  if bp2.b_dirtyend ≤ bp2.b_dirtyoff then { bp2 with b_dirtyoff := 0, b_dirtyend := 0 } else bp2

/-- The test that forces a write-back: the block is dirty and the chunk
`[on, on + n)` does not touch its dirty interval. -/
def dirty_gap (bp : Buf) (on_ n : Int) : Prop :=
  0 < bp.b_dirtyend ∧ (bp.b_dirtyend < on_ ∨ on_ + n < bp.b_dirtyoff)

instance (bp : Buf) (on_ n : Int) : Decidable (dirty_gap bp on_ n) := by
  unfold dirty_gap; infer_instance

/-- The block after the caller's bytes were copied to `b_data + on`, the
kernel buffer now being `cp`. -/
def write_bio_copied (bp : Buf) (on_ : Int) (cp : Nat → Nat) : Buf :=
  { bp with b_data := dataPut bp.b_data on_.toNat cp, B_NEEDCOMMIT := false }

/-- One turn of the `do ... while` loop of `fuse_write_biobackend` for the
chunk `(lbn, on, n)`, from the label `again`; the fuel bounds the number of
`goto again`.  The boolean of the result says whether the turn ended without
a `break`. -/
def write_bio_again {σ : Type} (d : Daemon σ) (mnt : Mount) (lbn on_ n : Int) :
    Nat → World σ → Vnode → Uio → Option (Nat × Bool × World σ × Vnode × Uio)
  | 0, _, _, _ => none
  | fuel + 1, w, vp, uio =>
    let g := write_bio_getblk mnt vp uio lbn on_ n
    let bcount := g.1
    let bpB := write_bio_cover g.2.1 on_ n bcount
    match bio_fill d mnt fuel w g.2.2 bpB with
    | none => none
    | some r =>
      let vp1 : Vnode := { vp with v_data := r.2.2.1 }
      if bpB.B_CACHE = false ∧ r.2.2.2.b_error ≠ 0 then
        some (r.2.2.2.b_error, false, r.2.1, brelse vp1 r.2.2.2, uio)
      else
        let bp3 := write_bio_chop r.2.2.2 bcount
        if dirty_gap bp3 on_ n then
          match bwrite d mnt fuel r.2.1 vp1 bp3 with
          | none => none
          | some r2 =>
            if r2.2.2.2.b_error = EINTR then some (EINTR, false, r2.2.1, r2.2.2.1, uio)
            else write_bio_again d mnt lbn on_ n fuel r2.2.1 r2.2.2.1 uio
        else
          let w2 : World σ := { r.2.1 with log := r.2.1.log ++
            [Event.copyin lbn on_ n bp3.b_dirtyoff bp3.b_dirtyend] }
          let mv := uiomove (dataAt bp3.b_data on_.toNat) n.toNat uio
          let bp4 := write_bio_copied bp3 on_ mv.2.1
          if mv.1 ≠ 0 then
            some (mv.1, false, w2,
              brelse vp1 { bp4 with BIO_ERROR := true, b_error := mv.1 }, mv.2.2)
          else
            match bwrite d mnt fuel w2 vp1 (dirty_merge bp4 on_ n) with
            | none => none
            | some r3 =>
              if r3.1 ≠ 0 then some (r3.1, false, r3.2.1, r3.2.2.1, mv.2.2)
              else some (0, true, r3.2.1, r3.2.2.1, mv.2.2)

/-- The `do ... while` loop of `fuse_write_biobackend`. -/
def write_bio_loop {σ : Type} (d : Daemon σ) (mnt : Mount) :
    Nat → World σ → Vnode → Uio → Option (Nat × World σ × Vnode × Uio)
  | 0, _, _, _ => none
  | fuel + 1, w, vp, uio =>
    let biosize : Int := fuse_iosize mnt
    let lbn := uio.uio_offset / biosize
    let on_ := blockoff uio.uio_offset (fuse_iosize mnt)
    let n := min (biosize - on_) uio.uio_resid
    match write_bio_again d mnt lbn on_ n (fuel + 1) w vp uio with
    | none => none
    | some r =>
      if r.2.1 = true ∧ 0 < r.2.2.2.2.uio_resid ∧ 0 < n
      then write_bio_loop d mnt fuel r.2.2.1 r.2.2.2.1 r.2.2.2.2
      else some (r.1, r.2.2.1, r.2.2.2.1, r.2.2.2.2)

/-- Embedding of `fuse_write_biobackend`. -/
def fuse_write_biobackend {σ : Type} (d : Daemon σ) (mnt : Mount) (fuel : Nat)
    (w : World σ) (vp : Vnode) (uio : Uio) : Option (Nat × World σ × Vnode × Uio) :=
  if vp.v_type ≠ .VREG then some ( EIO, w, vp, uio)
  else if uio.uio_offset < 0 then some (EINVAL, w, vp, uio)
  else if uio.uio_resid = 0 then some (0, w, vp, uio)
  else write_bio_loop d mnt fuel w vp uio

/-! ## Dispatcher -/

/-- Embedding of `fuse_io_dispatch`; `io_direct` is `ioflag & IO_DIRECT`. -/
def fuse_io_dispatch {σ : Type} (d : Daemon σ) (mnt : Mount) (fuel : Nat)
    (io_direct : Bool) (w : World σ) (vp : Vnode) (uio : Uio) :
    Option (Nat × World σ × Vnode × Uio) :=
  match fuse_filehandle_getrw vp.v_data
      (if uio.uio_rw = .UIO_READ then .FUFH_RDONLY else .FUFH_WRONLY) with
  | .error e => some (e, w, vp, uio)
  | .ok fh =>
    let direct := io_direct || !vp.v_data.cache_enable
    let r : Option (Nat × World σ × Vnode × Uio) :=
      match uio.uio_rw with
      | .UIO_READ =>
        if direct then
          (fuse_read_directbackend d mnt.max_read fh fuel w uio).map
            (fun x => (x.1, x.2.1, vp, x.2.2))
        else fuse_read_biobackend d mnt fuel w vp uio
      | .UIO_WRITE =>
        if direct then
          (fuse_write_directbackend d mnt.max_write fh fuel w vp.v_data uio).map
            (fun x => (x.1, x.2.1, { vp with v_data := x.2.2.1 }, x.2.2.2))
        else fuse_write_biobackend d mnt fuel w vp uio
    r.map (fun x => (x.1, x.2.1, fuse_invalidate_attr x.2.2.1, x.2.2.2))

/-! ## Well-formed callers and example data -/

/-- The caller's segment is accessible: no address of the residual range
faults. -/
def NoFault (uio : Uio) : Prop :=
  ∀ a, uio.limit = some a → uio.iov_base + uio.uio_resid.toNat ≤ a

/-- The exchanges of a direct read of `N` bytes at `off` with chunk limit `M`
that is answered in full: exchange `i` asks for `min (N - i * M) M` bytes at
`off + i * M` and is answered with as many. -/
def fullReadLog (fh : Nat) (off : Int) (N M : Nat) : List Event :=
  (List.range ((N + M - 1) / M)).map
    (fun (i : Nat) => Event.read fh (off + (i : Int) * (M : Int)) (min (N - i * M) M) 0
      (min (N - i * M) M))

/-- State of a remote service that keeps one file: its bytes by offset and
its size. -/
structure FileSt where
  data : Int → Nat
  size : Int

/-- A remote service that stores exactly what it is sent and acknowledges all
of it; a read returns the stored bytes of the requested range, cut at the end
of the file. -/
def fileDaemon : Daemon FileSt where
  read st _ off size :=
    (st, 0, bytesOf (fun i => st.data (off + (i : Int)))
      (min (size : Int) (st.size - off)).toNat)
  write st _ off size payload :=
    ({ data := fun x => if off ≤ x ∧ x < off + size then payload.getD (x - off).toNat 0
                        else st.data x,
       size := max st.size (off + size) }, 0, size)

/-- A file of 20 bytes, byte `x` being `x % 7 + 1`. -/
def exFile : FileSt :=
  { data := fun x => x.toNat % 7 + 1, size := 20 }

def exWorld : World FileSt :=
  { st := exFile, log := [] }

/-- A node of tracked size 20 with both handles open and a stale-able
attribute snapshot. -/
def exNode : fuse_vnode_data :=
  { nid := 1, fufh := fun _ => some 5, cached_attrs_valid := (3, 4), filesize := 20,
    nlookup := 1, cache_enable := true }

def exVnode : Vnode :=
  { v_type := .VREG, v_data := exNode, bufs := fun _ => none }

/-- The same node without any open handle. -/
def exVnodeClosed : Vnode :=
  { v_type := .VREG, v_data := { exNode with fufh := fun _ => none }, bufs := fun _ => none }

def exMount : Mount :=
  { max_read := 3, max_write := 3, iosize := 8 }

/-- A read of `resid` bytes at `off` into user memory. -/
def exRead (off resid : Int) : Uio :=
  { uio_rw := .UIO_READ, uio_offset := off, uio_resid := resid, iov_base := 0,
    mem := fun _ => 99, limit := some 1000 }

/-- A write of the bytes `dat` at `off` from user memory. -/
def exWrite (off : Int) (dat : List Nat) : Uio :=
  { uio_rw := .UIO_WRITE, uio_offset := off, uio_resid := dat.length, iov_base := 0,
    mem := fun i => dat.getD i 0, limit := some 1000 }

/-- A remote service that answers every read in full (with zero bytes) and
acknowledges every write in full. -/
def zeroDaemon : Daemon Unit where
  read _ _ _ size := ((), 0, List.replicate size 0)
  write _ _ _ size _ := ((), 0, size)

/-- A remote service that acknowledges its first write with `a` bytes and
every later write in full; its state counts the writes. -/
def ackDaemon (a : Nat) : Daemon Nat where
  read st _ _ size := (st, 0, List.replicate size 0)
  write st _ _ size _ := (st + 1, 0, if st = 0 then a else size)

/-- A write of `resid` bytes at `off` from kernel memory, byte `i` of the
source being `i + 1`. -/
def exSysWrite (off resid : Int) : Uio :=
  { uio_rw := .UIO_WRITE, uio_offset := off, uio_resid := resid, iov_base := 0,
    mem := fun i => i + 1, limit := none }

/-- The mount of the 4096-byte example: block size 4096. -/
def exMount4k : Mount :=
  { max_read := 128, max_write := 128, iosize := 4096 }

/-- A file of 4096 bytes on the remote service. -/
def exWorld4k : World FileSt :=
  { st := { data := fun x => x.toNat % 7 + 1, size := 4096 }, log := [] }

/-- A regular file of tracked size 4096 with nothing in the buffer cache. -/
def exVnode4k : Vnode :=
  { v_type := .VREG, v_data := { exNode with filesize := 4096 }, bufs := fun _ => none }

/-- Whether a log entry is a copy of caller bytes into a block. -/
def Event.isCopyin : Event → Bool
  | .copyin _ _ _ _ _ => true
  | _ => false

/-- The log `b` extends the log `a` by entries that all satisfy `P`. -/
def LogExt (P : Event → Prop) (a b : List Event) : Prop :=
  ∃ L, b = a ++ L ∧ ∀ e ∈ L, P e

/-- The example vnode with block 2 cached, valid, and dirty in `[0, 1)`. -/
def exVnodeDirty : Vnode :=
  { exVnode with
    bufs := fun l => if l = 2 then
      some { newbuf 2 with
        b_bcount := 4, b_data := fun i => i + 1, B_CACHE := true, B_DELWRI := true,
        b_dirtyoff := 0, b_dirtyend := 1 }
      else none }

/-! ## Identity table -/

/-- A remote service that fails every write with the error `e`; reads are
answered in full with zero bytes. -/
def failDaemon (e : Nat) : Daemon Unit where
  read _ _ _ size := ((), 0, List.replicate size 0)
  write _ _ _ _ _ := ((), e, 0)

/-- A remote service that fails its first write with the error `e` and
acknowledges every later write in full; reads are answered in full with zero
bytes.  Its state counts the writes. -/
def failFirstDaemon (e : Nat) : Daemon Nat where
  read st _ _ size := (st, 0, List.replicate size 0)
  write st _ _ size _ := (st + 1, if st = 0 then e else 0, size)

/-- Block 2 of the example file, valid, with the dirty interval
`[dirtyoff, dirtyend)`, handed to the strategy routine for a write. -/
def exDirtyBuf (dirtyoff dirtyend : Int) : Buf :=
  { newbuf 2 with
    b_bcount := 8, b_data := fun i => i + 1, B_CACHE := true, b_iocmd := .BIO_WRITE,
    b_dirtyoff := dirtyoff, b_dirtyend := dirtyend }

/-- The exchanges of a direct write of `N` bytes at `off` with chunk limit `M`
whose chunks are all acknowledged in full: exchange `i` sends the
`min (N - i * M) M` bytes `src (i * M) ...` to the offset `off + i * M`. -/
def fullWriteLog (fh : Nat) (off : Int) (N M : Nat) (src : Nat → Nat) : List Event :=
  (List.range ((N + M - 1) / M)).map
    (fun (i : Nat) => Event.write fh (off + (i : Int) * (M : Int)) (min (N - i * M) M)
      (bytesOf (fun j => src (i * M + j)) (min (N - i * M) M)) 0 (min (N - i * M) M))

/-! ## The buffer cache as the kernel files it -/

/-- A block as the buffer cache files it under the number `l`: it carries
that number, its dirty interval starts at a non-negative offset, and it is
neither invalid (`brelse` discards such blocks) nor under an asynchronous
transfer. -/
def BufWF (l : Int) (bp : Buf) : Prop :=
  bp.b_blkno = l ∧ 0 ≤ bp.b_dirtyoff ∧ bp.B_INVAL = false ∧ bp.B_ASYNC = false

/-- Every block of the buffer cache of the vnode is filed as `BufWF` says. -/
def CacheWF (vp : Vnode) : Prop :=
  ∀ l bp, vp.bufs l = some bp → BufWF l bp

/-! # Properties -/

/-! ## uiomove -/

theorem uio_faults_false (uio : Uio) (cnt : Nat) (h : NoFault uio)
    (hc : cnt ≤ uio.uio_resid.toNat) : uio_faults uio cnt = false := by
  unfold uio_faults
  cases hl : uio.limit with
  | none => rfl
  | some a =>
    have := h a hl
    simp only [decide_eq_false_iff_not, not_lt]
    omega

theorem uiomove_ok (cp : Nat → Nat) (n : Nat) (uio : Uio) (h : NoFault uio)
    (hn : (n : Int) ≤ uio.uio_resid) :
    (uiomove cp n uio).1 = 0 ∧
    (uiomove cp n uio).2.2.uio_resid = uio.uio_resid - n ∧
    (uiomove cp n uio).2.2.uio_offset = uio.uio_offset + n ∧
    (uiomove cp n uio).2.2.iov_base = uio.iov_base + n ∧
    (uiomove cp n uio).2.2.limit = uio.limit ∧
    (uiomove cp n uio).2.2.uio_rw = uio.uio_rw := by
  have hmin : min n uio.uio_resid.toNat = n := by omega
  have hf := uio_faults_false uio n h (by omega)
  unfold uiomove
  simp only [hmin, hf, Bool.false_eq_true, if_false]
  cases hrw : uio.uio_rw <;> simp [uio_advance, hrw]

theorem uiomove_nofault (cp : Nat → Nat) (n : Nat) (uio : Uio) (h : NoFault uio)
    (hn : (n : Int) ≤ uio.uio_resid) : NoFault (uiomove cp n uio).2.2 := by
  obtain ⟨_, h2, _, h4, h5, _⟩ := uiomove_ok cp n uio h hn
  intro a ha
  rw [h5] at ha
  have := h a ha
  rw [h2, h4]
  omega

theorem fullReadLog_zero (fh : Nat) (off : Int) (M : Nat) (hM : 0 < M) :
    fullReadLog fh off 0 M = [] := by
  unfold fullReadLog
  have : (0 + M - 1) / M = 0 := by
    apply Nat.div_eq_of_lt; omega
  rw [this]; rfl

theorem fullReadLog_pos (fh : Nat) (off : Int) (N M : Nat) (hM : 0 < M) (hN : 0 < N) :
    fullReadLog fh off N M =
      Event.read fh off (min N M) 0 (min N M) ::
        fullReadLog fh (off + (min N M : Nat)) (N - min N M) M := by
  unfold fullReadLog
  by_cases h : N ≤ M
  · have h1 : (N + M - 1) / M = 1 := by
      apply Nat.div_eq_of_lt_le <;> omega
    have h2 : (N - min N M + M - 1) / M = 0 := by
      apply Nat.div_eq_of_lt; omega
    rw [h1, h2]
    simp [List.range_succ]
  · have hmin : min N M = M := by omega
    have h1 : (N + M - 1) / M = (N - M + M - 1) / M + 1 := by
      have : N + M - 1 = (N - M + M - 1) + M := by omega
      rw [this, Nat.add_div_right _ hM]
    rw [hmin, h1, List.range_succ_eq_map]
    simp only [List.map_cons, List.map_map, Nat.cast_zero, zero_mul, add_zero, Nat.sub_zero]
    rw [List.cons.injEq]
    refine ⟨by rw [hmin], ?_⟩
    apply List.map_congr_left
    intro i _
    simp only [Function.comp, Nat.succ_eq_add_one]
    have e1 : N - M - i * M = N - (i + 1) * M := by
      rw [Nat.sub_sub]; congr 1; ring
    have e2 : off + (M : Int) + (i : Int) * M = off + ((i + 1 : Nat) : Int) * M := by
      push_cast; ring
    rw [e1, e2]

theorem read_direct_loop_full {σ : Type} (d : Daemon σ) (M fh : Nat) (hM : 0 < M)
    (hfull : ∀ st fh off sz, (d.read st fh off sz).2.1 = 0 ∧ (d.read st fh off sz).2.2.length = sz) :
    ∀ (fuel : Nat) (w : World σ) (uio : Uio), NoFault uio → 0 ≤ uio.uio_resid →
      (uio.uio_resid.toNat + M - 1) / M ≤ fuel →
      ∃ w1 uio1, read_direct_loop d M fh fuel w uio = some (0, w1, uio1) ∧
        w1.log = w.log ++ fullReadLog fh uio.uio_offset uio.uio_resid.toNat M ∧
        uio1.uio_resid = 0 ∧ uio1.uio_offset = uio.uio_offset + uio.uio_resid ∧
        uio1.iov_base = uio.iov_base + uio.uio_resid.toNat := by
  intro fuel
  induction fuel with
  | zero =>
    intro w uio _ h0 hk
    have hz : uio.uio_resid = 0 := by
      by_contra hne
      have hpos : 0 < uio.uio_resid.toNat := by omega
      have : 1 ≤ (uio.uio_resid.toNat + M - 1) / M := by
        rw [Nat.le_div_iff_mul_le hM]; omega
      omega
    refine ⟨w, uio, ?_, ?_, hz, by omega, by simp [hz]⟩
    · simp [read_direct_loop, hz]
    · simp [hz, fullReadLog_zero fh _ M hM]
  | succ fuel ih =>
    intro w uio hnf h0 hk
    by_cases hz : uio.uio_resid = 0
    · refine ⟨w, uio, ?_, ?_, hz, by omega, by simp [hz]⟩
      · simp [read_direct_loop, hz]
      · simp [hz, fullReadLog_zero fh _ M hM]
    · have hpos : 0 < uio.uio_resid := by omega
      set N := uio.uio_resid.toNat with hN
      have hNpos : 0 < N := by omega
      set s := min N M with hs
      obtain ⟨he, hl⟩ := hfull w.st fh uio.uio_offset s
      have hsle : (s : Int) ≤ uio.uio_resid := by omega
      obtain ⟨m1, m2, m3, m4, m5, m6⟩ :=
        uiomove_ok (fun i => (d.read w.st fh uio.uio_offset s).2.2.getD i 0) s uio hnf hsle
      have hnf1 := uiomove_nofault (fun i => (d.read w.st fh uio.uio_offset s).2.2.getD i 0) s uio hnf hsle
      set uio1 := (uiomove (fun i => (d.read w.st fh uio.uio_offset s).2.2.getD i 0) s uio).2.2 with hu1
      have hN1 : uio1.uio_resid.toNat = N - s := by rw [m2]; omega
      have hk1 : (uio1.uio_resid.toNat + M - 1) / M ≤ fuel := by
        rw [hN1]
        by_cases h : N ≤ M
        · have : (N - s + M - 1) / M = 0 := by apply Nat.div_eq_of_lt; omega
          omega
        · have hmin : s = M := by omega
          have : N + M - 1 = (N - s + M - 1) + M := by omega
          rw [this, Nat.add_div_right _ hM] at hk
          omega
      obtain ⟨w1, uio2, r1, r2, r3, r4, r5⟩ :=
        ih { st := (d.read w.st fh uio.uio_offset s).1,
             log := w.log ++ [Event.read fh uio.uio_offset s
               (d.read w.st fh uio.uio_offset s).2.1 (d.read w.st fh uio.uio_offset s).2.2.length] }
          uio1 hnf1 (by rw [m2]; omega) hk1
      refine ⟨w1, uio2, ?_, ?_, r3, ?_, ?_⟩
      · rw [read_direct_loop]
        simp only [hpos, if_true, ← hN, ← hs, he, hl, ne_eq, not_true_eq_false, if_false,
          min_self, m1, lt_self_iff_false]
        rw [he, hl] at r1
        exact r1
      · rw [r2, fullReadLog_pos fh _ N M hM hNpos, hN1, m3, he, hl]
        simp [hs]
      · rw [r4, m3, m2]; ring
      · rw [r5, m4, hN1]; omega

theorem read_direct_loop_short {σ : Type} (d : Daemon σ) (M fh : Nat) (hM : 0 < M) :
    ∀ (fuel : Nat) (w : World σ) (uio : Uio), NoFault uio → uio.uio_resid.toNat ≤ fuel →
      ∃ e w1 uio1 L, read_direct_loop d M fh fuel w uio = some (e, w1, uio1) ∧
        w1.log = w.log ++ L ∧
        ∀ i fh1 off sz m, L[i]? = some (Event.read fh1 off sz 0 m) → m < sz →
          i + 1 = L.length ∧ e = 0 ∧ 0 < uio1.uio_resid := by
  intro fuel
  induction fuel with
  | zero =>
    intro w uio _ hk
    have hz : ¬ 0 < uio.uio_resid := by omega
    exact ⟨0, w, uio, [], by simp [read_direct_loop, hz], by simp, by simp⟩
  | succ fuel ih =>
    intro w uio hnf hk
    by_cases hpos : 0 < uio.uio_resid
    · set N := uio.uio_resid.toNat with hN
      set s := min N M with hs
      have hspos : 0 < s := by omega
      rw [read_direct_loop]
      simp only [hpos, if_true, ← hN, ← hs]
      set ans := d.read w.st fh uio.uio_offset s with hans
      by_cases he : ans.2.1 = 0
      · simp only [he, ne_eq, not_true_eq_false, if_false]
        have hle : ((min s ans.2.2.length : Nat) : Int) ≤ uio.uio_resid := by omega
        obtain ⟨m1, m2, m3, m4, m5, m6⟩ :=
          uiomove_ok (fun i => ans.2.2.getD i 0) (min s ans.2.2.length) uio hnf hle
        have hnf1 := uiomove_nofault (fun i => ans.2.2.getD i 0) (min s ans.2.2.length) uio hnf hle
        simp only [m1, if_false]
        by_cases hshort : ans.2.2.length < s
        · simp only [hshort, if_true]
          refine ⟨0, _, _, [Event.read fh uio.uio_offset s 0 ans.2.2.length], rfl, rfl, ?_⟩
          intro i fh1 off sz m hi _
          cases i with
          | zero => refine ⟨rfl, rfl, ?_⟩; rw [m2]; omega
          | succ i => simp at hi
        · simp only [hshort, if_false]
          have hmin : min s ans.2.2.length = s := by omega
          obtain ⟨e, w1, uio1, L, r1, r2, r3⟩ :=
            ih { st := ans.1, log := w.log ++ [Event.read fh uio.uio_offset s 0 ans.2.2.length] }
              (uiomove (fun i => ans.2.2.getD i 0) (min s ans.2.2.length) uio).2.2 hnf1
              (by rw [m2, hmin]; omega)
          refine ⟨e, w1, uio1, Event.read fh uio.uio_offset s 0 ans.2.2.length :: L, r1, ?_, ?_⟩
          · rw [r2]; simp
          · intro i fh1 off sz m hi hm
            cases i with
            | zero =>
              simp only [List.getElem?_cons_zero, Option.some.injEq, Event.read.injEq] at hi
              omega
            | succ i =>
              simp only [List.getElem?_cons_succ] at hi
              obtain ⟨a, b, c⟩ := r3 i fh1 off sz m hi hm
              exact ⟨by simp [a], b, c⟩
      · simp only [he, ne_eq, not_false_eq_true, if_true]
        refine ⟨ans.2.1, _, uio, [Event.read fh uio.uio_offset s ans.2.1 ans.2.2.length], rfl, rfl, ?_⟩
        intro i fh1 off sz m hi _
        cases i with
        | zero =>
          simp only [List.getElem?_cons_zero, Option.some.injEq, Event.read.injEq] at hi
          exact absurd hi.2.2.2.1 he
        | succ i => simp at hi
    · exact ⟨0, w, uio, [], by simp [read_direct_loop, hpos], by simp, by simp⟩

/-- What the uio looks like after `uiomove` returned 0. -/
theorem uiomove_moved (cp : Nat → Nat) (n : Nat) (uio : Uio) (h : (uiomove cp n uio).1 = 0) :
    (uiomove cp n uio).2.2.uio_resid = uio.uio_resid - (min n uio.uio_resid.toNat : Nat) ∧
    (uiomove cp n uio).2.2.uio_offset = uio.uio_offset + (min n uio.uio_resid.toNat : Nat) ∧
    (uiomove cp n uio).2.2.iov_base = uio.iov_base + min n uio.uio_resid.toNat ∧
    (uiomove cp n uio).2.2.limit = uio.limit ∧
    (uiomove cp n uio).2.2.uio_rw = uio.uio_rw := by
  unfold uiomove at h ⊢
  by_cases hf : uio_faults uio (min n uio.uio_resid.toNat) = true
  · simp [hf, EFAULT] at h
  · simp only [hf, Bool.false_eq_true, if_false]
    cases hrw : uio.uio_rw <;> simp [uio_advance, hrw]

theorem write_direct_loop_size {σ : Type} (d : Daemon σ) (M fh : Nat) :
    ∀ (fuel : Nat) (w : World σ) (fv : fuse_vnode_data) (uio : Uio)
      (e : Nat) (w1 : World σ) (fv1 : fuse_vnode_data) (uio1 : Uio),
      write_direct_loop d M fh fuel w fv uio = some (e, w1, fv1, uio1) →
      fv.filesize ≤ fv1.filesize ∧ fv1 = { fv with filesize := fv1.filesize } ∧
      (0 ≤ uio.uio_resid →
        fv1.filesize ≤ max fv.filesize (uio.uio_offset + uio.uio_resid) ∧
        (e = 0 → uio1.uio_resid = 0 ∧ uio1.uio_offset = uio.uio_offset + uio.uio_resid ∧
          (0 < uio.uio_resid ∨ uio.uio_offset ≤ fv.filesize →
            fv1.filesize = max fv.filesize (uio.uio_offset + uio.uio_resid)))) := by
  intro fuel
  induction fuel with
  | zero =>
    intro w fv uio e w1 fv1 uio1 h
    rw [write_direct_loop] at h
    split at h
    · simp at h
    · rename_i hpos
      simp only [Option.some.injEq, Prod.mk.injEq] at h
      obtain ⟨rfl, rfl, rfl, rfl⟩ := h
      refine ⟨le_refl _, rfl, fun h0 => ⟨le_max_left _ _, fun _ => ?_⟩⟩
      have hz : uio.uio_resid = 0 := by omega
      refine ⟨hz, by omega, fun hc => ?_⟩
      rw [hz, add_zero]
      rcases hc with hc | hc
      · omega
      · exact (max_eq_left hc).symm
  | succ fuel ih =>
    intro w fv uio e w1 fv1 uio1 h
    rw [write_direct_loop] at h
    by_cases hpos : 0 < uio.uio_resid
    · simp only [hpos, if_true] at h
      set c := min uio.uio_resid.toNat M with hc
      by_cases hmv : (uiomove (fun _ => 0) c uio).1 = 0
      · obtain ⟨m2, m3, _, _, _⟩ := uiomove_moved (fun _ => 0) c uio hmv
        have hmin : min c uio.uio_resid.toNat = c := by omega
        rw [hmin] at m2 m3
        simp only [hmv, ne_eq, not_true_eq_false, if_false] at h
        split at h
        · simp only [Option.some.injEq, Prod.mk.injEq] at h
          obtain ⟨rfl, rfl, rfl, rfl⟩ := h
          rename_i herr
          refine ⟨le_refl _, rfl, fun _ => ⟨le_max_left _ _, fun he => absurd he herr⟩⟩
        · split at h
          · simp only [Option.some.injEq, Prod.mk.injEq] at h
            obtain ⟨rfl, rfl, rfl, rfl⟩ := h
            refine ⟨le_refl _, rfl, fun _ => ⟨le_max_left _ _, fun he => ?_⟩⟩
            simp [EINVAL] at he
          · rename_i hdiff
            have ih1 := ih _ _ _ _ _ _ _ h
            set diff := toInt32 ((c : Int) - (((d.write w.st fh uio.uio_offset c
              (bytesOf (uiomove (fun _ => 0) c uio).2.1 c)).2.2 % 4294967296 : Nat) : Int)) with hd
            have hd0 : 0 ≤ diff := by omega
            obtain ⟨i1, i2, i3⟩ := ih1
            simp only [m2, m3] at i1 i2 i3
            have hcle : (c : Int) ≤ uio.uio_resid := by omega
            have hfs : fv.filesize ≤
                (if fv.filesize < uio.uio_offset + ↑c - diff
                  then fuse_vnode_setsize fv (uio.uio_offset + ↑c - diff) else fv).filesize := by
              split
              · simp only [fuse_vnode_setsize]; omega
              · exact le_refl _
            have hfs2 : (if fv.filesize < uio.uio_offset + ↑c - diff
                  then fuse_vnode_setsize fv (uio.uio_offset + ↑c - diff) else fv).filesize
                = max fv.filesize (uio.uio_offset + ↑c - diff) := by
              split
              · simp only [fuse_vnode_setsize]; omega
              · omega
            have hfu : ∀ x, { (if fv.filesize < uio.uio_offset + ↑c - diff
                  then fuse_vnode_setsize fv (uio.uio_offset + ↑c - diff) else fv) with
                  filesize := x } = { fv with filesize := x } := by
              intro x
              split <;> rfl
            refine ⟨le_trans hfs i1, by rw [i2, hfu], fun h0 => ?_⟩
            obtain ⟨j1, j2⟩ := i3 (by omega)
            rw [hfs2] at j1
            refine ⟨by omega, fun he => ?_⟩
            obtain ⟨k1, k2, k3⟩ := j2 he
            refine ⟨k1, by rw [k2]; ring, fun _ => ?_⟩
            rw [k3 (Or.inr (by rw [hfs2]; exact le_max_right _ _)), hfs2]
            omega
      · simp only [hmv, ne_eq, not_false_eq_true, if_true, Option.some.injEq,
          Prod.mk.injEq] at h
        obtain ⟨rfl, rfl, rfl, rfl⟩ := h
        refine ⟨le_refl _, rfl, fun _ => ⟨le_max_left _ _, fun he => absurd he hmv⟩⟩
    · simp only [hpos, if_false, Option.some.injEq, Prod.mk.injEq] at h
      obtain ⟨rfl, rfl, rfl, rfl⟩ := h
      refine ⟨le_refl _, rfl, fun h0 => ⟨le_max_left _ _, fun _ => ?_⟩⟩
      have hz : uio.uio_resid = 0 := by omega
      refine ⟨hz, by omega, fun hc => ?_⟩
      rw [hz, add_zero]
      rcases hc with hc | hc
      · omega
      · exact (max_eq_left hc).symm

/-! ## The node under the strategy routine -/

theorem fuse_write_directbackend_size {σ : Type} (d : Daemon σ) (M fh : Nat)
    (fuel : Nat) (w : World σ) (fv : fuse_vnode_data) (uio : Uio)
    (e : Nat) (w1 : World σ) (fv1 : fuse_vnode_data) (uio1 : Uio)
    (h : fuse_write_directbackend d M fh fuel w fv uio = some (e, w1, fv1, uio1)) :
    fv.filesize ≤ fv1.filesize ∧ fv1 = { fv with filesize := fv1.filesize } ∧
    (0 ≤ uio.uio_resid →
      fv1.filesize ≤ max fv.filesize (uio.uio_offset + uio.uio_resid) ∧
      (e = 0 → uio1.uio_resid = 0 ∧ uio1.uio_offset = uio.uio_offset + uio.uio_resid ∧
        (0 < uio.uio_resid →
          fv1.filesize = max fv.filesize (uio.uio_offset + uio.uio_resid)))) := by
  unfold fuse_write_directbackend at h
  split at h
  · rename_i hz
    simp only [Option.some.injEq, Prod.mk.injEq] at h
    obtain ⟨rfl, rfl, rfl, rfl⟩ := h
    exact ⟨le_refl _, rfl, fun _ => ⟨le_max_left _ _, fun _ => ⟨hz, by omega, fun hp => by omega⟩⟩⟩
  · obtain ⟨a, b, c⟩ := write_direct_loop_size d M fh fuel w fv uio e w1 fv1 uio1 h
    exact ⟨a, b, fun h0 => ⟨(c h0).1, fun he =>
      ⟨((c h0).2 he).1, ((c h0).2 he).2.1, fun hp => ((c h0).2 he).2.2 (Or.inl hp)⟩⟩⟩

theorem bufdone_fields (bp : Buf) :
    (bufdone bp).b_blkno = bp.b_blkno ∧ (bufdone bp).b_bcount = bp.b_bcount ∧
    (bufdone bp).b_dirtyoff = bp.b_dirtyoff ∧ (bufdone bp).b_dirtyend = bp.b_dirtyend ∧
    (bufdone bp).b_data = bp.b_data ∧ (bufdone bp).b_error = bp.b_error ∧
    (bufdone bp).B_INVAL = bp.B_INVAL ∧ (bufdone bp).BIO_ERROR = bp.BIO_ERROR ∧
    (bufdone bp).B_EINTR = bp.B_EINTR ∧ (bufdone bp).b_iocmd = bp.b_iocmd ∧
    (bufdone bp).B_NOCACHE = bp.B_NOCACHE ∧ (bufdone bp).b_resid = bp.b_resid := by
  unfold bufdone
  split <;> simp

theorem strategy_write_clamp_fields (mnt : Mount) (fv : fuse_vnode_data) (bp : Buf) :
    (strategy_write_clamp mnt fv bp).b_blkno = bp.b_blkno ∧
    (strategy_write_clamp mnt fv bp).b_bcount = bp.b_bcount ∧
    (strategy_write_clamp mnt fv bp).b_dirtyoff = bp.b_dirtyoff ∧
    (strategy_write_clamp mnt fv bp).b_data = bp.b_data ∧
    (strategy_write_clamp mnt fv bp).b_dirtyend =
      min bp.b_dirtyend (fv.filesize - bp.b_blkno * (fuse_iosize mnt : Int)) := by
  unfold strategy_write_clamp
  split
  · refine ⟨rfl, rfl, rfl, rfl, ?_⟩
    simp only; omega
  · refine ⟨rfl, rfl, rfl, rfl, ?_⟩
    omega

theorem strategy_write_flags_fields (bp : Buf) (error : Nat) :
    (strategy_write_flags bp error).b_blkno = bp.b_blkno ∧
    (strategy_write_flags bp error).b_bcount = bp.b_bcount ∧
    (strategy_write_flags bp error).b_data = bp.b_data := by
  unfold strategy_write_flags bdirty
  split
  · simp only
    split <;> split <;> simp
  · simp only
    split <;> simp

theorem strategy_read_done_fields (bp : Buf) (error : Nat) (uio1 : Uio) :
    (strategy_read_done bp error uio1).b_blkno = bp.b_blkno ∧
    (strategy_read_done bp error uio1).b_bcount = bp.b_bcount ∧
    (strategy_read_done bp error uio1).b_dirtyoff = bp.b_dirtyoff ∧
    (strategy_read_done bp error uio1).b_dirtyend = bp.b_dirtyend := by
  unfold strategy_read_done
  simp only
  split
  · exact ⟨(bufdone_fields _).1, (bufdone_fields _).2.1, (bufdone_fields _).2.2.1,
      (bufdone_fields _).2.2.2.1⟩
  · exact ⟨(bufdone_fields _).1, (bufdone_fields _).2.1, (bufdone_fields _).2.2.1,
      (bufdone_fields _).2.2.2.1⟩

/-- The strategy routine leaves the node as it was, and the block keeps its
number and its size. -/
theorem fuse_io_strategy_node {σ : Type} (d : Daemon σ) (mnt : Mount) (fuel : Nat)
    (w : World σ) (fv : fuse_vnode_data) (bp : Buf)
    (r : Nat × World σ × fuse_vnode_data × Buf)
    (h : fuse_io_strategy d mnt fuel w fv bp = some r) :
    r.2.2.1 = fv ∧ r.2.2.2.b_blkno = bp.b_blkno ∧ r.2.2.2.b_bcount = bp.b_bcount := by
  unfold fuse_io_strategy at h
  split at h
  · simp only [Option.some.injEq] at h
    subst h
    exact ⟨rfl, rfl, rfl⟩
  · simp only at h
    split at h
    · split at h
      · simp at h
      · simp only [Option.some.injEq] at h
        subst h
        exact ⟨rfl, (strategy_read_done_fields _ _ _).1, (strategy_read_done_fields _ _ _).2.1⟩
    · split at h
      · rename_i hlt
        split at h
        · simp at h
        · rename_i r0 hw
          simp only [Option.some.injEq] at h
          subst h
          obtain ⟨cb, cc, co, _, ce⟩ := strategy_write_clamp_fields mnt fv (strategy_clear bp)
          obtain ⟨a, b, c⟩ := fuse_write_directbackend_size _ _ _ _ _ _ _ r0.1 r0.2.1 r0.2.2.1
            r0.2.2.2 hw
          have c1 := (c (by simp only [strategy_write_uio]; omega)).1
          simp only [strategy_write_uio] at c1
          have hfs : r0.2.2.1.filesize = fv.filesize := by
            have : (strategy_write_clamp mnt fv (strategy_clear bp)).b_blkno *
                (fuse_iosize mnt : Int) +
                (strategy_write_clamp mnt fv (strategy_clear bp)).b_dirtyoff +
                ((strategy_write_clamp mnt fv (strategy_clear bp)).b_dirtyend -
                (strategy_write_clamp mnt fv (strategy_clear bp)).b_dirtyoff) ≤ fv.filesize := by
              rw [ce, cb]; omega
            omega
          refine ⟨?_, ?_, ?_⟩
          · simp only
            rw [b, hfs]
          · simp only
            rw [(bufdone_fields _).1]
            simp only
            rw [(strategy_write_flags_fields _ _).1, cb]
            rfl
          · simp only
            rw [(bufdone_fields _).2.1]
            simp only
            rw [(strategy_write_flags_fields _ _).2.1, cc]
            rfl
      · simp only [Option.some.injEq] at h
        subst h
        obtain ⟨cb, cc, _, _, _⟩ := strategy_write_clamp_fields mnt fv (strategy_clear bp)
        refine ⟨rfl, ?_, ?_⟩
        · simp only
          rw [(bufdone_fields _).1]
          exact cb
        · simp only
          rw [(bufdone_fields _).2.1]
          exact cc

/-- A fill leaves the node as it was, and the block keeps its number and its
size. -/
theorem bio_fill_node {σ : Type} (d : Daemon σ) (mnt : Mount) (fuel : Nat)
    (w : World σ) (fv : fuse_vnode_data) (bp : Buf)
    (r : Nat × World σ × fuse_vnode_data × Buf)
    (h : bio_fill d mnt fuel w fv bp = some r) :
    r.2.2.1 = fv ∧ r.2.2.2.b_blkno = bp.b_blkno ∧ r.2.2.2.b_bcount = bp.b_bcount := by
  unfold bio_fill at h
  split at h
  · exact fuse_io_strategy_node _ _ _ _ _ (set_iocmd bp .BIO_READ) _ h
  · simp only [Option.some.injEq] at h
    subst h
    exact ⟨rfl, rfl, rfl⟩

theorem brelse_node (vp : Vnode) (bp : Buf) :
    (brelse vp bp).v_data = vp.v_data ∧ (brelse vp bp).v_type = vp.v_type := by
  unfold brelse
  split
  · exact ⟨rfl, rfl⟩
  · split <;> exact ⟨rfl, rfl⟩

/-- A write-back leaves the node as it was. -/
theorem bwrite_node {σ : Type} (d : Daemon σ) (mnt : Mount) (fuel : Nat)
    (w : World σ) (vp : Vnode) (bp : Buf) (r : Nat × World σ × Vnode × Buf)
    (h : bwrite d mnt fuel w vp bp = some r) :
    r.2.2.1.v_data = vp.v_data ∧ r.2.2.1.v_type = vp.v_type := by
  unfold bwrite at h
  simp only at h
  split at h
  · simp only [Option.some.injEq] at h
    subst h
    exact brelse_node vp bp
  · split at h
    · simp at h
    · rename_i r0 hs
      obtain ⟨a, _, _⟩ := fuse_io_strategy_node _ _ _ _ _ _ _ hs
      split at h
      · simp only [Option.some.injEq] at h
        subst h
        simp only
        rw [(brelse_node _ _).1, (brelse_node _ _).2]
        exact ⟨a, rfl⟩
      · simp only [Option.some.injEq] at h
        subst h
        exact ⟨a, rfl⟩

/-! ## Tracked size under the cached write -/

theorem fuse_vnode_extend_eq (fv : fuse_vnode_data) (x : Int) :
    fuse_vnode_extend fv x = { fv with filesize := max fv.filesize x } := by
  unfold fuse_vnode_extend
  split
  · congr 1; omega
  · rw [max_eq_left (by omega)]

theorem write_bio_getblk_size (mnt : Mount) (vp : Vnode) (uio : Uio) (lbn on_ n : Int) :
    (write_bio_getblk mnt vp uio lbn on_ n).2.2 =
      { vp.v_data with filesize := max vp.v_data.filesize (uio.uio_offset + n) } := by
  unfold write_bio_getblk
  by_cases h1 : uio.uio_offset = vp.v_data.filesize ∧ n ≠ 0
  · simp only [h1, ne_eq, not_false_eq_true, and_self, if_true]
    exact fuse_vnode_extend_eq _ _
  · simp only [h1, if_false]
    by_cases h2 : vp.v_data.filesize < uio.uio_offset + n
    · simp only [h2, if_true]
      exact fuse_vnode_extend_eq _ _
    · simp only [h2, if_false]
      rw [max_eq_left (by omega)]

/-- One turn of the cached write: the tracked size afterwards, and what a turn
that ends without `break` did to the uio. -/
theorem write_bio_again_size {σ : Type} (d : Daemon σ) (mnt : Mount) (lbn on_ n : Int) :
    ∀ (fuel : Nat) (w : World σ) (vp : Vnode) (uio : Uio)
      (r : Nat × Bool × World σ × Vnode × Uio),
      write_bio_again d mnt lbn on_ n fuel w vp uio = some r →
      r.2.2.2.1.v_data =
        { vp.v_data with filesize := max vp.v_data.filesize (uio.uio_offset + n) } ∧
      r.2.2.2.1.v_type = vp.v_type ∧
      (r.2.1 = false → r.1 ≠ 0) ∧
      (r.2.1 = true → r.1 = 0 ∧
        r.2.2.2.2.uio_resid = uio.uio_resid - (min n.toNat uio.uio_resid.toNat : Nat) ∧
        r.2.2.2.2.uio_offset = uio.uio_offset + (min n.toNat uio.uio_resid.toNat : Nat)) := by
  intro fuel
  induction fuel with
  | zero => intro w vp uio r h; simp [write_bio_again] at h
  | succ fuel ih =>
    intro w vp uio r h
    rw [write_bio_again] at h
    simp only at h
    have hg := write_bio_getblk_size mnt vp uio lbn on_ n
    split at h
    · simp at h
    · rename_i r0 hfill
      have hfv : r0.2.2.1 = (write_bio_getblk mnt vp uio lbn on_ n).2.2 :=
        (bio_fill_node _ _ _ _ _ _ _ hfill).1
      split at h
      · rename_i hb
        simp only [Option.some.injEq] at h
        subst h
        refine ⟨?_, ?_, fun _ => hb.2, fun hc => by simp at hc⟩
        · simp only
          rw [(brelse_node _ _).1]
          simp only
          rw [hfv, hg]
        · simp only
          rw [(brelse_node _ _).2]
      · split at h
        · split at h
          · simp at h
          · rename_i r2 hbw
            obtain ⟨b1, b2⟩ := bwrite_node _ _ _ _ _ _ _ hbw
            simp only at b1 b2
            split at h
            · simp only [Option.some.injEq] at h
              subst h
              refine ⟨?_, b2, fun _ => by simp [EINTR], fun hc => by simp at hc⟩
              simp only
              rw [b1, hfv, hg]
            · obtain ⟨i1, i2, i3, i4⟩ := ih _ _ _ _ h
              refine ⟨?_, by rw [i2, b2], i3, i4⟩
              rw [i1, b1, hfv, hg]
              simp only
              congr 1
              rw [max_assoc, max_self]
        · split at h
          · rename_i hmv
            simp only [Option.some.injEq] at h
            subst h
            refine ⟨?_, ?_, fun _ => hmv, fun hc => by simp at hc⟩
            · simp only
              rw [(brelse_node _ _).1]
              simp only
              rw [hfv, hg]
            · simp only
              rw [(brelse_node _ _).2]
          · rename_i hmv
            split at h
            · simp at h
            · rename_i r3 hbw
              obtain ⟨b1, b2⟩ := bwrite_node _ _ _ _ _ _ _ hbw
              simp only at b1 b2
              have hmv0 : (uiomove (dataAt (write_bio_chop r0.2.2.2
                  (write_bio_getblk mnt vp uio lbn on_ n).1).b_data on_.toNat) n.toNat uio).1 = 0 := by
                simpa using hmv
              obtain ⟨m2, m3, _, _, _⟩ := uiomove_moved _ _ _ hmv0
              split at h
              · rename_i he
                simp only [Option.some.injEq] at h
                subst h
                refine ⟨?_, b2, fun _ => he, fun hc => by simp at hc⟩
                simp only
                rw [b1, hfv, hg]
              · simp only [Option.some.injEq] at h
                subst h
                refine ⟨?_, b2, fun hc => by simp at hc, fun _ => ⟨rfl, m2, m3⟩⟩
                simp only
                rw [b1, hfv, hg]

theorem blockoff_bounds (offset : Int) (biosize : Nat) (h : 0 < biosize) :
    0 ≤ blockoff offset biosize ∧ blockoff offset biosize < biosize := by
  unfold blockoff
  have := @Nat.and_le_right offset.toNat (biosize - 1)
  omega

theorem write_bio_loop_size {σ : Type} (d : Daemon σ) (mnt : Mount) (hbs : 0 < fuse_iosize mnt) :
    ∀ (fuel : Nat) (w : World σ) (vp : Vnode) (uio : Uio) (r : Nat × World σ × Vnode × Uio),
      write_bio_loop d mnt fuel w vp uio = some r →
      vp.v_data.filesize ≤ r.2.2.1.v_data.filesize ∧
      (r.1 = 0 → 0 < uio.uio_resid →
        r.2.2.1.v_data.filesize = max vp.v_data.filesize (uio.uio_offset + uio.uio_resid)) := by
  intro fuel
  induction fuel with
  | zero => intro w vp uio r h; simp [write_bio_loop] at h
  | succ fuel ih =>
    intro w vp uio r h
    rw [write_bio_loop] at h
    obtain ⟨hon0, hon1⟩ := blockoff_bounds uio.uio_offset (fuse_iosize mnt) hbs
    set on_ := blockoff uio.uio_offset (fuse_iosize mnt) with hon
    set n := min ((fuse_iosize mnt : Int) - on_) uio.uio_resid with hn
    split at h
    · simp at h
    · rename_i r1 hturn
      obtain ⟨t1, _, t3, t4⟩ := write_bio_again_size _ _ _ _ _ _ _ _ _ _ hturn
      have hfs1 : r1.2.2.2.1.v_data.filesize = max vp.v_data.filesize (uio.uio_offset + n) := by
        rw [t1]
      split at h
      · rename_i hc
        obtain ⟨i1, i2⟩ := ih _ _ _ _ h
        obtain ⟨_, c2, c3⟩ := t4 hc.1
        refine ⟨by omega, fun he hp => ?_⟩
        have hnle : n ≤ uio.uio_resid := min_le_right _ _
        have hmin : ((min n.toNat uio.uio_resid.toNat : Nat) : Int) = n := by omega
        rw [i2 he hc.2.1, hfs1, c2, c3, hmin]
        omega
      · rename_i hc
        simp only [Option.some.injEq] at h
        subst h
        refine ⟨by simp only; omega, fun he hp => ?_⟩
        simp only at he ⊢
        have hcont : r1.2.1 = true := by
          by_contra hcf
          exact t3 (by simpa using hcf) he
        obtain ⟨_, c2, c3⟩ := t4 hcont
        have hnpos : 0 < n := by omega
        have hnle : n ≤ uio.uio_resid := min_le_right _ _
        have hmin : ((min n.toNat uio.uio_resid.toNat : Nat) : Int) = n := by omega
        have hr : ¬ 0 < r1.2.2.2.2.uio_resid := fun hh => hc ⟨hcont, hh, hnpos⟩
        rw [c2, hmin] at hr
        rw [hfs1]
        have : n = uio.uio_resid := by omega
        rw [this]

/-! ## Cached read -/

theorem blockoff_pow2 (offset : Int) (k : Nat) (h : 0 ≤ offset) :
    blockoff offset (2 ^ k) = offset % ((2 ^ k : Nat) : Int) := by
  unfold blockoff
  rw [Nat.and_pow_two_sub_one_eq_mod]
  have : offset = (offset.toNat : Int) := by omega
  conv_rhs => rw [this]
  exact Int.natCast_mod _ _

/-- A direct read against a service that never reports an error, from a
caller whose buffer is accessible, returns 0 once the fuel covers the
residual. -/
theorem read_direct_loop_noerr {σ : Type} (d : Daemon σ) (M fh : Nat) (hM : 0 < M)
    (herr : ∀ st fh off sz, (d.read st fh off sz).2.1 = 0) :
    ∀ (fuel : Nat) (w : World σ) (uio : Uio), NoFault uio → uio.uio_resid.toNat ≤ fuel →
      ∃ w1 uio1, read_direct_loop d M fh fuel w uio = some (0, w1, uio1) := by
  intro fuel
  induction fuel with
  | zero =>
    intro w uio _ hk
    have hz : ¬ 0 < uio.uio_resid := by omega
    exact ⟨w, uio, by simp [read_direct_loop, hz]⟩
  | succ fuel ih =>
    intro w uio hnf hk
    by_cases hpos : 0 < uio.uio_resid
    · set N := uio.uio_resid.toNat with hN
      set s := min N M with hs
      have hspos : 0 < s := by omega
      rw [read_direct_loop]
      simp only [hpos, if_true, ← hN, ← hs]
      set ans := d.read w.st fh uio.uio_offset s with hans
      have he : ans.2.1 = 0 := herr _ _ _ _
      simp only [he, ne_eq, not_true_eq_false, if_false]
      have hle : ((min s ans.2.2.length : Nat) : Int) ≤ uio.uio_resid := by omega
      obtain ⟨m1, m2, m3, m4, m5, m6⟩ :=
        uiomove_ok (fun i => ans.2.2.getD i 0) (min s ans.2.2.length) uio hnf hle
      have hnf1 := uiomove_nofault (fun i => ans.2.2.getD i 0) (min s ans.2.2.length) uio hnf hle
      simp only [m1, if_false]
      by_cases hshort : ans.2.2.length < s
      · simp only [hshort, if_true]
        exact ⟨_, _, rfl⟩
      · simp only [hshort, if_false]
        have hmin : min s ans.2.2.length = s := by omega
        exact ih _ _ hnf1 (by rw [m2, hmin]; omega)
    · exact ⟨w, uio, by simp [read_direct_loop, hpos]⟩

theorem strategy_read_uio_nofault (mnt : Mount) (bp : Buf) : NoFault (strategy_read_uio mnt bp) := by
  intro a ha
  simp [strategy_read_uio] at ha

/-- A fill against a service that never reports an error, with the read
handle open, returns 0 and leaves the node alone. -/
theorem fuse_io_strategy_read_ok {σ : Type} (d : Daemon σ) (mnt : Mount) (fuel fh : Nat)
    (w : World σ) (fv : fuse_vnode_data) (bp : Buf) (hM : 0 < mnt.max_read)
    (herr : ∀ st fh off sz, (d.read st fh off sz).2.1 = 0)
    (hfh : fv.fufh .FUFH_RDONLY = some fh) (hcmd : bp.b_iocmd = .BIO_READ)
    (hfuel : bp.b_bcount.toNat ≤ fuel) :
    ∃ w1 bp1, fuse_io_strategy d mnt fuel w fv bp = some (0, w1, fv, bp1) ∧
      bp1.b_blkno = bp.b_blkno := by
  unfold fuse_io_strategy
  simp only [hcmd, if_true, fuse_filehandle_getrw, hfh]
  have hc : (strategy_clear bp).b_iocmd = .BIO_READ := hcmd
  simp only [hc, if_true]
  have hr : ∃ w1 uio1, fuse_read_directbackend d mnt.max_read fh fuel w
      (strategy_read_uio mnt (strategy_clear bp)) = some (0, w1, uio1) := by
    unfold fuse_read_directbackend
    split
    · exact ⟨_, _, rfl⟩
    · exact read_direct_loop_noerr d _ fh hM herr fuel w _ (strategy_read_uio_nofault _ _)
        (by simpa [strategy_read_uio, strategy_clear] using hfuel)
  obtain ⟨w1, uio1, h1⟩ := hr
  rw [h1]
  exact ⟨w1, _, rfl, (strategy_read_done_fields _ _ _).1⟩

theorem allocbuf_fields (bp : Buf) (size : Int) :
    (allocbuf bp size).b_bcount = size ∧ (allocbuf bp size).b_blkno = bp.b_blkno ∧
    (allocbuf bp size).b_dirtyoff = bp.b_dirtyoff ∧
    (allocbuf bp size).b_dirtyend = bp.b_dirtyend ∧
    (allocbuf bp size).b_data = bp.b_data := by
  unfold allocbuf
  simp only
  split <;> exact ⟨rfl, rfl, rfl, rfl, rfl⟩

theorem getblk_bcount (vp : Vnode) (lbn size : Int) : (getblk vp lbn size).b_bcount = size := by
  unfold getblk
  split
  · split
    · rename_i h; simpa using h
    · exact (allocbuf_fields _ _).1
  · exact (allocbuf_fields _ _).1

theorem bio_fill_read_ok {σ : Type} (d : Daemon σ) (mnt : Mount) (fuel fh : Nat)
    (w : World σ) (fv : fuse_vnode_data) (bp : Buf) (hM : 0 < mnt.max_read)
    (herr : ∀ st fh off sz, (d.read st fh off sz).2.1 = 0)
    (hfh : fv.fufh .FUFH_RDONLY = some fh) (hfuel : bp.b_bcount.toNat ≤ fuel) :
    ∃ w1 bp1, bio_fill d mnt fuel w fv bp = some (0, w1, fv, bp1) := by
  unfold bio_fill
  split
  · obtain ⟨w1, bp1, h, _⟩ := fuse_io_strategy_read_ok d mnt fuel fh w fv
      (set_iocmd bp .BIO_READ) hM herr hfh rfl hfuel
    exact ⟨w1, bp1, h⟩
  · exact ⟨w, bp, rfl⟩

/-- The bytes a turn of the cached read copies out, in terms of the position:
the smallest of the rest of the block, the rest of the file and the
residual, or nothing at or past the end of the file. -/
theorem read_bio_turn_count (filesize offset resid bcount : Int) (bs : Nat) (hbs : 0 < bs)
    (hres : 0 < resid)
    (hbc : bcount = (bs : Int) ∨ filesize < (offset / (bs : Int) + 1) * (bs : Int)) :
    read_bio_n (offset % (bs : Int))
        (read_bio_bcount filesize (offset / (bs : Int)) bs bcount) resid
      = max 0 (min (min ((bs : Int) - offset % (bs : Int)) (filesize - offset)) resid) ∧
    read_bio_bcount filesize (offset / (bs : Int)) bs bcount ≤ bs ∧
    (read_bio_bcount filesize (offset / (bs : Int)) bs bcount = bs ∨
      filesize < (offset / (bs : Int) + 1) * (bs : Int)) := by
  have hb : (0 : Int) < bs := by exact_mod_cast hbs
  have h1 := Int.emod_nonneg offset (ne_of_gt hb)
  have h2 := Int.emod_lt_of_pos offset hb
  have h3 := Int.ediv_add_emod offset bs
  have h4 : offset / (bs : Int) * bs = bs * (offset / (bs : Int)) := mul_comm _ _
  have h5 : (offset / (bs : Int) + 1) * bs = bs * (offset / (bs : Int)) + bs := by ring
  rw [h5] at hbc ⊢
  unfold read_bio_n read_bio_bcount
  rw [h4, h5]
  generalize (bs : Int) * (offset / (bs : Int)) = q at *
  generalize offset % (bs : Int) = r at *
  refine ⟨?_, ?_, ?_⟩
  · split_ifs <;> omega
  · split_ifs <;> omega
  · split_ifs <;> omega

theorem read_bio_loop_count {σ : Type} (d : Daemon σ) (mnt : Mount) (k fh : Nat)
    (filesize : Int)
    (hbs : fuse_iosize mnt = 2 ^ k) (hM : 0 < mnt.max_read)
    (herr : ∀ st fh off sz, (d.read st fh off sz).2.1 = 0) :
    ∀ (fuel : Nat) (bcount : Int) (w : World σ) (vp : Vnode) (uio : Uio),
      vp.v_data.fufh .FUFH_RDONLY = some fh → NoFault uio → 0 ≤ uio.uio_offset →
      0 < uio.uio_resid →
      (bcount = (fuse_iosize mnt : Int) ∨
        filesize < (uio.uio_offset / (fuse_iosize mnt : Int) + 1) * (fuse_iosize mnt : Int)) →
      uio.uio_resid.toNat + fuse_iosize mnt + 1 ≤ fuel →
      ∃ w1 vp1 uio1, read_bio_loop d mnt filesize fuel bcount w vp uio = some (0, w1, vp1, uio1) ∧
        uio1.uio_resid = uio.uio_resid - min uio.uio_resid (max 0 (filesize - uio.uio_offset)) ∧
        uio1.uio_offset = uio.uio_offset + min uio.uio_resid (max 0 (filesize - uio.uio_offset)) ∧
        vp1.v_data = vp.v_data := by
  have hbspos : 0 < fuse_iosize mnt := by rw [hbs]; exact Nat.pow_pos (by decide)
  have hb : (0 : Int) < (fuse_iosize mnt : Int) := by exact_mod_cast hbspos
  intro fuel
  induction fuel with
  | zero => intro bcount w vp uio _ _ _ _ _ hf; omega
  | succ fuel ih =>
    intro bcount w vp uio hfh hnf hoff hres hbc hfuel
    rw [read_bio_loop]
    dsimp only
    have hon : blockoff uio.uio_offset (fuse_iosize mnt)
        = uio.uio_offset % (fuse_iosize mnt : Int) := by
      rw [hbs]; exact blockoff_pow2 _ _ hoff
    rw [hon]
    obtain ⟨hn, hble, hinv⟩ :=
      read_bio_turn_count filesize uio.uio_offset uio.uio_resid bcount (fuse_iosize mnt)
        hbspos hres hbc
    set bcount1 := read_bio_bcount filesize (uio.uio_offset / (fuse_iosize mnt : Int))
      (fuse_iosize mnt) bcount with hb1
    set n := read_bio_n (uio.uio_offset % (fuse_iosize mnt : Int)) bcount1 uio.uio_resid with hnd
    have h1 := Int.emod_nonneg uio.uio_offset (ne_of_gt hb)
    have h2 := Int.emod_lt_of_pos uio.uio_offset hb
    obtain ⟨w1, bp1, hfill⟩ := bio_fill_read_ok d mnt fuel fh w vp.v_data
      (getblk vp (uio.uio_offset / (fuse_iosize mnt : Int)) bcount1) hM herr hfh
      (by rw [getblk_bcount]; omega)
    rw [hfill]
    dsimp only
    rw [if_neg (by simp)]
    by_cases hnpos : 0 < n
    · rw [if_pos hnpos]
      have hnle : ((n.toNat : Nat) : Int) ≤ uio.uio_resid := by omega
      obtain ⟨m1, m2, m3, m4, m5, m6⟩ :=
        uiomove_ok (dataAt bp1.b_data (uio.uio_offset % (fuse_iosize mnt : Int)).toNat)
          n.toNat uio hnf hnle
      have hnf1 := uiomove_nofault (dataAt bp1.b_data
        (uio.uio_offset % (fuse_iosize mnt : Int)).toNat) n.toNat uio hnf hnle
      have hnn : ((n.toNat : Nat) : Int) = n := by omega
      rw [hnn] at m2 m3
      by_cases hmore : 0 < uio.uio_resid - n
      · rw [if_pos ⟨m1, by rw [m2]; exact hmore, hnpos⟩]
        have hdiv : uio.uio_offset / (fuse_iosize mnt : Int)
            ≤ (uio.uio_offset + n) / (fuse_iosize mnt : Int) :=
          Int.ediv_le_ediv hb (by omega)
        obtain ⟨w2, vp2, uio2, r1, r2, r3, r4⟩ := ih bcount1 w1
          (brelse { vp with v_data := vp.v_data } bp1) _
          (by rw [(brelse_node _ _).1]; exact hfh) hnf1 (by rw [m3]; omega)
          (by rw [m2]; exact hmore)
          (by
            rw [m3]
            rcases hinv with hi | hi
            · exact Or.inl hi
            · right
              have : (uio.uio_offset / (fuse_iosize mnt : Int) + 1) * (fuse_iosize mnt : Int)
                  ≤ ((uio.uio_offset + n) / (fuse_iosize mnt : Int) + 1)
                    * (fuse_iosize mnt : Int) :=
                Int.mul_le_mul_of_nonneg_right (by omega) (le_of_lt hb)
              omega)
          (by rw [m2]; omega)
        refine ⟨w2, vp2, uio2, r1, ?_, ?_, ?_⟩
        · rw [r2, m2, m3]; omega
        · rw [r3, m2, m3]; omega
        · rw [r4, (brelse_node _ _).1]
      · rw [if_neg (by rw [m2]; intro hc; exact hmore hc.2.1)]
        refine ⟨w1, _, _, by rw [m1], ?_, ?_, ?_⟩
        · rw [m2]; omega
        · rw [m3]; omega
        · rw [(brelse_node _ _).1]
    · rw [if_neg hnpos]
      dsimp only
      rw [if_neg (fun hc => hnpos hc.2.2)]
      refine ⟨w1, _, uio, rfl, ?_, ?_, ?_⟩
      · omega
      · omega
      · rw [(brelse_node _ _).1]

/-! ## The log -/

theorem LogExt.trans {P : Event → Prop} {a b c : List Event}
    (h1 : LogExt P a b) (h2 : LogExt P b c) : LogExt P a c := by
  obtain ⟨L1, rfl, p1⟩ := h1
  obtain ⟨L2, rfl, p2⟩ := h2
  refine ⟨L1 ++ L2, by simp, ?_⟩
  intro e he
  rcases List.mem_append.mp he with h | h
  · exact p1 e h
  · exact p2 e h

theorem bytesOf_getD (cp : Nat → Nat) (n j : Nat) (h : j < n) : (bytesOf cp n).getD j 0 = cp j := by
  unfold bytesOf
  rw [List.getD_eq_getElem?_getD, List.getElem?_map, List.getElem?_range h]
  rfl

/-- What `uiomove` does in the write direction when it returns 0: the caller's
memory is untouched and the kernel buffer holds the next bytes of it. -/
theorem uiomove_write (cp : Nat → Nat) (n : Nat) (uio : Uio) (hrw : uio.uio_rw = .UIO_WRITE)
    (h : (uiomove cp n uio).1 = 0) :
    (uiomove cp n uio).2.2.mem = uio.mem ∧
    ∀ j, j < min n uio.uio_resid.toNat → (uiomove cp n uio).2.1 j = uio.mem (uio.iov_base + j) := by
  unfold uiomove at h ⊢
  by_cases hf : uio_faults uio (min n uio.uio_resid.toNat) = true
  · simp [hf, EFAULT] at h
  · simp only [hf, Bool.false_eq_true, if_false, hrw]
    refine ⟨rfl, fun j hj => ?_⟩
    simp only [uio_advance, hj, if_true]

/-- What `uiomove` does in the read direction when it returns 0: the bytes of
the kernel buffer are in the caller's memory at the old cursor. -/
theorem uiomove_read (cp : Nat → Nat) (n : Nat) (uio : Uio) (hrw : uio.uio_rw = .UIO_READ)
    (h : (uiomove cp n uio).1 = 0) :
    ∀ a, (uiomove cp n uio).2.2.mem a =
      if uio.iov_base ≤ a ∧ a < uio.iov_base + min n uio.uio_resid.toNat
      then cp (a - uio.iov_base) else uio.mem a := by
  unfold uiomove at h ⊢
  by_cases hf : uio_faults uio (min n uio.uio_resid.toNat) = true
  · simp [hf, EFAULT] at h
  · simp only [hf, Bool.false_eq_true, if_false, hrw]
    intro a
    trivial

theorem uiomove_sys (cp : Nat → Nat) (n : Nat) (uio : Uio) (hl : uio.limit = none) :
    (uiomove cp n uio).1 = 0 := by
  unfold uiomove uio_faults
  simp only [hl, Bool.false_eq_true, if_false]
  cases uio.uio_rw <;> rfl

/-- A direct write to the file service, seen from its result: the service
holds the caller's bytes in the written range and what it held before
elsewhere, and its file is at least as long as before and reaches the end of
the written range.  With a kernel-space source the write cannot fail. -/
theorem write_direct_loop_file (M fh : Nat) (hM : M < 4294967296) :
    ∀ (fuel : Nat) (w : World FileSt) (fv : fuse_vnode_data) (uio : Uio)
      (r : Nat × World FileSt × fuse_vnode_data × Uio),
      write_direct_loop fileDaemon M fh fuel w fv uio = some r →
      uio.uio_rw = .UIO_WRITE → 0 ≤ uio.uio_resid → (uio.limit = none ∨ r.1 = 0) →
      r.1 = 0 ∧
      (∀ x, r.2.1.st.data x =
        if uio.uio_offset ≤ x ∧ x < uio.uio_offset + uio.uio_resid
        then uio.mem (uio.iov_base + (x - uio.uio_offset).toNat) else w.st.data x) ∧
      w.st.size ≤ r.2.1.st.size ∧
      (0 < uio.uio_resid → uio.uio_offset + uio.uio_resid ≤ r.2.1.st.size) := by
  intro fuel
  induction fuel with
  | zero =>
    intro w fv uio r h hrw h0 hl
    rw [write_direct_loop] at h
    split at h
    · simp at h
    · simp only [Option.some.injEq] at h; subst h
      refine ⟨rfl, fun x => ?_, le_refl _, fun hp => by omega⟩
      rw [if_neg (by omega)]
  | succ fuel ih =>
    intro w fv uio r h hrw h0 hl
    rw [write_direct_loop] at h
    by_cases hpos : 0 < uio.uio_resid
    · simp only [hpos, if_true] at h
      set c := min uio.uio_resid.toNat M with hc
      by_cases hmv : (uiomove (fun _ => 0) c uio).1 = 0
      · obtain ⟨m2, m3, m4, m5, m6⟩ := uiomove_moved (fun _ => 0) c uio hmv
        obtain ⟨m7, m8⟩ := uiomove_write (fun _ => 0) c uio hrw hmv
        have hmin : min c uio.uio_resid.toNat = c := by omega
        rw [hmin] at m2 m3 m4 m8
        simp only [hmv, ne_eq, not_true_eq_false, if_false] at h
        have hans1 : ∀ p, (fileDaemon.write w.st fh uio.uio_offset c p).2.1 = 0 := fun _ => rfl
        have hans2 : ∀ p, (fileDaemon.write w.st fh uio.uio_offset c p).2.2 = c := fun _ => rfl
        simp only [hans1, hans2, if_false, not_true_eq_false] at h
        have hcm : c % 4294967296 = c := Nat.mod_eq_of_lt (by omega)
        have hd : toInt32 ((c : Int) - ((c % 4294967296 : Nat) : Int)) = 0 := by
          rw [hcm]; simp [toInt32]
        simp only [hd, lt_self_iff_false, if_false, add_zero, sub_zero] at h
        have ih1 := ih _ _ _ _ h (by rw [m6]; exact hrw) (by rw [m2]; omega)
          (by rcases hl with hl | hl
              · left; rw [m5]; exact hl
              · right; exact hl)
        dsimp only at ih1
        obtain ⟨i1, i2, i3, i4⟩ := ih1
        refine ⟨i1, fun x => ?_, ?_, fun _ => ?_⟩
        · rw [i2 x]
          simp only [m2, m3, m4, m7]
          by_cases hx1 : uio.uio_offset + ↑c ≤ x ∧ x < uio.uio_offset + ↑c + (uio.uio_resid - ↑c)
          · rw [if_pos hx1, if_pos (by omega)]
            congr 1
            omega
          · rw [if_neg hx1]
            show (fileDaemon.write w.st fh uio.uio_offset c _).1.data x = _
            simp only [fileDaemon]
            by_cases hx2 : uio.uio_offset ≤ x ∧ x < uio.uio_offset + ↑c
            · rw [if_pos hx2, if_pos (by omega), bytesOf_getD _ _ _ (by omega), m8 _ (by omega)]
            · rw [if_neg hx2, if_neg (by omega)]
        · have : w.st.size ≤ (fileDaemon.write w.st fh uio.uio_offset c
              (bytesOf (uiomove (fun _ => 0) c uio).2.1 c)).1.size := by
            simp only [fileDaemon]; exact le_max_left _ _
          exact le_trans this i3
        · have hs : uio.uio_offset + c ≤ (fileDaemon.write w.st fh uio.uio_offset c
              (bytesOf (uiomove (fun _ => 0) c uio).2.1 c)).1.size := by
            simp only [fileDaemon]; exact le_max_right _ _
          by_cases hrest : 0 < uio.uio_resid - c
          · have := i4 (by rw [m2]; exact hrest)
            rw [m2, m3] at this
            omega
          · have : (c : Int) = uio.uio_resid := by omega
            omega
      · simp only [hmv, ne_eq, not_false_eq_true, if_true, Option.some.injEq] at h
        subst h
        rcases hl with hl | hl
        · exact absurd (uiomove_sys _ _ _ hl) hmv
        · exact absurd hl hmv
    · simp only [hpos, if_false, Option.some.injEq] at h
      subst h
      refine ⟨rfl, fun x => ?_, le_refl _, fun hp => by omega⟩
      rw [if_neg (by omega)]

/-! ## The flush -/

theorem strategy_clear_fields (bp : Buf) :
    (strategy_clear bp).b_blkno = bp.b_blkno ∧ (strategy_clear bp).b_bcount = bp.b_bcount ∧
    (strategy_clear bp).b_dirtyoff = bp.b_dirtyoff ∧
    (strategy_clear bp).b_dirtyend = bp.b_dirtyend ∧
    (strategy_clear bp).b_data = bp.b_data ∧ (strategy_clear bp).b_iocmd = bp.b_iocmd ∧
    (strategy_clear bp).B_NEEDCOMMIT = bp.B_NEEDCOMMIT :=
  ⟨rfl, rfl, rfl, rfl, rfl, rfl, rfl⟩

theorem strategy_write_clamp_flags (mnt : Mount) (fv : fuse_vnode_data) (bp : Buf) :
    (strategy_write_clamp mnt fv bp).B_NEEDCOMMIT = bp.B_NEEDCOMMIT ∧
    (strategy_write_clamp mnt fv bp).B_INVAL = bp.B_INVAL ∧
    (strategy_write_clamp mnt fv bp).b_iocmd = bp.b_iocmd := by
  unfold strategy_write_clamp
  split <;> exact ⟨rfl, rfl, rfl⟩

/-- The dirty interval and the flags of a block after the direct write of its
flush returned `error`. -/
theorem strategy_write_flags_cases (bp : Buf) (error : Nat) :
    ((error = EINTR ∨ error = ETIMEDOUT) →
      (strategy_write_flags bp error).b_dirtyoff = bp.b_dirtyoff ∧
      (strategy_write_flags bp error).b_dirtyend = bp.b_dirtyend ∧
      (strategy_write_flags bp error).B_INVAL = false ∧
      (strategy_write_flags bp error).BIO_ERROR = bp.BIO_ERROR) ∧
    (error ≠ 0 → error ≠ EINTR → error ≠ ETIMEDOUT →
      (strategy_write_flags bp error).b_dirtyoff = 0 ∧
      (strategy_write_flags bp error).b_dirtyend = 0 ∧
      (strategy_write_flags bp error).B_INVAL = true ∧
      (strategy_write_flags bp error).BIO_ERROR = true ∧
      (strategy_write_flags bp error).b_error = error) ∧
    (error = 0 → bp.B_NEEDCOMMIT = false →
      (strategy_write_flags bp error).b_dirtyoff = 0 ∧
      (strategy_write_flags bp error).b_dirtyend = 0 ∧
      (strategy_write_flags bp error).B_INVAL = bp.B_INVAL) ∧
    (error = 0 → bp.B_NEEDCOMMIT = true →
      (strategy_write_flags bp error).b_dirtyoff = bp.b_dirtyoff ∧
      (strategy_write_flags bp error).b_dirtyend = bp.b_dirtyend ∧
      (strategy_write_flags bp error).B_INVAL = false ∧
      (bp.B_PAGING = false → (strategy_write_flags bp error).B_DELWRI = true)) := by
  refine ⟨?_, ?_, ?_, ?_⟩
  · intro h
    unfold strategy_write_flags bdirty
    rw [if_pos (by rcases h with h | h; exact Or.inl h; exact Or.inr (Or.inl h))]
    dsimp only
    split <;> split <;> exact ⟨rfl, rfl, rfl, rfl⟩
  · intro h0 h1 h2
    unfold strategy_write_flags
    rw [if_neg (by
      intro hc
      rcases hc with hc | hc | hc
      · exact h1 hc
      · exact h2 hc
      · exact h0 hc.1)]
    dsimp only
    rw [if_pos h0]
    exact ⟨rfl, rfl, rfl, rfl, rfl⟩
  · intro h0 hn
    unfold strategy_write_flags
    rw [if_neg (by
      intro hc
      rcases hc with hc | hc | hc
      · rw [h0] at hc; simp [EINTR] at hc
      · rw [h0] at hc; simp [ETIMEDOUT] at hc
      · rw [hn] at hc; simp at hc)]
    dsimp only
    rw [if_neg (by simp [h0])]
    exact ⟨rfl, rfl, rfl⟩
  · intro h0 hn
    unfold strategy_write_flags bdirty
    rw [if_pos (Or.inr (Or.inr ⟨h0, hn⟩))]
    dsimp only
    have hne : ¬ ((error = EINTR ∨ error = ETIMEDOUT)) := by
      rw [h0]; simp [EINTR, ETIMEDOUT]
    split
    · rename_i hp
      rw [if_neg (fun hc => hne hc.1)]
      exact ⟨rfl, rfl, rfl, fun _ => rfl⟩
    · rename_i hp
      rw [if_neg (fun hc => hne hc.1)]
      exact ⟨rfl, rfl, rfl, fun h => absurd h hp⟩

/-- The strategy routine on a write with the handle open and a non-empty
interval after the chop: its result is that of the direct write, with the
block updated by `strategy_write_flags`. -/
theorem fuse_io_strategy_write_eq {σ : Type} (d : Daemon σ) (mnt : Mount) (fuel fh : Nat)
    (w : World σ) (fv : fuse_vnode_data) (bp : Buf)
    (hcmd : bp.b_iocmd = .BIO_WRITE) (hfh : fv.fufh .FUFH_WRONLY = some fh)
    (hne : (strategy_write_clamp mnt fv (strategy_clear bp)).b_dirtyoff
      < (strategy_write_clamp mnt fv (strategy_clear bp)).b_dirtyend) :
    fuse_io_strategy d mnt fuel w fv bp =
      (fuse_write_directbackend d mnt.max_write fh fuel w fv
        (strategy_write_uio mnt (strategy_write_clamp mnt fv (strategy_clear bp)))).map
        (fun r => (r.1, r.2.1, r.2.2.1,
          bufdone { strategy_write_flags (strategy_write_clamp mnt fv (strategy_clear bp)) r.1
            with b_resid := r.2.2.2.uio_resid })) := by
  unfold fuse_io_strategy
  have h1 : (if bp.b_iocmd = BioCmd.BIO_READ then FufhType.FUFH_RDONLY
      else FufhType.FUFH_WRONLY) = FufhType.FUFH_WRONLY := by
    rw [hcmd]; rfl
  rw [h1]
  simp only [fuse_filehandle_getrw, hfh]
  have h2 : ¬ (strategy_clear bp).b_iocmd = BioCmd.BIO_READ := by
    rw [(strategy_clear_fields bp).2.2.2.2.2.1, hcmd]; decide
  rw [if_neg h2, if_pos hne]
  cases fuse_write_directbackend d mnt.max_write fh fuel w fv
      (strategy_write_uio mnt (strategy_write_clamp mnt fv (strategy_clear bp))) <;> rfl

theorem uiomove_resid (cp : Nat → Nat) (n : Nat) (uio : Uio) :
    (uiomove cp n uio).2.2.uio_resid ≤ uio.uio_resid ∧
    (0 ≤ uio.uio_resid → 0 ≤ (uiomove cp n uio).2.2.uio_resid) := by
  unfold uiomove
  dsimp only
  split
  · exact ⟨le_refl _, fun h => h⟩
  · cases hrw : uio.uio_rw
    · dsimp only [uio_advance]
      constructor
      · omega
      · intro h; omega
    · dsimp only [uio_advance]
      constructor
      · omega
      · intro h; omega

/-- A direct read never raises the residual, and leaves it non-negative. -/
theorem read_direct_loop_resid {σ : Type} (d : Daemon σ) (M fh : Nat) :
    ∀ (fuel : Nat) (w : World σ) (uio : Uio) (r : Nat × World σ × Uio),
      read_direct_loop d M fh fuel w uio = some r →
      r.2.2.uio_resid ≤ uio.uio_resid ∧ (0 ≤ uio.uio_resid → 0 ≤ r.2.2.uio_resid) := by
  intro fuel
  induction fuel with
  | zero =>
    intro w uio r h
    rw [read_direct_loop] at h
    split at h
    · exact absurd h (by simp)
    · simp only [Option.some.injEq] at h
      subst h
      exact ⟨le_refl _, fun h => h⟩
  | succ fuel ih =>
    intro w uio r h
    rw [read_direct_loop] at h
    split at h
    · dsimp only at h
      split at h
      · simp only [Option.some.injEq] at h
        subst h
        exact ⟨le_refl _, fun h => h⟩
      · split at h
        · simp only [Option.some.injEq] at h
          subst h
          exact uiomove_resid _ _ _
        · split at h
          · simp only [Option.some.injEq] at h
            subst h
            exact uiomove_resid _ _ _
          · have h1 := ih _ _ _ h
            have h2 := uiomove_resid
              (fun i => (d.read w.st fh uio.uio_offset (min uio.uio_resid.toNat M)).2.2.getD i 0)
              (min (min uio.uio_resid.toNat M)
                (d.read w.st fh uio.uio_offset (min uio.uio_resid.toNat M)).2.2.length) uio
            exact ⟨le_trans h1.1 h2.1, fun h0 => h1.2 (h2.2 h0)⟩
    · simp only [Option.some.injEq] at h
      subst h
      exact ⟨le_refl _, fun h => h⟩

theorem fuse_read_directbackend_resid {σ : Type} (d : Daemon σ) (M fh fuel : Nat)
    (w : World σ) (uio : Uio) (r : Nat × World σ × Uio)
    (h : fuse_read_directbackend d M fh fuel w uio = some r) :
    r.2.2.uio_resid ≤ uio.uio_resid ∧ (0 ≤ uio.uio_resid → 0 ≤ r.2.2.uio_resid) := by
  unfold fuse_read_directbackend at h
  split at h
  · simp only [Option.some.injEq] at h
    subst h
    exact ⟨le_refl _, fun h => h⟩
  · exact read_direct_loop_resid d M fh fuel w uio r h

theorem toInt32_small (x : Int) (h1 : 0 ≤ x) (h2 : x < 2147483648) : toInt32 x = x := by
  unfold toInt32
  simp only
  split <;> omega

/-- The block after a short direct read without error: the residual is
cleared and the bytes from the end of the read on are zero. -/
theorem strategy_read_done_short (bp : Buf) (uio1 : Uio) (h1 : 0 < uio1.uio_resid)
    (h2 : uio1.uio_resid ≤ bp.b_bcount) (h3 : bp.b_bcount < 2147483648) :
    (strategy_read_done bp 0 uio1).b_resid = 0 ∧
    (strategy_read_done bp 0 uio1).b_data =
      bzero uio1.mem (bp.b_bcount - uio1.uio_resid).toNat uio1.uio_resid.toNat := by
  have ha : toInt32 (bp.b_bcount - uio1.uio_resid) = bp.b_bcount - uio1.uio_resid :=
    toInt32_small _ (by omega) (by omega)
  have hb : toInt32 uio1.uio_resid = uio1.uio_resid := toInt32_small _ (by omega) (by omega)
  have hs : (0 : Nat) = 0 ∧ uio1.uio_resid ≠ 0 := ⟨rfl, by omega⟩
  unfold strategy_read_done
  dsimp only
  rw [if_neg (by simp), ha, hb, if_pos ⟨hs, h1⟩, if_pos hs]
  exact ⟨(bufdone_fields _).2.2.2.2.2.2.2.2.2.2.2, (bufdone_fields _).2.2.2.2.1⟩

/-! ## The exchanges of a flush -/

theorem fullWriteLog_zero (fh : Nat) (off : Int) (M : Nat) (src : Nat → Nat) (hM : 0 < M) :
    fullWriteLog fh off 0 M src = [] := by
  unfold fullWriteLog
  have : (0 + M - 1) / M = 0 := by
    apply Nat.div_eq_of_lt; omega
  rw [this]; rfl

theorem fullWriteLog_pos (fh : Nat) (off : Int) (N M : Nat) (src : Nat → Nat) (hM : 0 < M)
    (hN : 0 < N) :
    fullWriteLog fh off N M src =
      Event.write fh off (min N M) (bytesOf src (min N M)) 0 (min N M) ::
        fullWriteLog fh (off + (min N M : Nat)) (N - min N M) M (fun j => src (min N M + j)) := by
  unfold fullWriteLog
  by_cases h : N ≤ M
  · have h1 : (N + M - 1) / M = 1 := by
      apply Nat.div_eq_of_lt_le <;> omega
    have h2 : (N - min N M + M - 1) / M = 0 := by
      apply Nat.div_eq_of_lt; omega
    rw [h1, h2]
    simp [List.range_succ]
  · have hmin : min N M = M := by omega
    have h1 : (N + M - 1) / M = (N - M + M - 1) / M + 1 := by
      have : N + M - 1 = (N - M + M - 1) + M := by omega
      rw [this, Nat.add_div_right _ hM]
    rw [hmin, h1, List.range_succ_eq_map]
    simp only [List.map_cons, List.map_map, Nat.cast_zero, zero_mul, add_zero, Nat.sub_zero,
      Nat.zero_add]
    rw [List.cons.injEq]
    refine ⟨by rw [hmin], ?_⟩
    apply List.map_congr_left
    intro i _
    simp only [Function.comp, Nat.succ_eq_add_one]
    have e1 : N - M - i * M = N - (i + 1) * M := by
      rw [Nat.sub_sub]; congr 1; ring
    have e2 : off + (M : Int) + (i : Int) * M = off + ((i + 1 : Nat) : Int) * M := by
      push_cast; ring
    have e3 : (fun j => src (M + (i * M + j))) = (fun j => src ((i + 1) * M + j)) := by
      funext j; congr 1; ring
    rw [e1, e2, e3]

/-- Every exchange of `fullWriteLog` is a write acknowledged in full that lies
within `[off, off + N)`. -/
theorem fullWriteLog_range (fh : Nat) (off : Int) (N M : Nat) (src : Nat → Nat) (hM : 0 < M) :
    ∀ ev ∈ fullWriteLog fh off N M src, ∃ o s p, ev = Event.write fh o s p 0 s ∧
      off ≤ o ∧ o + (s : Int) ≤ off + (N : Int) ∧ 0 < s := by
  intro ev hev
  unfold fullWriteLog at hev
  rw [List.mem_map] at hev
  obtain ⟨i, hi, rfl⟩ := hev
  rw [List.mem_range] at hi
  have hlt : i * M < N := by
    by_contra hc
    have h1 : N + M - 1 < (i + 1) * M := by
      have : (i + 1) * M = i * M + M := by ring
      omega
    have h2 : (N + M - 1) / M < i + 1 := (Nat.div_lt_iff_lt_mul hM).2 h1
    omega
  refine ⟨_, _, _, rfl, ?_, ?_, ?_⟩
  · have : (0 : Int) ≤ (i : Int) * (M : Int) := by positivity
    omega
  · have h3 : ((i * M : Nat) : Int) = (i : Int) * (M : Int) := by push_cast; ring
    have h4 : ((min (N - i * M) M : Nat) : Int) ≤ ((N - i * M : Nat) : Int) := by
      exact_mod_cast Nat.min_le_left _ _
    have h5 : ((N - i * M : Nat) : Int) = (N : Int) - ((i * M : Nat) : Int) := by
      omega
    omega
  · omega

/-- A direct write from kernel memory to a service that acknowledges every
chunk in full returns 0 after the exchanges of `fullWriteLog`. -/
theorem write_direct_loop_full {σ : Type} (d : Daemon σ) (M fh : Nat) (hM : 0 < M)
    (hM2 : M < 4294967296)
    (hfull : ∀ st fh off sz p, (d.write st fh off sz p).2.1 = 0 ∧ (d.write st fh off sz p).2.2 = sz) :
    ∀ (fuel : Nat) (w : World σ) (fv : fuse_vnode_data) (uio : Uio),
      uio.uio_rw = .UIO_WRITE → uio.limit = none → 0 ≤ uio.uio_resid →
      (uio.uio_resid.toNat + M - 1) / M ≤ fuel →
      ∃ w1 fv1 uio1, write_direct_loop d M fh fuel w fv uio = some (0, w1, fv1, uio1) ∧
        w1.log = w.log ++ fullWriteLog fh uio.uio_offset uio.uio_resid.toNat M
          (fun j => uio.mem (uio.iov_base + j)) ∧
        uio1.uio_resid = 0 := by
  intro fuel
  induction fuel with
  | zero =>
    intro w fv uio _ _ h0 hk
    have hz : uio.uio_resid = 0 := by
      by_contra hne
      have hpos : 0 < uio.uio_resid.toNat := by omega
      have : 1 ≤ (uio.uio_resid.toNat + M - 1) / M := by
        rw [Nat.le_div_iff_mul_le hM]; omega
      omega
    refine ⟨w, fv, uio, ?_, ?_, hz⟩
    · simp [write_direct_loop, hz]
    · simp [hz, fullWriteLog_zero fh _ M _ hM]
  | succ fuel ih =>
    intro w fv uio hrw hl h0 hk
    by_cases hz : uio.uio_resid = 0
    · refine ⟨w, fv, uio, ?_, ?_, hz⟩
      · simp [write_direct_loop, hz]
      · simp [hz, fullWriteLog_zero fh _ M _ hM]
    · have hpos : 0 < uio.uio_resid := by omega
      set N := uio.uio_resid.toNat with hN
      have hNpos : 0 < N := by omega
      set c := min N M with hc
      have hnf : NoFault uio := by
        intro a ha; rw [hl] at ha; exact absurd ha (by simp)
      have hcle : (c : Int) ≤ uio.uio_resid := by omega
      obtain ⟨m1, m2, m3, m4, m5, m6⟩ := uiomove_ok (fun _ => 0) c uio hnf hcle
      obtain ⟨m7, m8⟩ := uiomove_write (fun _ => 0) c uio hrw m1
      have hmin : min c uio.uio_resid.toNat = c := by omega
      rw [hmin] at m8
      have hP : bytesOf (uiomove (fun _ => 0) c uio).2.1 c
          = bytesOf (fun j => uio.mem (uio.iov_base + j)) c := by
        unfold bytesOf
        apply List.map_congr_left
        intro j hj
        rw [List.mem_range] at hj
        exact m8 j hj
      set U := (uiomove (fun _ => 0) c uio).2.2 with hU
      have hN1 : U.uio_resid.toNat = N - c := by rw [m2]; omega
      have hk1 : (U.uio_resid.toNat + M - 1) / M ≤ fuel := by
        rw [hN1]
        by_cases h : N ≤ M
        · have : (N - c + M - 1) / M = 0 := by apply Nat.div_eq_of_lt; omega
          omega
        · have hmin : c = M := by omega
          have : N + M - 1 = (N - c + M - 1) + M := by omega
          rw [this, Nat.add_div_right _ hM] at hk
          omega
      have hans1 : ∀ p, (d.write w.st fh uio.uio_offset c p).2.1 = 0 :=
        fun p => (hfull _ _ _ _ p).1
      have hans2 : ∀ p, (d.write w.st fh uio.uio_offset c p).2.2 = c :=
        fun p => (hfull _ _ _ _ p).2
      have hcm : c % 4294967296 = c := Nat.mod_eq_of_lt (by omega)
      have hd : toInt32 ((c : Int) - (c : Int)) = 0 := by
        simp [toInt32]
      obtain ⟨w1, fv1, uio1, r1, r2, r3⟩ :=
        ih { st := (d.write w.st fh uio.uio_offset c
               (bytesOf (fun j => uio.mem (uio.iov_base + j)) c)).1,
             log := w.log ++ [Event.write fh uio.uio_offset c
               (bytesOf (fun j => uio.mem (uio.iov_base + j)) c) 0 c] }
          (if fv.filesize < U.uio_offset then fuse_vnode_setsize fv U.uio_offset else fv)
          U (by rw [m6]; exact hrw) (by rw [m5]; exact hl) (by rw [m2]; omega) hk1
      refine ⟨w1, fv1, uio1, ?_, ?_, r3⟩
      · rw [write_direct_loop]
        simp only [hpos, if_true, ← hN, ← hc, m1, ne_eq, not_true_eq_false, if_false, hans1,
          hans2, hd, hcm, lt_self_iff_false, add_zero, sub_zero, hP, ← hU]
        exact r1
      · rw [r2, fullWriteLog_pos fh _ N M _ hM hNpos, hN1, m3, m7, m4]
        simp only [List.append_assoc, List.singleton_append, ← hc]
        have e3 : (fun j => uio.mem (uio.iov_base + c + j))
            = (fun j => uio.mem (uio.iov_base + (c + j))) := by
          funext j; congr 1; ring
        rw [e3]

/-! ## A write and a read through the file service -/

theorem fileDaemon_read (st : FileSt) (fh : Nat) (off : Int) (size : Nat) :
    (fileDaemon.read st fh off size).1 = st ∧ (fileDaemon.read st fh off size).2.1 = 0 ∧
    (fileDaemon.read st fh off size).2.2
      = bytesOf (fun i => st.data (off + (i : Int))) (min (size : Int) (st.size - off)).toNat ∧
    (fileDaemon.read st fh off size).2.2.length = (min (size : Int) (st.size - off)).toNat := by
  refine ⟨rfl, rfl, rfl, ?_⟩
  simp [fileDaemon, bytesOf]

/-- One exchange of a direct read from the file service: `p` bytes of the
file are delivered at the cursor; then the loop stops on a fault, stops on a
short answer, or goes on. -/
theorem read_direct_loop_file_step (M fh fuel : Nat) (w : World FileSt) (uio : Uio)
    (r : Nat × World FileSt × Uio) (hrw : uio.uio_rw = .UIO_READ) (hpos : 0 < uio.uio_resid)
    (h : read_direct_loop fileDaemon M fh (fuel + 1) w uio = some r) :
    ∃ (p : Nat) (w1 : World FileSt) (uio1 : Uio),
      w1.st = w.st ∧
      (p : Int) = min (min uio.uio_resid (M : Int)) (max 0 (w.st.size - uio.uio_offset)) ∧
      ((r.1 ≠ 0 ∧ uio.limit ≠ none ∧ r.2.1.st = w.st) ∨
        (uio1.uio_resid = uio.uio_resid - p ∧ uio1.uio_offset = uio.uio_offset + p ∧
          uio1.iov_base = uio.iov_base + p ∧ uio1.limit = uio.limit ∧
          uio1.uio_rw = uio.uio_rw ∧
          (∀ a, uio1.mem a = if uio.iov_base ≤ a ∧ a < uio.iov_base + p
            then w.st.data (uio.uio_offset + ((a - uio.iov_base : Nat) : Int))
            else uio.mem a) ∧
          ((r = (0, w1, uio1) ∧ (p : Int) < min uio.uio_resid (M : Int)) ∨
            ((p : Int) = min uio.uio_resid (M : Int) ∧
              read_direct_loop fileDaemon M fh fuel w1 uio1 = some r)))) := by
  rw [read_direct_loop] at h
  rw [if_pos hpos] at h
  dsimp only at h
  obtain ⟨f1, f2, f3, f4⟩ :=
    fileDaemon_read w.st fh uio.uio_offset (min uio.uio_resid.toNat M)
  rw [if_neg (by rw [f2]; simp)] at h
  have hp : min (min uio.uio_resid.toNat M)
      (fileDaemon.read w.st fh uio.uio_offset (min uio.uio_resid.toNat M)).2.2.length
      = (min ((min uio.uio_resid.toNat M : Nat) : Int) (w.st.size - uio.uio_offset)).toNat := by
    rw [f4]; omega
  rw [hp] at h
  have hpv : (((min ((min uio.uio_resid.toNat M : Nat) : Int)
      (w.st.size - uio.uio_offset)).toNat : Nat) : Int)
      = min (min uio.uio_resid (M : Int)) (max 0 (w.st.size - uio.uio_offset)) := by
    omega
  refine ⟨(min ((min uio.uio_resid.toNat M : Nat) : Int) (w.st.size - uio.uio_offset)).toNat,
    { st := (fileDaemon.read w.st fh uio.uio_offset (min uio.uio_resid.toNat M)).1,
      log := w.log ++ [Event.read fh uio.uio_offset (min uio.uio_resid.toNat M)
        (fileDaemon.read w.st fh uio.uio_offset (min uio.uio_resid.toNat M)).2.1
        (fileDaemon.read w.st fh uio.uio_offset (min uio.uio_resid.toNat M)).2.2.length] },
    (uiomove (fun i => (fileDaemon.read w.st fh uio.uio_offset
        (min uio.uio_resid.toNat M)).2.2.getD i 0)
        (min ((min uio.uio_resid.toNat M : Nat) : Int) (w.st.size - uio.uio_offset)).toNat
        uio).2.2, f1, hpv, ?_⟩
  split at h
  · rename_i hmv
    simp only [Option.some.injEq] at h
    subst h
    left
    refine ⟨hmv, ?_, f1⟩
    intro hl
    exact hmv (uiomove_sys _ _ _ hl)
  · rename_i hmv
    have hmv0 : (uiomove (fun i => (fileDaemon.read w.st fh uio.uio_offset
        (min uio.uio_resid.toNat M)).2.2.getD i 0)
        (min ((min uio.uio_resid.toNat M : Nat) : Int) (w.st.size - uio.uio_offset)).toNat
        uio).1 = 0 := by
      simpa using hmv
    right
    obtain ⟨m2, m3, m4, m5, m6⟩ := uiomove_moved _ _ uio hmv0
    have m7 := uiomove_read _ _ uio hrw hmv0
    have hmin : min (min ((min uio.uio_resid.toNat M : Nat) : Int)
        (w.st.size - uio.uio_offset)).toNat uio.uio_resid.toNat
        = (min ((min uio.uio_resid.toNat M : Nat) : Int) (w.st.size - uio.uio_offset)).toNat := by
      omega
    rw [hmin] at m2 m3 m4 m7
    refine ⟨m2, m3, m4, m5, m6, fun a => ?_, ?_⟩
    · rw [m7 a]
      split
      · rename_i ha
        rw [f3, bytesOf_getD _ _ _ (by omega)]
      · rfl
    · split at h
      · rename_i hshort
        rw [f4] at hshort
        simp only [Option.some.injEq] at h
        left
        exact ⟨h.symm, by omega⟩
      · rename_i hshort
        rw [f4] at hshort
        right
        exact ⟨by omega, h⟩

theorem read_file_short (uio uio1 : Uio) (D : Int → Nat) (size : Int) (p M : Nat)
    (hp : (p : Int) = min (min uio.uio_resid (M : Int)) (max 0 (size - uio.uio_offset)))
    (hlt : (p : Int) < min uio.uio_resid (M : Int))
    (u1 : uio1.uio_resid = uio.uio_resid - p)
    (u6 : ∀ a, uio1.mem a = if uio.iov_base ≤ a ∧ a < uio.iov_base + p
      then D (uio.uio_offset + ((a - uio.iov_base : Nat) : Int)) else uio.mem a) :
    uio1.uio_resid = uio.uio_resid - min uio.uio_resid (max 0 (size - uio.uio_offset)) ∧
    (∀ a, uio1.mem a =
      if uio.iov_base ≤ a ∧
        (a : Int) < uio.iov_base + min uio.uio_resid (max 0 (size - uio.uio_offset))
      then D (uio.uio_offset + ((a - uio.iov_base : Nat) : Int)) else uio.mem a) := by
  refine ⟨by rw [u1]; omega, fun a => ?_⟩
  rw [u6 a]
  by_cases ha : uio.iov_base ≤ a ∧ a < uio.iov_base + p
  · rw [if_pos ha, if_pos (by omega)]
  · rw [if_neg ha, if_neg (by omega)]

theorem read_file_combine (uio uio1 r2 : Uio) (D : Int → Nat) (size : Int) (p M : Nat)
    (h0 : 0 ≤ uio.uio_resid)
    (hp : (p : Int) = min (min uio.uio_resid (M : Int)) (max 0 (size - uio.uio_offset)))
    (heq : (p : Int) = min uio.uio_resid (M : Int))
    (u1 : uio1.uio_resid = uio.uio_resid - p) (u2 : uio1.uio_offset = uio.uio_offset + p)
    (u3 : uio1.iov_base = uio.iov_base + p)
    (u6 : ∀ a, uio1.mem a = if uio.iov_base ≤ a ∧ a < uio.iov_base + p
      then D (uio.uio_offset + ((a - uio.iov_base : Nat) : Int)) else uio.mem a)
    (j2 : r2.uio_resid = uio1.uio_resid -
      min uio1.uio_resid (max 0 (size - uio1.uio_offset)))
    (j3 : ∀ a, r2.mem a =
      if uio1.iov_base ≤ a ∧
        (a : Int) < uio1.iov_base + min uio1.uio_resid (max 0 (size - uio1.uio_offset))
      then D (uio1.uio_offset + ((a - uio1.iov_base : Nat) : Int)) else uio1.mem a) :
    r2.uio_resid = uio.uio_resid - min uio.uio_resid (max 0 (size - uio.uio_offset)) ∧
    (∀ a, r2.mem a =
      if uio.iov_base ≤ a ∧
        (a : Int) < uio.iov_base + min uio.uio_resid (max 0 (size - uio.uio_offset))
      then D (uio.uio_offset + ((a - uio.iov_base : Nat) : Int)) else uio.mem a) := by
  rw [u1, u2] at j2
  refine ⟨by rw [j2]; omega, fun a => ?_⟩
  rw [j3 a, u1, u2, u3, u6 a]
  by_cases ha1 : uio.iov_base + p ≤ a ∧ (a : Int) < ((uio.iov_base + p : Nat) : Int) +
      min (uio.uio_resid - ↑p) (max 0 (size - (uio.uio_offset + ↑p)))
  · rw [if_pos ha1, if_pos (by omega)]
    congr 1
    omega
  · rw [if_neg ha1]
    by_cases ha2 : uio.iov_base ≤ a ∧ a < uio.iov_base + p
    · rw [if_pos ha2, if_pos (by omega)]
    · rw [if_neg ha2, if_neg (by omega)]

theorem read_file_done (uio : Uio) (D : Int → Nat) (size : Int) (h : ¬ 0 < uio.uio_resid)
    (h0 : 0 ≤ uio.uio_resid) :
    uio.uio_resid = uio.uio_resid - min uio.uio_resid (max 0 (size - uio.uio_offset)) ∧
    (∀ a, uio.mem a =
      if uio.iov_base ≤ a ∧
        (a : Int) < uio.iov_base + min uio.uio_resid (max 0 (size - uio.uio_offset))
      then D (uio.uio_offset + ((a - uio.iov_base : Nat) : Int)) else uio.mem a) := by
  refine ⟨by omega, fun a => ?_⟩
  rw [if_neg (by omega)]

/-- A direct read from the file service, seen from its result: the service is
unchanged, and a read that returns 0 delivered the stored bytes of the range,
cut at the end of the file.  With a kernel-space destination the read cannot
fail. -/
theorem read_direct_loop_file (M fh : Nat) :
    ∀ (fuel : Nat) (w : World FileSt) (uio : Uio) (r : Nat × World FileSt × Uio),
      read_direct_loop fileDaemon M fh fuel w uio = some r →
      uio.uio_rw = .UIO_READ → 0 ≤ uio.uio_resid →
      r.2.1.st = w.st ∧
      (uio.limit = none ∨ r.1 = 0 →
        r.1 = 0 ∧
        r.2.2.uio_resid = uio.uio_resid - min uio.uio_resid (max 0 (w.st.size - uio.uio_offset)) ∧
        (∀ a, r.2.2.mem a =
          if uio.iov_base ≤ a ∧
            (a : Int) < uio.iov_base + min uio.uio_resid (max 0 (w.st.size - uio.uio_offset))
          then w.st.data (uio.uio_offset + ((a - uio.iov_base : Nat) : Int)) else uio.mem a)) := by
  intro fuel
  induction fuel with
  | zero =>
    intro w uio r h hrw h0
    rw [read_direct_loop] at h
    split at h
    · exact absurd h (by simp)
    · rename_i hpos
      simp only [Option.some.injEq] at h
      subst h
      exact ⟨rfl, fun _ => ⟨rfl, read_file_done uio w.st.data w.st.size hpos h0⟩⟩
  | succ fuel ih =>
    intro w uio r h hrw h0
    by_cases hpos : 0 < uio.uio_resid
    · obtain ⟨p, w1, uio1, hw1, hp, hcase⟩ :=
        read_direct_loop_file_step M fh fuel w uio r hrw hpos h
      rcases hcase with ⟨e1, e2, e3⟩ | ⟨u1, u2, u3, u4, u5, u6, hcase2⟩
      · refine ⟨e3, fun hl => ?_⟩
        rcases hl with hl | hl
        · exact absurd hl e2
        · exact absurd hl e1
      · rcases hcase2 with ⟨hr, hlt⟩ | ⟨heq, hrec⟩
        · subst hr
          exact ⟨hw1, fun _ => ⟨rfl, read_file_short uio uio1 w.st.data w.st.size p M hp hlt u1 u6⟩⟩
        · have hres1 : 0 ≤ uio1.uio_resid := by rw [u1]; omega
          obtain ⟨i1, i2⟩ := ih w1 uio1 r hrec (u5.trans hrw) hres1
          refine ⟨i1.trans hw1, fun hl => ?_⟩
          have hl1 : uio1.limit = none ∨ r.1 = 0 := by
            rcases hl with hl | hl
            · exact Or.inl (u4.trans hl)
            · exact Or.inr hl
          obtain ⟨j1, j2, j3⟩ := i2 hl1
          rw [hw1] at j2 j3
          exact ⟨j1, read_file_combine uio uio1 r.2.2 w.st.data w.st.size p M h0 hp heq
            u1 u2 u3 u6 j2 j3⟩
    · rw [read_direct_loop] at h
      rw [if_neg hpos] at h
      simp only [Option.some.injEq] at h
      subst h
      exact ⟨rfl, fun _ => ⟨rfl, read_file_done uio w.st.data w.st.size hpos h0⟩⟩

/-- The strategy routine on a write with the handle open and an interval
that is empty after the chop: nothing is sent. -/
theorem fuse_io_strategy_write_empty {σ : Type} (d : Daemon σ) (mnt : Mount) (fuel fh : Nat)
    (w : World σ) (fv : fuse_vnode_data) (bp : Buf)
    (hcmd : bp.b_iocmd = .BIO_WRITE) (hfh : fv.fufh .FUFH_WRONLY = some fh)
    (hne : ¬ (strategy_write_clamp mnt fv (strategy_clear bp)).b_dirtyoff
      < (strategy_write_clamp mnt fv (strategy_clear bp)).b_dirtyend) :
    fuse_io_strategy d mnt fuel w fv bp =
      some (0, w, fv, bufdone { strategy_write_clamp mnt fv (strategy_clear bp) with b_resid := 0 }) := by
  unfold fuse_io_strategy
  have h1 : (if bp.b_iocmd = BioCmd.BIO_READ then FufhType.FUFH_RDONLY
      else FufhType.FUFH_WRONLY) = FufhType.FUFH_WRONLY := by
    rw [hcmd]; rfl
  rw [h1]
  simp only [fuse_filehandle_getrw, hfh]
  have h2 : ¬ (strategy_clear bp).b_iocmd = BioCmd.BIO_READ := by
    rw [(strategy_clear_fields bp).2.2.2.2.2.1, hcmd]; decide
  rw [if_neg h2, if_neg hne]

theorem strategy_write_flags_misc (bp : Buf) (error : Nat) :
    (strategy_write_flags bp error).B_ASYNC = bp.B_ASYNC ∧
    ((strategy_write_flags bp error).b_dirtyoff = bp.b_dirtyoff ∨
      (strategy_write_flags bp error).b_dirtyoff = 0) := by
  unfold strategy_write_flags bdirty
  split
  · dsimp only
    split <;> split <;> exact ⟨rfl, Or.inl rfl⟩
  · dsimp only
    split <;> exact ⟨rfl, Or.inr rfl⟩

theorem strategy_write_clamp_misc (mnt : Mount) (fv : fuse_vnode_data) (bp : Buf) :
    (strategy_write_clamp mnt fv bp).B_ASYNC = bp.B_ASYNC := by
  unfold strategy_write_clamp
  split <;> rfl

theorem bufdone_misc (bp : Buf) :
    (bufdone bp).B_ASYNC = bp.B_ASYNC := by
  unfold bufdone
  split <;> rfl

/-- A flush to the file service with the write handle open: it returns 0, the
service holds the bytes of the block in the chopped dirty interval and what it
held before elsewhere; the block keeps its data. -/
theorem fuse_io_strategy_write_file (mnt : Mount) (fuel fh : Nat) (w : World FileSt)
    (fv : fuse_vnode_data) (bp : Buf) (r : Nat × World FileSt × fuse_vnode_data × Buf)
    (hM2 : mnt.max_write < 4294967296)
    (hcmd : bp.b_iocmd = .BIO_WRITE) (hfh : fv.fufh .FUFH_WRONLY = some fh)
    (h0 : 0 ≤ bp.b_dirtyoff)
    (h : fuse_io_strategy fileDaemon mnt fuel w fv bp = some r) :
    r.1 = 0 ∧
    (∀ x, r.2.1.st.data x =
      if bp.b_blkno * (fuse_iosize mnt : Int) + bp.b_dirtyoff ≤ x ∧
        x < bp.b_blkno * (fuse_iosize mnt : Int) +
          min bp.b_dirtyend (fv.filesize - bp.b_blkno * (fuse_iosize mnt : Int))
      then bp.b_data (x - bp.b_blkno * (fuse_iosize mnt : Int)).toNat else w.st.data x) ∧
    w.st.size ≤ r.2.1.st.size ∧
    (bp.b_dirtyoff < min bp.b_dirtyend (fv.filesize - bp.b_blkno * (fuse_iosize mnt : Int)) →
      bp.b_blkno * (fuse_iosize mnt : Int) +
        min bp.b_dirtyend (fv.filesize - bp.b_blkno * (fuse_iosize mnt : Int))
        ≤ r.2.1.st.size) ∧
    r.2.2.2.b_data = bp.b_data ∧ 0 ≤ r.2.2.2.b_dirtyoff ∧ r.2.2.2.B_ASYNC = bp.B_ASYNC := by
  obtain ⟨cb, _, co, cd, ce⟩ := strategy_write_clamp_fields mnt fv (strategy_clear bp)
  have hb : (strategy_clear bp).b_blkno = bp.b_blkno := rfl
  have ho : (strategy_clear bp).b_dirtyoff = bp.b_dirtyoff := rfl
  have he : (strategy_clear bp).b_dirtyend = bp.b_dirtyend := rfl
  have hdt : (strategy_clear bp).b_data = bp.b_data := rfl
  have has : (strategy_clear bp).B_ASYNC = bp.B_ASYNC := rfl
  rw [hb, he] at ce
  rw [ho] at co
  rw [hb] at cb
  rw [hdt] at cd
  have ca := strategy_write_clamp_misc mnt fv (strategy_clear bp)
  rw [has] at ca
  by_cases hne : (strategy_write_clamp mnt fv (strategy_clear bp)).b_dirtyoff
      < (strategy_write_clamp mnt fv (strategy_clear bp)).b_dirtyend
  · rw [fuse_io_strategy_write_eq fileDaemon mnt fuel fh w fv bp hcmd hfh hne] at h
    rw [co, ce] at hne
    cases hdw : fuse_write_directbackend fileDaemon mnt.max_write fh fuel w fv
        (strategy_write_uio mnt (strategy_write_clamp mnt fv (strategy_clear bp))) with
    | none => rw [hdw] at h; exact absurd h (by simp)
    | some r0 =>
      rw [hdw] at h
      simp only [Option.map_some', Option.some.injEq] at h
      subst h
      have hu1 : (strategy_write_uio mnt (strategy_write_clamp mnt fv (strategy_clear bp))).uio_resid
          = min bp.b_dirtyend (fv.filesize - bp.b_blkno * (fuse_iosize mnt : Int))
            - bp.b_dirtyoff := by
        show (strategy_write_clamp mnt fv (strategy_clear bp)).b_dirtyend -
          (strategy_write_clamp mnt fv (strategy_clear bp)).b_dirtyoff = _
        rw [co, ce]
      have hu2 : (strategy_write_uio mnt (strategy_write_clamp mnt fv (strategy_clear bp))).uio_offset
          = bp.b_blkno * (fuse_iosize mnt : Int) + bp.b_dirtyoff := by
        show (strategy_write_clamp mnt fv (strategy_clear bp)).b_blkno * (fuse_iosize mnt : Int) +
          (strategy_write_clamp mnt fv (strategy_clear bp)).b_dirtyoff = _
        rw [co, cb]
      have hu3 : (strategy_write_uio mnt (strategy_write_clamp mnt fv (strategy_clear bp))).iov_base
          = bp.b_dirtyoff.toNat := by
        show (strategy_write_clamp mnt fv (strategy_clear bp)).b_dirtyoff.toNat = _
        rw [co]
      have hu4 : (strategy_write_uio mnt (strategy_write_clamp mnt fv (strategy_clear bp))).mem
          = bp.b_data := by
        show (strategy_write_clamp mnt fv (strategy_clear bp)).b_data = _
        rw [cd]
      unfold fuse_write_directbackend at hdw
      rw [if_neg (by rw [hu1]; omega)] at hdw
      obtain ⟨f1, f2, f3, f4⟩ := write_direct_loop_file mnt.max_write fh hM2 fuel w fv _ r0 hdw
        rfl (by rw [hu1]; omega) (Or.inl rfl)
      rw [hu1, hu2, hu3, hu4] at f2
      rw [hu1, hu2] at f4
      refine ⟨f1, fun x => ?_, f3, fun _ => ?_, ?_, ?_, ?_⟩
      · dsimp only
        rw [f2 x]
        by_cases hx : bp.b_blkno * (fuse_iosize mnt : Int) + bp.b_dirtyoff ≤ x ∧
            x < bp.b_blkno * (fuse_iosize mnt : Int) + bp.b_dirtyoff +
              (min bp.b_dirtyend (fv.filesize - bp.b_blkno * (fuse_iosize mnt : Int))
                - bp.b_dirtyoff)
        · rw [if_pos hx, if_pos (by omega)]
          congr 1
          omega
        · rw [if_neg hx, if_neg (by omega)]
      · have := f4 (by omega)
        dsimp only
        omega
      · dsimp only
        rw [(bufdone_fields _).2.2.2.2.1]
        dsimp only
        rw [(strategy_write_flags_fields _ _).2.2, cd]
      · dsimp only
        rw [(bufdone_fields _).2.2.1]
        dsimp only
        rcases (strategy_write_flags_misc
          (strategy_write_clamp mnt fv (strategy_clear bp)) r0.1).2 with hh | hh
        · rw [hh, co]; exact h0
        · rw [hh]
      · dsimp only
        rw [bufdone_misc]
        dsimp only
        rw [(strategy_write_flags_misc _ _).1, ca]
  · rw [fuse_io_strategy_write_empty fileDaemon mnt fuel fh w fv bp hcmd hfh hne] at h
    rw [co, ce] at hne
    simp only [Option.some.injEq] at h
    subst h
    refine ⟨rfl, fun x => ?_, le_refl _, fun hc => absurd hc hne, ?_, ?_, ?_⟩
    · rw [if_neg (by omega)]
    · dsimp only
      rw [(bufdone_fields _).2.2.2.2.1]
      exact cd
    · dsimp only
      rw [(bufdone_fields _).2.2.1]
      dsimp only
      rw [co]; exact h0
    · dsimp only
      rw [bufdone_misc]
      exact ca

theorem brelse_bufs (vp : Vnode) (bp : Buf) :
    (∀ l, l ≠ bp.b_blkno → (brelse vp bp).bufs l = vp.bufs l) ∧
    (∀ b, (brelse vp bp).bufs bp.b_blkno = some b →
      b.b_blkno = bp.b_blkno ∧ b.b_dirtyoff = bp.b_dirtyoff ∧ b.B_INVAL = false ∧
      b.B_ASYNC = bp.B_ASYNC ∧ b.b_data = bp.b_data ∧ b.b_bcount = bp.b_bcount ∧
      b.B_CACHE = bp.B_CACHE) := by
  unfold brelse
  split
  · rename_i hc
    refine ⟨fun l hl => by simp [hl], fun b hb => ?_⟩
    simp only [if_true, Option.some.injEq] at hb
    subst hb
    exact ⟨rfl, rfl, hc.2.2, rfl, rfl, rfl, rfl⟩
  · split
    · refine ⟨fun l hl => by simp [hl], fun b hb => ?_⟩
      simp at hb
    · rename_i hc
      refine ⟨fun l hl => by simp [hl], fun b hb => ?_⟩
      simp only [if_true, Option.some.injEq] at hb
      subst hb
      have : bp.B_INVAL = false := by
        cases hh : bp.B_INVAL
        · rfl
        · exact absurd (Or.inr (Or.inl hh)) hc
      exact ⟨rfl, rfl, this, rfl, rfl, rfl, rfl⟩

theorem bufwait_fields (bp : Buf) :
    (bufwait bp).2.b_blkno = bp.b_blkno ∧ (bufwait bp).2.b_dirtyoff = bp.b_dirtyoff ∧
    (bufwait bp).2.B_ASYNC = bp.B_ASYNC ∧ (bufwait bp).2.b_data = bp.b_data ∧
    (bufwait bp).2.b_bcount = bp.b_bcount ∧ (bufwait bp).2.B_CACHE = bp.B_CACHE := by
  unfold bufwait
  split
  · exact ⟨rfl, rfl, rfl, rfl, rfl, rfl⟩
  · split <;> exact ⟨rfl, rfl, rfl, rfl, rfl, rfl⟩

theorem allocbuf_wf (l : Int) (bp : Buf) (size : Int) (h : BufWF l bp) :
    BufWF l (allocbuf bp size) := by
  unfold allocbuf
  dsimp only
  split <;> exact h

theorem getblk_wf (vp : Vnode) (l size : Int) (h : CacheWF vp) : BufWF l (getblk vp l size) := by
  unfold getblk
  split
  · rename_i bp hbp
    have := h l bp hbp
    split
    · exact this
    · exact allocbuf_wf l _ size this
  · exact allocbuf_wf l _ size ⟨rfl, le_refl _, rfl, rfl⟩

/-- The block a turn of the cached write acquires: it is filed under `lbn`,
and its size reaches the end of the chunk without passing the block size. -/
theorem write_bio_getblk_wf (mnt : Mount) (vp : Vnode) (uio : Uio) (lbn on_ n : Int)
    (h : CacheWF vp) (hle : on_ + n ≤ (fuse_iosize mnt : Int)) :
    BufWF lbn (write_bio_getblk mnt vp uio lbn on_ n).2.1 ∧
    on_ + n ≤ (write_bio_getblk mnt vp uio lbn on_ n).1 ∧
    (write_bio_getblk mnt vp uio lbn on_ n).1 ≤ (fuse_iosize mnt : Int) := by
  unfold write_bio_getblk
  dsimp only
  split
  · refine ⟨?_, le_refl _, hle⟩
    exact allocbuf_wf lbn _ _ (getblk_wf vp lbn on_ h)
  · refine ⟨getblk_wf vp lbn _ h, ?_, ?_⟩
    · split
      · split
        · exact hle
        · omega
      · exact le_refl _
    · split
      · split
        · exact le_refl _
        · have : (lbn + 1) * (fuse_iosize mnt : Int) = lbn * (fuse_iosize mnt : Int) +
            (fuse_iosize mnt : Int) := by ring
          omega
      · exact hle

theorem write_bio_cover_wf (l : Int) (bp : Buf) (on_ n bcount : Int) (h : BufWF l bp) :
    BufWF l (write_bio_cover bp on_ n bcount) := by
  unfold write_bio_cover
  split
  · exact ⟨h.1, h.2.1, rfl, h.2.2.2⟩
  · exact h

/-- The chop keeps the filing of the block, and leaves a dirty interval that
ends within `bcount`. -/
theorem write_bio_chop_wf (l : Int) (bp : Buf) (bcount : Int) (h : BufWF l bp)
    (hb : 0 ≤ bcount) :
    BufWF l (write_bio_chop bp bcount) ∧ (write_bio_chop bp bcount).b_dirtyend ≤ bcount ∧
    (write_bio_chop bp bcount).b_data = bp.b_data := by
  obtain ⟨h1, h2, h3, h4⟩ := h
  unfold write_bio_chop
  dsimp only
  split
  · split
    · exact ⟨⟨h1, le_refl _, h3, h4⟩, hb, rfl⟩
    · exact ⟨⟨h1, h2, h3, h4⟩, le_refl _, rfl⟩
  · split
    · exact ⟨⟨h1, le_refl _, h3, h4⟩, hb, rfl⟩
    · exact ⟨⟨h1, h2, h3, h4⟩, by omega, rfl⟩

/-- The block a turn writes through: it is still filed under `l`, its dirty
interval covers the chunk and ends within `bcount`, and its data is the old
data with the copied bytes at `on`. -/
theorem dirty_merge_wf (l : Int) (bp : Buf) (on_ n bcount : Int) (cp : Nat → Nat)
    (h : BufWF l bp) (hon : 0 ≤ on_) (hn : 0 < n) (hle : on_ + n ≤ bcount)
    (hde : bp.b_dirtyend ≤ bcount) :
    BufWF l (dirty_merge (write_bio_copied bp on_ cp) on_ n) ∧
    (dirty_merge (write_bio_copied bp on_ cp) on_ n).b_dirtyoff ≤ on_ ∧
    on_ + n ≤ (dirty_merge (write_bio_copied bp on_ cp) on_ n).b_dirtyend ∧
    (dirty_merge (write_bio_copied bp on_ cp) on_ n).b_dirtyend ≤ bcount ∧
    (dirty_merge (write_bio_copied bp on_ cp) on_ n).b_data = dataPut bp.b_data on_.toNat cp ∧
    (dirty_merge (write_bio_copied bp on_ cp) on_ n).b_bcount = bp.b_bcount := by
  obtain ⟨h1, h2, h3, h4⟩ := h
  unfold dirty_merge write_bio_copied
  rw [if_pos (by omega)]
  dsimp only
  split
  · exact ⟨⟨h1, by dsimp only; omega, h3, h4⟩, by dsimp only; omega, by dsimp only; omega,
      by dsimp only; omega, rfl, rfl⟩
  · exact ⟨⟨h1, hon, h3, h4⟩, le_refl _, le_refl _, hle, rfl, rfl⟩

/-- The write of a block to the file service through `bwrite`: the service
holds the bytes of the chopped dirty interval and what it held before
elsewhere; the cache changes at the number of the block only, where the
block, if it stays, keeps its data. -/
theorem bwrite_file (mnt : Mount) (fuel fh : Nat) (w : World FileSt) (vp : Vnode) (bp : Buf)
    (l : Int) (r : Nat × World FileSt × Vnode × Buf)
    (hM2 : mnt.max_write < 4294967296) (hfh : vp.v_data.fufh .FUFH_WRONLY = some fh)
    (hwf : BufWF l bp)
    (h : bwrite fileDaemon mnt fuel w vp bp = some r) :
    (∀ x, r.2.1.st.data x =
      if l * (fuse_iosize mnt : Int) + bp.b_dirtyoff ≤ x ∧
        x < l * (fuse_iosize mnt : Int) +
          min bp.b_dirtyend (vp.v_data.filesize - l * (fuse_iosize mnt : Int))
      then bp.b_data (x - l * (fuse_iosize mnt : Int)).toNat else w.st.data x) ∧
    w.st.size ≤ r.2.1.st.size ∧
    (bp.b_dirtyoff < min bp.b_dirtyend (vp.v_data.filesize - l * (fuse_iosize mnt : Int)) →
      l * (fuse_iosize mnt : Int) +
        min bp.b_dirtyend (vp.v_data.filesize - l * (fuse_iosize mnt : Int))
        ≤ r.2.1.st.size) ∧
    r.2.2.1.v_data = vp.v_data ∧ r.2.2.1.v_type = vp.v_type ∧
    (∀ l1, l1 ≠ l → r.2.2.1.bufs l1 = vp.bufs l1) ∧
    (∀ b, r.2.2.1.bufs l = some b →
      BufWF l b ∧ b.b_data = bp.b_data ∧ b.b_bcount = bp.b_bcount) := by
  obtain ⟨h1, h2, h3, h4⟩ := hwf
  obtain ⟨n1, n2⟩ := bwrite_node _ _ _ _ _ _ _ h
  unfold bwrite at h
  dsimp only at h
  rw [if_neg (by rw [h3]; simp)] at h
  split at h
  · exact absurd h (by simp)
  · rename_i r0 hs
    rw [if_pos h4] at h
    simp only [Option.some.injEq] at h
    have hb1 : (bwrite_start bp).b_blkno = bp.b_blkno := rfl
    have hb2 : (bwrite_start bp).b_dirtyoff = bp.b_dirtyoff := rfl
    have hb3 : (bwrite_start bp).b_dirtyend = bp.b_dirtyend := rfl
    have hb4 : (bwrite_start bp).b_data = bp.b_data := rfl
    have hb5 : (bwrite_start bp).B_ASYNC = bp.B_ASYNC := rfl
    have hb6 : (bwrite_start bp).b_bcount = bp.b_bcount := rfl
    obtain ⟨s1, s2, s3, s4, s5, s6, s7⟩ :=
      fuse_io_strategy_write_file mnt fuel fh _ vp.v_data (bwrite_start bp) r0 hM2 rfl hfh
        (by rw [hb2]; exact h2) hs
    obtain ⟨t1, t2, t3⟩ := fuse_io_strategy_node _ _ _ _ _ _ _ hs
    rw [hb1, hb2, hb3, hb4, h1] at s2
    rw [hb1, hb2, hb3, h1] at s4
    rw [hb4] at s5
    rw [hb5, h4] at s7
    rw [hb1, h1] at t2
    rw [hb6] at t3
    obtain ⟨q1, q2, q3, q4, q5, q6⟩ := bufwait_fields r0.2.2.2
    have hk : (bufwait r0.2.2.2).2.b_blkno = l := by rw [q1, t2]
    obtain ⟨c1, c2⟩ := brelse_bufs { vp with v_data := r0.2.2.1 } (bufwait r0.2.2.2).2
    rw [hk] at c1 c2
    subst h
    refine ⟨s2, s3, s4, n1, n2, fun l1 hl1 => c1 l1 hl1, fun b hb => ?_⟩
    · obtain ⟨e1, e2, e3, e4, e5, e6, _⟩ := c2 b hb
      refine ⟨⟨e1, ?_, e3, ?_⟩, ?_, ?_⟩
      · rw [e2, q2]; exact s6
      · rw [e4, q3]; exact s7
      · rw [e5, q4]; exact s5
      · rw [e6, q5]; exact t3

theorem strategy_read_done_misc (bp : Buf) (error : Nat) (uio1 : Uio) :
    (strategy_read_done bp error uio1).B_INVAL = bp.B_INVAL ∧
    (strategy_read_done bp error uio1).B_ASYNC = bp.B_ASYNC := by
  unfold strategy_read_done
  dsimp only
  split
  · exact ⟨(bufdone_fields _).2.2.2.2.2.2.1, bufdone_misc _⟩
  · exact ⟨(bufdone_fields _).2.2.2.2.2.2.1, bufdone_misc _⟩

theorem strategy_read_done_full (bp : Buf) (uio1 : Uio) (h : uio1.uio_resid = 0) :
    (strategy_read_done bp 0 uio1).b_data = uio1.mem := by
  unfold strategy_read_done
  dsimp only
  have hs : ¬ ((0 : Nat) = 0 ∧ uio1.uio_resid ≠ 0) := fun hc => hc.2 h
  rw [if_neg (by simp), if_neg (fun hc => hs hc.1)]
  exact (bufdone_fields _).2.2.2.2.1

/-- The bytes of a block after the direct read of a fill from a file of
`size` bytes: below the end of the file they are the bytes of the file. -/
theorem strategy_read_done_file (bp : Buf) (uio1 : Uio) (D : Int → Nat) (size off : Int)
    (h0 : 0 ≤ bp.b_bcount) (hL : bp.b_bcount < 2147483648)
    (hres : uio1.uio_resid = bp.b_bcount - min bp.b_bcount (max 0 (size - off)))
    (hmem : ∀ a : Nat, uio1.mem a =
      if (0 : Nat) ≤ a ∧ (a : Int) < ((0 : Nat) : Int) + min bp.b_bcount (max 0 (size - off))
      then D (off + ((a - 0 : Nat) : Int)) else bp.b_data a)
    (i : Nat) (hi : (i : Int) < bp.b_bcount) (his : off + i < size) :
    (strategy_read_done bp 0 uio1).b_data i = D (off + i) := by
  have hm : uio1.mem i = D (off + i) := by
    rw [hmem i, if_pos ⟨Nat.zero_le _, by omega⟩]
    rfl
  by_cases hz : uio1.uio_resid = 0
  · rw [strategy_read_done_full bp uio1 hz]
    exact hm
  · rw [(strategy_read_done_short bp uio1 (by omega) (by omega) hL).2]
    unfold bzero
    rw [if_neg (by omega)]
    exact hm

/-- The strategy routine on a read from the file service: the service is
unchanged and the block keeps its filing; with the read handle open the call
returns 0 and the block holds the bytes of the file below the end of the
file. -/
theorem fuse_io_strategy_read_file (mnt : Mount) (fuel fh : Nat) (w : World FileSt)
    (fv : fuse_vnode_data) (bp : Buf) (r : Nat × World FileSt × fuse_vnode_data × Buf)
    (hcmd : bp.b_iocmd = .BIO_READ)
    (h : fuse_io_strategy fileDaemon mnt fuel w fv bp = some r) :
    r.2.1.st = w.st ∧ (bp.B_INVAL = false → r.2.2.2.B_INVAL = false) ∧
    r.2.2.2.B_ASYNC = bp.B_ASYNC ∧ r.2.2.2.b_dirtyoff = bp.b_dirtyoff ∧
    (fv.fufh .FUFH_RDONLY = some fh → 0 ≤ bp.b_bcount → bp.b_bcount ≤ MAXBSIZE →
      r.1 = 0 ∧
      ∀ i : Nat, (i : Int) < bp.b_bcount →
        bp.b_blkno * (fuse_iosize mnt : Int) + i < w.st.size →
        r.2.2.2.b_data i = w.st.data (bp.b_blkno * (fuse_iosize mnt : Int) + i)) := by
  unfold fuse_io_strategy at h
  rw [if_pos hcmd] at h
  have hc : (strategy_clear bp).b_iocmd = .BIO_READ := hcmd
  split at h
  · rename_i e he
    simp only [Option.some.injEq] at h
    subst h
    refine ⟨rfl, fun hi => hi, rfl, rfl, fun hfh => ?_⟩
    unfold fuse_filehandle_getrw at he
    rw [hfh] at he
    exact absurd he (by simp)
  · rename_i fh1 hfh1
    dsimp only at h
    rw [if_pos hc] at h
    split at h
    · exact absurd h (by simp)
    · rename_i r0 hr
      simp only [Option.some.injEq] at h
      subst h
      obtain ⟨q1, q2⟩ := strategy_read_done_misc (strategy_clear bp) r0.1 r0.2.2
      have hst : r0.2.1.st = w.st ∧ (r0.1 = 0 ∧
          r0.2.2.uio_resid = bp.b_bcount - min bp.b_bcount
            (max 0 (w.st.size - bp.b_blkno * (fuse_iosize mnt : Int))) ∧
          (∀ a : Nat, r0.2.2.mem a =
            if (0 : Nat) ≤ a ∧ (a : Int) < ((0 : Nat) : Int) + min bp.b_bcount
              (max 0 (w.st.size - bp.b_blkno * (fuse_iosize mnt : Int)))
            then w.st.data (bp.b_blkno * (fuse_iosize mnt : Int) + ((a - 0 : Nat) : Int))
            else bp.b_data a) ∨ bp.b_bcount < 0) := by
        unfold fuse_read_directbackend at hr
        split at hr
        · rename_i hz
          simp only [Option.some.injEq] at hr
          subst hr
          have hz0 : bp.b_bcount = 0 := hz
          refine ⟨rfl, Or.inl ⟨rfl, ?_, fun a => ?_⟩⟩
          · show bp.b_bcount = _
            omega
          · rw [if_neg (by omega)]
            rfl
        · by_cases hneg : bp.b_bcount < 0
          · have hres : ¬ 0 < (strategy_read_uio mnt (strategy_clear bp)).uio_resid := by
              show ¬ 0 < bp.b_bcount
              omega
            cases fuel with
            | zero =>
              rw [read_direct_loop, if_neg hres] at hr
              simp only [Option.some.injEq] at hr
              subst hr
              exact ⟨rfl, Or.inr hneg⟩
            | succ fuel =>
              rw [read_direct_loop, if_neg hres] at hr
              simp only [Option.some.injEq] at hr
              subst hr
              exact ⟨rfl, Or.inr hneg⟩
          · obtain ⟨f1, f2⟩ := read_direct_loop_file mnt.max_read fh1 fuel w
              (strategy_read_uio mnt (strategy_clear bp)) r0 hr rfl
              (by show 0 ≤ bp.b_bcount; omega)
            exact ⟨f1, Or.inl (f2 (Or.inl rfl))⟩
      refine ⟨hst.1, fun hi => by rw [q1]; rfl, by rw [q2]; rfl,
        (strategy_read_done_fields _ _ _).2.2.1, fun hfh h0 hL => ?_⟩
      rcases hst.2 with ⟨e0, e1, e2⟩ | hneg
      · refine ⟨e0, fun i hi his => ?_⟩
        dsimp only
        rw [e0]
        have hM : (strategy_clear bp).b_bcount < 2147483648 := by
          show bp.b_bcount < 2147483648
          have : (MAXBSIZE : Int) = 65536 := rfl
          omega
        exact strategy_read_done_file (strategy_clear bp) r0.2.2 w.st.data w.st.size
          (bp.b_blkno * (fuse_iosize mnt : Int)) h0 hM e1 e2 i hi his
      · omega

/-- The fill of an acquired block from the file service. -/
theorem bio_fill_file (mnt : Mount) (fuel fh : Nat) (w : World FileSt)
    (fv : fuse_vnode_data) (bp : Buf) (l : Int)
    (r : Nat × World FileSt × fuse_vnode_data × Buf) (hwf : BufWF l bp)
    (h : bio_fill fileDaemon mnt fuel w fv bp = some r) :
    r.2.1.st = w.st ∧ r.2.2.1 = fv ∧ BufWF l r.2.2.2 ∧ r.2.2.2.b_bcount = bp.b_bcount ∧
    (bp.B_CACHE = true → r.2.2.2 = bp) ∧
    (bp.B_CACHE = false → fv.fufh .FUFH_RDONLY = some fh → 0 ≤ bp.b_bcount →
      bp.b_bcount ≤ MAXBSIZE →
      r.1 = 0 ∧
      ∀ i : Nat, (i : Int) < bp.b_bcount →
        l * (fuse_iosize mnt : Int) + i < w.st.size →
        r.2.2.2.b_data i = w.st.data (l * (fuse_iosize mnt : Int) + i)) := by
  obtain ⟨n1, n2, n3⟩ := bio_fill_node _ _ _ _ _ _ _ h
  obtain ⟨h1, h2, h3, h4⟩ := hwf
  unfold bio_fill at h
  split at h
  · rename_i hc
    obtain ⟨s1, s2, s3, s4, s5⟩ :=
      fuse_io_strategy_read_file mnt fuel fh w fv (set_iocmd bp .BIO_READ) r rfl h
    have e1 : (set_iocmd bp .BIO_READ).b_blkno = bp.b_blkno := rfl
    have e2 : (set_iocmd bp .BIO_READ).b_bcount = bp.b_bcount := rfl
    rw [e1, e2, h1] at s5
    refine ⟨s1, n1, ⟨n2.trans h1, ?_, s2 h3, s3.trans h4⟩, n3, fun hc1 => ?_, fun _ => s5⟩
    · rw [s4]; exact h2
    · rw [hc] at hc1; exact absurd hc1 (by simp)
  · rename_i hc
    simp only [Option.some.injEq] at h
    subst h
    refine ⟨rfl, rfl, ⟨h1, h2, h3, h4⟩, rfl, fun _ => rfl, fun hc1 => absurd hc1 hc⟩

/-- A flush of a dirty interval that lies within the block leaves the bytes
of the service outside the block alone. -/
theorem flush_frame (stn sto : Int → Nat) (bd : Nat → Nat) (K bs doff e : Int)
    (h : ∀ x, stn x = if K + doff ≤ x ∧ x < K + e then bd (x - K).toNat else sto x)
    (h0 : 0 ≤ doff) (he : e ≤ bs) (x : Int) (hx : x < K ∨ K + bs ≤ x) :
    stn x = sto x := by
  rw [h x, if_neg (by omega)]

/-- A flush of a dirty interval that covers the chunk `[on, on + n)` puts the
bytes of the chunk on the service. -/
theorem flush_chunk (stn sto : Int → Nat) (bd : Nat → Nat) (K doff dend fs on_ n : Int)
    (h : ∀ x, stn x = if K + doff ≤ x ∧ x < K + min dend (fs - K) then bd (x - K).toNat
      else sto x)
    (hon : 0 ≤ on_) (h1 : doff ≤ on_) (h2 : on_ + n ≤ dend) (h3 : K + on_ + n ≤ fs)
    (j : Nat) (hj : (j : Int) < n) :
    stn (K + on_ + j) = bd (on_.toNat + j) := by
  rw [h, if_pos (by omega)]
  congr 1
  omega

theorem dataPut_chunk (data cp : Nat → Nat) (on_ j : Nat) :
    dataPut data on_ cp (on_ + j) = cp j := by
  unfold dataPut
  rw [if_pos (by omega)]
  congr 1
  omega

theorem cache_wf_update (vp vp1 : Vnode) (l : Int) (h : CacheWF vp)
    (h1 : ∀ l1, l1 ≠ l → vp1.bufs l1 = vp.bufs l1)
    (h2 : ∀ b, vp1.bufs l = some b → BufWF l b) : CacheWF vp1 := by
  intro l1 b hb
  by_cases hl : l1 = l
  · subst hl
    exact h2 b hb
  · rw [h1 l1 hl] at hb
    exact h l1 b hb

/-- One turn of the cached write to the file service that ends without
`break`: the service holds the bytes of the chunk and is unchanged outside
the block, the cache changes at `lbn` only and the block there, if any, holds
the bytes of the chunk. -/
theorem write_bio_again_file (mnt : Mount) (fh : Nat) (lbn on_ n : Int)
    (hM2 : mnt.max_write < 4294967296) (hon : 0 ≤ on_) (hn : 0 < n)
    (hle : on_ + n ≤ (fuse_iosize mnt : Int)) :
    ∀ (fuel : Nat) (w : World FileSt) (vp : Vnode) (uio : Uio)
      (r : Nat × Bool × World FileSt × Vnode × Uio),
      write_bio_again fileDaemon mnt lbn on_ n fuel w vp uio = some r → r.2.1 = true →
      CacheWF vp → vp.v_data.fufh .FUFH_WRONLY = some fh → uio.uio_rw = .UIO_WRITE →
      uio.uio_offset = lbn * (fuse_iosize mnt : Int) + on_ → n ≤ uio.uio_resid →
      CacheWF r.2.2.2.1 ∧
      (∀ l, l ≠ lbn → r.2.2.2.1.bufs l = vp.bufs l) ∧
      (∀ x, x < lbn * (fuse_iosize mnt : Int) ∨
        lbn * (fuse_iosize mnt : Int) + (fuse_iosize mnt : Int) ≤ x →
        r.2.2.1.st.data x = w.st.data x) ∧
      (∀ j : Nat, (j : Int) < n →
        r.2.2.1.st.data (lbn * (fuse_iosize mnt : Int) + on_ + j) = uio.mem (uio.iov_base + j)) ∧
      (∀ b, r.2.2.2.1.bufs lbn = some b → ∀ j : Nat, (j : Int) < n →
        b.b_data (on_.toNat + j) = uio.mem (uio.iov_base + j)) ∧
      w.st.size ≤ r.2.2.1.st.size ∧
      lbn * (fuse_iosize mnt : Int) + on_ + n ≤ r.2.2.1.st.size ∧
      r.2.2.2.2.mem = uio.mem ∧ r.2.2.2.2.iov_base = uio.iov_base + n.toNat ∧
      r.2.2.2.2.uio_rw = uio.uio_rw := by
  intro fuel
  induction fuel with
  | zero => intro w vp uio r h; simp [write_bio_again] at h
  | succ fuel ih =>
    intro w vp uio r h hok hwf hfh hrw hoff hnr
    rw [write_bio_again] at h
    dsimp only at h
    obtain ⟨g1, g2, g3⟩ := write_bio_getblk_wf mnt vp uio lbn on_ n hwf hle
    have hg := write_bio_getblk_size mnt vp uio lbn on_ n
    split at h
    · exact absurd h (by simp)
    · rename_i r0 hfill
      obtain ⟨b1, b2, b3, _, _, _⟩ := bio_fill_file mnt fuel fh w _ _ lbn r0
        (write_bio_cover_wf lbn _ on_ n _ g1) hfill
      have hfv : r0.2.2.1.fufh .FUFH_WRONLY = some fh := by
        rw [b2, hg]; exact hfh
      have hfs : lbn * (fuse_iosize mnt : Int) + on_ + n ≤ r0.2.2.1.filesize := by
        rw [b2, hg]
        dsimp only
        rw [hoff]
        exact le_max_right _ _
      split at h
      · simp only [Option.some.injEq] at h
        subst h
        exact absurd hok (by simp)
      · obtain ⟨c1, c2, c3⟩ := write_bio_chop_wf lbn r0.2.2.2
          (write_bio_getblk mnt vp uio lbn on_ n).1 b3 (by omega)
        split at h
        · split at h
          · exact absurd h (by simp)
          · rename_i r2 hbw
            obtain ⟨w1, w2, _, w4, _, w6, w7⟩ := bwrite_file mnt fuel fh r0.2.1
              { vp with v_data := r0.2.2.1 } _ lbn r2 hM2 hfv c1 hbw
            split at h
            · simp only [Option.some.injEq] at h
              subst h
              exact absurd hok (by simp)
            · have hwf2 : CacheWF r2.2.2.1 :=
                cache_wf_update vp r2.2.2.1 lbn hwf w6 (fun b hb => (w7 b hb).1)
              obtain ⟨i1, i2, i3, i4, i5, i6, i7, i8⟩ := ih r2.2.1 r2.2.2.1 uio r h hok hwf2
                (by rw [w4]; exact hfv) hrw hoff hnr
              refine ⟨i1, fun l hl => (i2 l hl).trans (w6 l hl), fun x hx => ?_, i4, i5, ?_,
                i7, i8⟩
              · rw [i3 x hx, ← b1]
                exact flush_frame _ _ _ _ (fuse_iosize mnt : Int) _ _ w1 c1.2.1
                  (le_trans (min_le_left _ _) (le_trans c2 g3)) x hx
              · rw [← b1]
                exact le_trans w2 i6
        · split at h
          · simp only [Option.some.injEq] at h
            subst h
            exact absurd hok (by simp)
          · rename_i hmv
            split at h
            · exact absurd h (by simp)
            · rename_i r3 hbw
              split at h
              · simp only [Option.some.injEq] at h
                subst h
                exact absurd hok (by simp)
              · simp only [Option.some.injEq] at h
                subst h
                dsimp only
                have hmv0 : (uiomove (dataAt (write_bio_chop r0.2.2.2
                    (write_bio_getblk mnt vp uio lbn on_ n).1).b_data on_.toNat)
                    n.toNat uio).1 = 0 := by
                  simpa using hmv
                obtain ⟨_, _, m4, _, m6⟩ := uiomove_moved _ _ _ hmv0
                obtain ⟨m7, m8⟩ := uiomove_write _ _ _ hrw hmv0
                have hmin : min n.toNat uio.uio_resid.toNat = n.toNat := by omega
                rw [hmin] at m4 m8
                obtain ⟨d1, d2, d3, d4, d5, _⟩ := dirty_merge_wf lbn
                  (write_bio_chop r0.2.2.2 (write_bio_getblk mnt vp uio lbn on_ n).1)
                  on_ n (write_bio_getblk mnt vp uio lbn on_ n).1
                  (uiomove (dataAt (write_bio_chop r0.2.2.2
                    (write_bio_getblk mnt vp uio lbn on_ n).1).b_data on_.toNat)
                    n.toNat uio).2.1 c1 hon hn g2 c2
                obtain ⟨w1, w2, w3, _, _, w6, w7⟩ := bwrite_file mnt fuel fh _
                  { vp with v_data := r0.2.2.1 } _ lbn r3 hM2 hfv d1 hbw
                dsimp only at w1 w2 w3
                rw [b1] at w1 w2
                have hchunk : ∀ j : Nat, (j : Int) < n →
                    (dirty_merge (write_bio_copied (write_bio_chop r0.2.2.2
                      (write_bio_getblk mnt vp uio lbn on_ n).1) on_
                      (uiomove (dataAt (write_bio_chop r0.2.2.2
                        (write_bio_getblk mnt vp uio lbn on_ n).1).b_data on_.toNat)
                        n.toNat uio).2.1) on_ n).b_data (on_.toNat + j)
                      = uio.mem (uio.iov_base + j) := by
                  intro j hj
                  rw [d5, dataPut_chunk, m8 j (by omega)]
                refine ⟨cache_wf_update vp r3.2.2.1 lbn hwf w6 (fun b hb => (w7 b hb).1),
                  w6, fun x hx => ?_, fun j hj => ?_, fun b hb j hj => ?_, w2, ?_, m7, m4, m6⟩
                · exact flush_frame _ _ _ _ (fuse_iosize mnt : Int) _ _ w1 d1.2.1
                    (le_trans (min_le_left _ _) (le_trans d4 g3)) x hx
                · rw [flush_chunk _ _ _ _ _ _ _ _ n w1 hon d2 d3 hfs j hj]
                  exact hchunk j hj
                · rw [(w7 b hb).2.1]
                  exact hchunk j hj
                · have := w3 (by
                    have := min_le_left
                      (dirty_merge (write_bio_copied (write_bio_chop r0.2.2.2
                      (write_bio_getblk mnt vp uio lbn on_ n).1) on_
                      (uiomove (dataAt (write_bio_chop r0.2.2.2
                        (write_bio_getblk mnt vp uio lbn on_ n).1).b_data on_.toNat)
                        n.toNat uio).2.1) on_ n).b_dirtyend
                      (r0.2.2.1.filesize - lbn * (fuse_iosize mnt : Int))
                    omega)
                  omega

/-- Block number and offset in the block of a byte of the chunk that starts
at `off`. -/
theorem chunk_div_mod (off bs x : Int) (hbs : 0 < bs) (hx : off ≤ x)
    (hlt : x - off + off % bs < bs) :
    x / bs = off / bs ∧ x % bs = off % bs + (x - off) := by
  have h1 := Int.emod_nonneg off (ne_of_gt hbs)
  have h3 := Int.ediv_add_emod off bs
  exact (Int.ediv_emod_unique hbs).2 ⟨by linarith, by omega, by omega⟩

/-- The position after a chunk that ends at the end of its block. -/
theorem next_block_div (off bs : Int) (hbs : 0 < bs) :
    (off + (bs - off % bs)) / bs = off / bs + 1 ∧
    (off / bs + 1) * bs = off + (bs - off % bs) := by
  have h3 := Int.ediv_add_emod off bs
  have h4 : (off / bs + 1) * bs = off + (bs - off % bs) := by
    have : (off / bs + 1) * bs = bs * (off / bs) + bs := by ring
    omega
  refine ⟨?_, h4⟩
  rw [← h4]
  exact Int.mul_ediv_cancel _ (ne_of_gt hbs)

/-- A cached write to the file service that returns 0: the service holds the
written bytes, every block of the cache that covers a written byte holds it,
and the cache is still well filed. -/
theorem write_bio_loop_file (mnt : Mount) (fh k : Nat) (hbs : fuse_iosize mnt = 2 ^ k)
    (hM2 : mnt.max_write < 4294967296) :
    ∀ (fuel : Nat) (w : World FileSt) (vp : Vnode) (uio : Uio)
      (r : Nat × World FileSt × Vnode × Uio),
      write_bio_loop fileDaemon mnt fuel w vp uio = some r → r.1 = 0 →
      CacheWF vp → vp.v_data.fufh .FUFH_WRONLY = some fh → uio.uio_rw = .UIO_WRITE →
      0 ≤ uio.uio_offset → 0 < uio.uio_resid →
      CacheWF r.2.2.1 ∧
      r.2.2.1.v_data = { vp.v_data with filesize := r.2.2.1.v_data.filesize } ∧
      r.2.2.1.v_type = vp.v_type ∧
      (∀ l, l < uio.uio_offset / (fuse_iosize mnt : Int) → r.2.2.1.bufs l = vp.bufs l) ∧
      (∀ x, x < uio.uio_offset / (fuse_iosize mnt : Int) * (fuse_iosize mnt : Int) →
        r.2.1.st.data x = w.st.data x) ∧
      (∀ x, uio.uio_offset ≤ x → x < uio.uio_offset + uio.uio_resid →
        r.2.1.st.data x = uio.mem (uio.iov_base + (x - uio.uio_offset).toNat) ∧
        ∀ b, r.2.2.1.bufs (x / (fuse_iosize mnt : Int)) = some b →
          b.b_data (x % (fuse_iosize mnt : Int)).toNat
            = uio.mem (uio.iov_base + (x - uio.uio_offset).toNat)) ∧
      uio.uio_offset + uio.uio_resid ≤ r.2.1.st.size := by
  have hbspos : 0 < fuse_iosize mnt := by rw [hbs]; exact Nat.pow_pos (by decide)
  have hb : (0 : Int) < (fuse_iosize mnt : Int) := by exact_mod_cast hbspos
  intro fuel
  induction fuel with
  | zero => intro w vp uio r h; simp [write_bio_loop] at h
  | succ fuel ih =>
    intro w vp uio r h hr0 hwf hfh hrw hoff hres
    rw [write_bio_loop] at h
    try dsimp only at h
    have hon : blockoff uio.uio_offset (fuse_iosize mnt)
        = uio.uio_offset % (fuse_iosize mnt : Int) := by
      rw [hbs]; exact blockoff_pow2 _ _ hoff
    rw [hon] at h
    have hm0 := Int.emod_nonneg uio.uio_offset (ne_of_gt hb)
    have hm1 := Int.emod_lt_of_pos uio.uio_offset hb
    have hdm := Int.ediv_add_emod uio.uio_offset (fuse_iosize mnt : Int)
    have hoffeq : uio.uio_offset = uio.uio_offset / (fuse_iosize mnt : Int) *
        (fuse_iosize mnt : Int) + uio.uio_offset % (fuse_iosize mnt : Int) := by
      rw [mul_comm]; exact hdm.symm
    generalize hnd : min ((fuse_iosize mnt : Int) - uio.uio_offset % (fuse_iosize mnt : Int))
      uio.uio_resid = n at h
    have hn0 : 0 < n := by omega
    have hnle : uio.uio_offset % (fuse_iosize mnt : Int) + n ≤ (fuse_iosize mnt : Int) := by
      omega
    have hnr : n ≤ uio.uio_resid := by omega
    have hnor : n = (fuse_iosize mnt : Int) - uio.uio_offset % (fuse_iosize mnt : Int) ∨
        n = uio.uio_resid := by omega
    clear hnd hdm
    split at h
    · exact absurd h (by simp)
    · rename_i r1 hturn
      obtain ⟨t1, t2, t3, t4⟩ := write_bio_again_size _ _ _ _ _ _ _ _ _ _ hturn
      have hflag : r1.2.1 = true := by
        split at h
        · rename_i hc; exact hc.1
        · simp only [Option.some.injEq] at h
          subst h
          by_contra hcf
          exact t3 (by simpa using hcf) hr0
      obtain ⟨_, c2, c3⟩ := t4 hflag
      have hmin : ((min n.toNat uio.uio_resid.toNat : Nat) : Int) = n := by omega
      rw [hmin] at c2 c3
      clear hmin t4 t3
      obtain ⟨a1, a2, a3, a4, a5, a6, a7, a8, a9, a10⟩ :=
        write_bio_again_file mnt fh _ _ n hM2 hm0 hn0 hnle (fuel + 1) w vp uio r1 hturn hflag
          hwf hfh hrw hoffeq hnr
      rw [← hoffeq] at a4 a7
      have hturnx : ∀ x, uio.uio_offset ≤ x → x < uio.uio_offset + n →
          r1.2.2.1.st.data x = uio.mem (uio.iov_base + (x - uio.uio_offset).toNat) ∧
          ∀ b, r1.2.2.2.1.bufs (uio.uio_offset / (fuse_iosize mnt : Int)) = some b →
            b.b_data (x % (fuse_iosize mnt : Int)).toNat
              = uio.mem (uio.iov_base + (x - uio.uio_offset).toNat) := by
        intro x hx1 hx2
        obtain ⟨_, q2⟩ := chunk_div_mod uio.uio_offset (fuse_iosize mnt : Int) x hb hx1
          (by omega)
        have e1 : x = uio.uio_offset + ((x - uio.uio_offset).toNat : Nat) := by omega
        have hj : (((x - uio.uio_offset).toNat : Nat) : Int) < n := by omega
        refine ⟨?_, fun b hbb => ?_⟩
        · have := a4 (x - uio.uio_offset).toNat hj
          rw [← e1] at this
          exact this
        · have := a5 b hbb (x - uio.uio_offset).toNat hj
          rw [q2]
          have e2 : (uio.uio_offset % (fuse_iosize mnt : Int) + (x - uio.uio_offset)).toNat
              = (uio.uio_offset % (fuse_iosize mnt : Int)).toNat
                + (x - uio.uio_offset).toNat := by omega
          rw [e2]
          exact this
      split at h
      · rename_i hc
        have hneq : n = (fuse_iosize mnt : Int) - uio.uio_offset % (fuse_iosize mnt : Int) := by
          have := hc.2.1
          rw [c2] at this
          omega
        obtain ⟨nb1, nb2⟩ := next_block_div uio.uio_offset (fuse_iosize mnt : Int) hb
        rw [← hneq] at nb1 nb2
        obtain ⟨i1, i2, i3, i4, i5, i6, i7⟩ := ih r1.2.2.1 r1.2.2.2.1 r1.2.2.2.2 r h hr0 a1
          (by rw [t1]; exact hfh) (by rw [a10]; exact hrw) (by rw [c3]; omega) hc.2.1
        rw [c3, nb1] at i4 i5
        rw [c3, c2, a8, a9] at i6
        rw [c3, c2] at i7
        refine ⟨i1, ?_, i3.trans t2, fun l hl => ?_, fun x hx => ?_, fun x hx1 hx2 => ?_,
          by omega⟩
        · rw [i2, t1]
        · rw [i4 l (by omega)]
          exact a2 l (by omega)
        · rw [i5 x (by rw [nb2]; omega)]
          exact a3 x (Or.inl hx)
        · by_cases hxn : x < uio.uio_offset + n
          · obtain ⟨p1, p2⟩ := hturnx x hx1 hxn
            obtain ⟨q1, _⟩ := chunk_div_mod uio.uio_offset (fuse_iosize mnt : Int) x hb hx1
              (by omega)
            refine ⟨?_, fun b hbb => ?_⟩
            · rw [i5 x (by rw [nb2]; omega)]
              exact p1
            · rw [q1, i4 _ (by omega)] at hbb
              exact p2 b hbb
          · obtain ⟨p1, p2⟩ := i6 x (by omega) (by omega)
            have e3 : uio.iov_base + n.toNat + (x - (uio.uio_offset + n)).toNat
                = uio.iov_base + (x - uio.uio_offset).toNat := by omega
            rw [e3] at p1 p2
            exact ⟨p1, p2⟩
      · rename_i hc
        simp only [Option.some.injEq] at h
        subst h
        dsimp only
        have hneq : n = uio.uio_resid := by
          by_contra hne
          apply hc
          refine ⟨hflag, ?_, hn0⟩
          rw [c2]
          omega
        refine ⟨a1, ?_, t2, fun l hl => a2 l (by omega), fun x hx => a3 x (Or.inl hx),
          fun x hx1 hx2 => ?_, by omega⟩
        · rw [t1]
        · obtain ⟨p1, p2⟩ := hturnx x hx1 (by omega)
          obtain ⟨q1, _⟩ := chunk_div_mod uio.uio_offset (fuse_iosize mnt : Int) x hb hx1
            (by omega)
          refine ⟨p1, fun b hbb => ?_⟩
          rw [q1] at hbb
          exact p2 b hbb

/-- A block that `getblk` hands out as valid, with a positive size, is a
valid block of the cache of at least that size, with its data. -/
theorem getblk_cached (vp : Vnode) (l size : Int) (hs : 0 < size)
    (hc : (getblk vp l size).B_CACHE = true) :
    ∃ b, vp.bufs l = some b ∧ b.B_CACHE = true ∧ size ≤ b.b_bcount ∧
      (getblk vp l size).b_data = b.b_data := by
  unfold getblk at hc ⊢
  split at hc
  · rename_i bp hbp
    rw [hbp]
    try dsimp only
    split at hc
    · rename_i he
      rw [if_pos he]
      exact ⟨bp, rfl, hc, by omega, rfl⟩
    · rename_i he
      rw [if_neg he]
      unfold allocbuf at hc ⊢
      dsimp only at hc ⊢
      split at hc
      · exact absurd hc (by simp)
      · rename_i hlt
        rw [if_neg hlt]
        rw [if_neg (by omega)] at hc
        exact ⟨bp, rfl, hc, by omega, rfl⟩
  · unfold allocbuf at hc
    dsimp only at hc
    rw [if_pos (by show (0 : Int) < size; exact hs)] at hc
    exact absurd hc (by simp)

theorem read_bio_combine (m0 m1 m2 : Nat → Nat) (D : Int → Nat) (ib : Nat) (off n resid : Int)
    (hn : 0 < n) (hnr : n ≤ resid)
    (h1 : ∀ a, m1 a = if ib ≤ a ∧ a < ib + n.toNat then D (off + ((a - ib : Nat) : Int))
      else m0 a)
    (h2 : ∀ a, m2 a =
      if ib + n.toNat ≤ a ∧ a < ib + n.toNat + (resid - n).toNat
      then D (off + n + ((a - (ib + n.toNat) : Nat) : Int)) else m1 a) :
    ∀ a, m2 a = if ib ≤ a ∧ a < ib + resid.toNat then D (off + ((a - ib : Nat) : Int))
      else m0 a := by
  intro a
  rw [h2 a, h1 a]
  by_cases ha1 : ib + n.toNat ≤ a ∧ a < ib + n.toNat + (resid - n).toNat
  · rw [if_pos ha1, if_pos (by omega)]
    congr 1
    omega
  · rw [if_neg ha1]
    by_cases ha2 : ib ≤ a ∧ a < ib + n.toNat
    · rw [if_pos ha2, if_pos (by omega)]
    · rw [if_neg ha2, if_neg (by omega)]

theorem read_bio_n_pos (on_ bcount resid n : Int) (h : read_bio_n on_ bcount resid = n)
    (hn : 0 < n) : on_ + n ≤ bcount ∧ n ≤ resid := by
  unfold read_bio_n at h
  split at h <;> omega

theorem fuse_iosize_le (mnt : Mount) : (fuse_iosize mnt : Int) ≤ MAXBSIZE := by
  unfold fuse_iosize
  exact_mod_cast Nat.min_le_right _ _

/-- A cached read from the file service that returns 0, of a range that lies
within the tracked size and within the file, when every valid block of the
cache agrees with the service on the range: the whole range is delivered, and
the caller holds the bytes of the service. -/
theorem read_bio_loop_file (mnt : Mount) (fh k : Nat) (filesize : Int)
    (hbs : fuse_iosize mnt = 2 ^ k) :
    ∀ (fuel : Nat) (bcount : Int) (w : World FileSt) (vp : Vnode) (uio : Uio)
      (r : Nat × World FileSt × Vnode × Uio),
      read_bio_loop fileDaemon mnt filesize fuel bcount w vp uio = some r → r.1 = 0 →
      CacheWF vp → vp.v_data.fufh .FUFH_RDONLY = some fh → uio.uio_rw = .UIO_READ →
      0 ≤ uio.uio_offset → 0 < uio.uio_resid →
      uio.uio_offset + uio.uio_resid ≤ filesize →
      uio.uio_offset + uio.uio_resid ≤ w.st.size →
      (bcount = (fuse_iosize mnt : Int) ∨
        filesize < (uio.uio_offset / (fuse_iosize mnt : Int) + 1) * (fuse_iosize mnt : Int)) →
      (∀ x, uio.uio_offset ≤ x → x < uio.uio_offset + uio.uio_resid →
        ∀ b, vp.bufs (x / (fuse_iosize mnt : Int)) = some b → b.B_CACHE = true →
          x % (fuse_iosize mnt : Int) < b.b_bcount →
          b.b_data (x % (fuse_iosize mnt : Int)).toNat = w.st.data x) →
      r.2.2.2.uio_resid = 0 ∧
      ∀ a, r.2.2.2.mem a =
        if uio.iov_base ≤ a ∧ a < uio.iov_base + uio.uio_resid.toNat
        then w.st.data (uio.uio_offset + ((a - uio.iov_base : Nat) : Int)) else uio.mem a := by
  have hbspos : 0 < fuse_iosize mnt := by rw [hbs]; exact Nat.pow_pos (by decide)
  have hb : (0 : Int) < (fuse_iosize mnt : Int) := by exact_mod_cast hbspos
  have hmax := fuse_iosize_le mnt
  intro fuel
  induction fuel with
  | zero => intro bcount w vp uio r h; simp [read_bio_loop] at h
  | succ fuel ih =>
    intro bcount w vp uio r h hr0 hwf hfh hrw hoff hres hfs hsz hbc hcoh
    rw [read_bio_loop] at h
    try dsimp only at h
    have hon : blockoff uio.uio_offset (fuse_iosize mnt)
        = uio.uio_offset % (fuse_iosize mnt : Int) := by
      rw [hbs]; exact blockoff_pow2 _ _ hoff
    rw [hon] at h
    have hm0 := Int.emod_nonneg uio.uio_offset (ne_of_gt hb)
    have hm1 := Int.emod_lt_of_pos uio.uio_offset hb
    have hdm := Int.ediv_add_emod uio.uio_offset (fuse_iosize mnt : Int)
    have hoffeq : uio.uio_offset / (fuse_iosize mnt : Int) * (fuse_iosize mnt : Int)
        + uio.uio_offset % (fuse_iosize mnt : Int) = uio.uio_offset := by
      rw [mul_comm]; exact hdm
    obtain ⟨hn, hble, hinv⟩ :=
      read_bio_turn_count filesize uio.uio_offset uio.uio_resid bcount (fuse_iosize mnt)
        hbspos hres hbc
    generalize hbc1 : read_bio_bcount filesize (uio.uio_offset / (fuse_iosize mnt : Int))
      (fuse_iosize mnt : Int) bcount = bcount1 at h hn hble hinv
    generalize hnd : read_bio_n (uio.uio_offset % (fuse_iosize mnt : Int)) bcount1
      uio.uio_resid = n at h hn
    have hn0 : 0 < n := by omega
    have hnb : n ≤ (fuse_iosize mnt : Int) - uio.uio_offset % (fuse_iosize mnt : Int) := by
      omega
    obtain ⟨hnc, hnr⟩ := read_bio_n_pos _ _ _ n hnd hn0
    have hbwf := getblk_wf vp (uio.uio_offset / (fuse_iosize mnt : Int)) bcount1 hwf
    have hbcnt := getblk_bcount vp (uio.uio_offset / (fuse_iosize mnt : Int)) bcount1
    split at h
    · exact absurd h (by simp)
    · rename_i r0 hfill
      obtain ⟨b1, b2, b3, b4, b5, b6⟩ := bio_fill_file mnt fuel fh w vp.v_data _
        (uio.uio_offset / (fuse_iosize mnt : Int)) r0 hbwf hfill
      rw [hbcnt] at b4 b6
      split at h
      · rename_i herr
        simp only [Option.some.injEq] at h
        subst h
        exact absurd hr0 herr
      · rename_i herr
        try rw [if_pos hn0] at h
        -- the bytes of the block at the chunk
        have hdata : ∀ j : Nat, (j : Int) < n →
            r0.2.2.2.b_data ((uio.uio_offset % (fuse_iosize mnt : Int)).toNat + j)
              = w.st.data (uio.uio_offset + j) := by
          intro j hj
          have hx := chunk_div_mod uio.uio_offset (fuse_iosize mnt : Int) (uio.uio_offset + j)
            hb (by omega) (by omega)
          by_cases hc : (getblk vp (uio.uio_offset / (fuse_iosize mnt : Int)) bcount1).B_CACHE
              = true
          · obtain ⟨b, q1, q2, q3, q4⟩ := getblk_cached vp _ bcount1 (by omega) hc
            rw [b5 hc, q4]
            have := hcoh (uio.uio_offset + j) (by omega) (by omega) b (by rw [hx.1]; exact q1) q2
              (by rw [hx.2]; omega)
            rw [hx.2] at this
            rw [← this]
            congr 1
            omega
          · have hcf : (getblk vp (uio.uio_offset / (fuse_iosize mnt : Int)) bcount1).B_CACHE
                = false := by
              simpa using hc
            obtain ⟨_, q2⟩ := b6 hcf hfh (by omega) (by omega)
            have := q2 ((uio.uio_offset % (fuse_iosize mnt : Int)).toNat + j) (by omega)
              (by omega)
            rw [this]
            congr 1
            omega
        have hmv0 : (uiomove (dataAt r0.2.2.2.b_data
            (uio.uio_offset % (fuse_iosize mnt : Int)).toNat) n.toNat uio).1 = 0 := by
          split at h
          · rename_i hc; exact hc.1
          · simp only [Option.some.injEq] at h
            subst h
            exact hr0
        obtain ⟨m2, m3, m4, _, m6⟩ := uiomove_moved _ _ _ hmv0
        have m7 := uiomove_read _ _ _ hrw hmv0
        have hmin : min n.toNat uio.uio_resid.toNat = n.toNat := by omega
        rw [hmin] at m2 m3 m4 m7
        have hmem1 : ∀ a, (uiomove (dataAt r0.2.2.2.b_data
            (uio.uio_offset % (fuse_iosize mnt : Int)).toNat) n.toNat uio).2.2.mem a
            = if uio.iov_base ≤ a ∧ a < uio.iov_base + n.toNat
              then w.st.data (uio.uio_offset + ((a - uio.iov_base : Nat) : Int))
              else uio.mem a := by
          intro a
          rw [m7 a]
          split
          · rename_i ha
            unfold dataAt
            exact hdata (a - uio.iov_base) (by omega)
          · rfl
        split at h
        · rename_i hc
          have hneq : n = (fuse_iosize mnt : Int)
              - uio.uio_offset % (fuse_iosize mnt : Int) := by
            have := hc.2.1
            rw [m2] at this
            omega
          obtain ⟨nb1, nb2⟩ := next_block_div uio.uio_offset (fuse_iosize mnt : Int) hb
          rw [← hneq] at nb1 nb2
          obtain ⟨c1, c2⟩ := brelse_bufs { vp with v_data := r0.2.2.1 } r0.2.2.2
          rw [b3.1] at c1 c2
          have hwf2 : CacheWF (brelse { vp with v_data := r0.2.2.1 } r0.2.2.2) :=
            cache_wf_update vp _ _ hwf c1 (fun b hbb => by
              obtain ⟨e1, e2, e3, e4, _⟩ := c2 b hbb
              exact ⟨e1, by rw [e2]; exact b3.2.1, e3, e4.trans b3.2.2.2⟩)
          have hnat : ((n.toNat : Nat) : Int) = n := by omega
          obtain ⟨i1, i2⟩ := ih bcount1 r0.2.1
            (brelse { vp with v_data := r0.2.2.1 } r0.2.2.2) _ r h hr0 hwf2
            (by rw [(brelse_node _ _).1]; dsimp only; rw [b2]; exact hfh)
            (by rw [m6]; exact hrw) (by rw [m3]; omega) hc.2.1
            (by rw [m3, m2]; omega) (by rw [m3, m2, b1]; omega)
            (by
              rw [m3, hnat, nb1]
              rcases hinv with hi | hi
              · exact Or.inl hi
              · right
                have : (uio.uio_offset / (fuse_iosize mnt : Int) + 1 + 1) * (fuse_iosize mnt : Int)
                    = (uio.uio_offset / (fuse_iosize mnt : Int) + 1) * (fuse_iosize mnt : Int)
                      + (fuse_iosize mnt : Int) := by ring
                omega)
            (by
              intro x hx1 hx2 b hbb hbc hlt
              rw [m3, hnat] at hx1 hx2
              rw [m2] at hx2
              have hxd : x / (fuse_iosize mnt : Int) ≠ uio.uio_offset / (fuse_iosize mnt : Int) := by
                intro he
                have h5 := Int.ediv_add_emod x (fuse_iosize mnt : Int)
                have h6 := Int.emod_lt_of_pos x hb
                rw [he] at h5
                have h7 : (fuse_iosize mnt : Int) * (uio.uio_offset / (fuse_iosize mnt : Int))
                    = uio.uio_offset / (fuse_iosize mnt : Int) * (fuse_iosize mnt : Int) :=
                  mul_comm _ _
                omega
              rw [c1 _ hxd] at hbb
              rw [b1]
              exact hcoh x (by omega) (by omega) b hbb hbc hlt)
          refine ⟨i1, ?_⟩
          rw [b1, m3, m4, m2, hnat] at i2
          exact read_bio_combine uio.mem _ _ w.st.data uio.iov_base uio.uio_offset n
            uio.uio_resid hn0 hnr hmem1 i2
        · rename_i hc
          simp only [Option.some.injEq] at h
          subst h
          dsimp only
          have hneq : n = uio.uio_resid := by
            by_contra hne
            apply hc
            refine ⟨hmv0, ?_, hn0⟩
            rw [m2]
            omega
          refine ⟨by rw [m2]; omega, fun a => ?_⟩
          rw [hmem1 a, hneq]

theorem fuse_filehandle_getrw_ok (fv : fuse_vnode_data) (t : FufhType) (fh : Nat)
    (h : fuse_filehandle_getrw fv t = .ok fh) : fv.fufh t = some fh := by
  unfold fuse_filehandle_getrw at h
  split at h
  · rename_i fh1 h1
    simp only [Except.ok.injEq] at h
    rw [h1, h]
  · exact absurd h (by simp)

theorem fuse_filehandle_getrw_error (fv : fuse_vnode_data) (t : FufhType) (e : Nat)
    (h : fuse_filehandle_getrw fv t = .error e) : e ≠ 0 := by
  unfold fuse_filehandle_getrw at h
  split at h
  · exact absurd h (by simp)
  · simp only [Except.error.injEq] at h
    rw [← h]
    simp [EBADF]

/-- A write through the dispatcher that returns 0 is a direct write or a
cached write that returned 0, followed by the invalidation of the attribute
snapshot. -/
theorem fuse_io_dispatch_write_inv {σ : Type} (d : Daemon σ) (mnt : Mount) (fuel : Nat)
    (io_direct : Bool) (w : World σ) (vp : Vnode) (uio : Uio) (r : Nat × World σ × Vnode × Uio)
    (hrw : uio.uio_rw = .UIO_WRITE)
    (h : fuse_io_dispatch d mnt fuel io_direct w vp uio = some r) (hr0 : r.1 = 0) :
    ∃ fh, vp.v_data.fufh .FUFH_WRONLY = some fh ∧
      (((io_direct || !vp.v_data.cache_enable) = true ∧
          ∃ x, fuse_write_directbackend d mnt.max_write fh fuel w vp.v_data uio = some x ∧
            r = (x.1, x.2.1, fuse_invalidate_attr { vp with v_data := x.2.2.1 }, x.2.2.2)) ∨
        ((io_direct || !vp.v_data.cache_enable) = false ∧
          ∃ x, fuse_write_biobackend d mnt fuel w vp uio = some x ∧
            r = (x.1, x.2.1, fuse_invalidate_attr x.2.2.1, x.2.2.2))) := by
  unfold fuse_io_dispatch at h
  have ht : (if uio.uio_rw = UioRw.UIO_READ then FufhType.FUFH_RDONLY
      else FufhType.FUFH_WRONLY) = FufhType.FUFH_WRONLY := by
    rw [hrw]; rfl
  rw [ht] at h
  split at h
  · rename_i e he
    simp only [Option.some.injEq] at h
    subst h
    exact absurd hr0 (fuse_filehandle_getrw_error _ _ _ he)
  · rename_i fh hfh
    refine ⟨fh, fuse_filehandle_getrw_ok _ _ _ hfh, ?_⟩
    dsimp only at h
    rw [hrw] at h
    dsimp only at h
    simp only [Option.map_eq_some'] at h
    obtain ⟨x, hx, hxr⟩ := h
    by_cases hd : (io_direct || !vp.v_data.cache_enable) = true
    · left
      rw [if_pos hd] at hx
      simp only [Option.map_eq_some'] at hx
      obtain ⟨y, hy, hyx⟩ := hx
      refine ⟨hd, y, hy, ?_⟩
      rw [← hxr, ← hyx]
    · right
      rw [if_neg hd] at hx
      exact ⟨by simpa using hd, x, hx, hxr.symm⟩

/-- A read through the dispatcher that returns 0 is a direct read or a cached
read that returned 0, followed by the invalidation of the attribute
snapshot. -/
theorem fuse_io_dispatch_read_inv {σ : Type} (d : Daemon σ) (mnt : Mount) (fuel : Nat)
    (io_direct : Bool) (w : World σ) (vp : Vnode) (uio : Uio) (r : Nat × World σ × Vnode × Uio)
    (hrw : uio.uio_rw = .UIO_READ)
    (h : fuse_io_dispatch d mnt fuel io_direct w vp uio = some r) (hr0 : r.1 = 0) :
    ∃ fh, vp.v_data.fufh .FUFH_RDONLY = some fh ∧
      (((io_direct || !vp.v_data.cache_enable) = true ∧
          ∃ x, fuse_read_directbackend d mnt.max_read fh fuel w uio = some x ∧
            r = (x.1, x.2.1, fuse_invalidate_attr vp, x.2.2)) ∨
        ((io_direct || !vp.v_data.cache_enable) = false ∧
          ∃ x, fuse_read_biobackend d mnt fuel w vp uio = some x ∧
            r = (x.1, x.2.1, fuse_invalidate_attr x.2.2.1, x.2.2.2))) := by
  unfold fuse_io_dispatch at h
  have ht : (if uio.uio_rw = UioRw.UIO_READ then FufhType.FUFH_RDONLY
      else FufhType.FUFH_WRONLY) = FufhType.FUFH_RDONLY := by
    rw [hrw]; rfl
  rw [ht] at h
  split at h
  · rename_i e he
    simp only [Option.some.injEq] at h
    subst h
    exact absurd hr0 (fuse_filehandle_getrw_error _ _ _ he)
  · rename_i fh hfh
    refine ⟨fh, fuse_filehandle_getrw_ok _ _ _ hfh, ?_⟩
    dsimp only at h
    rw [hrw] at h
    dsimp only at h
    simp only [Option.map_eq_some'] at h
    obtain ⟨x, hx, hxr⟩ := h
    by_cases hd : (io_direct || !vp.v_data.cache_enable) = true
    · left
      rw [if_pos hd] at hx
      simp only [Option.map_eq_some'] at hx
      obtain ⟨y, hy, hyx⟩ := hx
      refine ⟨hd, y, hy, ?_⟩
      rw [← hxr, ← hyx]
    · right
      rw [if_neg hd] at hx
      exact ⟨by simpa using hd, x, hx, hxr.symm⟩

/-- A cached write to the file service that returns 0, seen from its
result. -/
theorem fuse_write_biobackend_file (mnt : Mount) (fh k fuel : Nat) (w : World FileSt)
    (vp : Vnode) (uio : Uio) (r : Nat × World FileSt × Vnode × Uio)
    (hbs : fuse_iosize mnt = 2 ^ k) (hM2 : mnt.max_write < 4294967296)
    (h : fuse_write_biobackend fileDaemon mnt fuel w vp uio = some r) (hr0 : r.1 = 0)
    (hwf : CacheWF vp) (hfh : vp.v_data.fufh .FUFH_WRONLY = some fh)
    (hrw : uio.uio_rw = .UIO_WRITE) (hres : 0 < uio.uio_resid) :
    CacheWF r.2.2.1 ∧
    r.2.2.1.v_data = { vp.v_data with filesize := r.2.2.1.v_data.filesize } ∧
    uio.uio_offset + uio.uio_resid ≤ r.2.2.1.v_data.filesize ∧
    (∀ x, uio.uio_offset ≤ x → x < uio.uio_offset + uio.uio_resid →
      r.2.1.st.data x = uio.mem (uio.iov_base + (x - uio.uio_offset).toNat) ∧
      ∀ b, r.2.2.1.bufs (x / (fuse_iosize mnt : Int)) = some b →
        b.b_data (x % (fuse_iosize mnt : Int)).toNat
          = uio.mem (uio.iov_base + (x - uio.uio_offset).toNat)) ∧
    uio.uio_offset + uio.uio_resid ≤ r.2.1.st.size := by
  have hbspos : 0 < fuse_iosize mnt := by rw [hbs]; exact Nat.pow_pos (by decide)
  unfold fuse_write_biobackend at h
  split at h
  · simp only [Option.some.injEq] at h
    subst h
    exact absurd hr0 (by simp [ EIO])
  · split at h
    · simp only [Option.some.injEq] at h
      subst h
      exact absurd hr0 (by simp [EINVAL])
    · rename_i hoff
      rw [if_neg (by omega)] at h
      obtain ⟨a1, a2, _, _, _, a6, a7⟩ := write_bio_loop_file mnt fh k hbs hM2 fuel w vp uio r
        h hr0 hwf hfh hrw (by omega) hres
      obtain ⟨_, s2⟩ := write_bio_loop_size fileDaemon mnt hbspos fuel w vp uio r h
      refine ⟨a1, a2, ?_, a6, a7⟩
      rw [s2 hr0 hres]
      exact le_max_right _ _

/-- A cached read from the file service that returns 0, seen from its
result. -/
theorem fuse_read_biobackend_file (mnt : Mount) (fh k fuel : Nat) (w : World FileSt)
    (vp : Vnode) (uio : Uio) (r : Nat × World FileSt × Vnode × Uio)
    (hbs : fuse_iosize mnt = 2 ^ k)
    (h : fuse_read_biobackend fileDaemon mnt fuel w vp uio = some r) (hr0 : r.1 = 0)
    (hwf : CacheWF vp) (hfh : vp.v_data.fufh .FUFH_RDONLY = some fh)
    (hrw : uio.uio_rw = .UIO_READ) (hres : 0 < uio.uio_resid)
    (hfs : uio.uio_offset + uio.uio_resid ≤ vp.v_data.filesize)
    (hsz : uio.uio_offset + uio.uio_resid ≤ w.st.size)
    (hcoh : ∀ x, uio.uio_offset ≤ x → x < uio.uio_offset + uio.uio_resid →
      ∀ b, vp.bufs (x / (fuse_iosize mnt : Int)) = some b → b.B_CACHE = true →
        x % (fuse_iosize mnt : Int) < b.b_bcount →
        b.b_data (x % (fuse_iosize mnt : Int)).toNat = w.st.data x) :
    r.2.2.2.uio_resid = 0 ∧
    ∀ a, r.2.2.2.mem a =
      if uio.iov_base ≤ a ∧ a < uio.iov_base + uio.uio_resid.toNat
      then w.st.data (uio.uio_offset + ((a - uio.iov_base : Nat) : Int)) else uio.mem a := by
  unfold fuse_read_biobackend at h
  rw [if_neg (by omega)] at h
  split at h
  · simp only [Option.some.injEq] at h
    subst h
    exact absurd hr0 (by simp [EINVAL])
  · rename_i hoff
    have hmin : min (MAXBSIZE : Int) (fuse_iosize mnt : Int) = (fuse_iosize mnt : Int) :=
      min_eq_right (fuse_iosize_le mnt)
    rw [hmin] at h
    exact read_bio_loop_file mnt fh k vp.v_data.filesize hbs fuel _ w vp uio r h hr0 hwf hfh
      hrw (by omega) hres hfs hsz (Or.inl rfl) hcoh

/-- A direct write to the file service that returns 0, seen from its
result. -/
theorem fuse_write_directbackend_file (M fh fuel : Nat) (w : World FileSt)
    (fv : fuse_vnode_data) (uio : Uio) (r : Nat × World FileSt × fuse_vnode_data × Uio)
    (hM2 : M < 4294967296)
    (h : fuse_write_directbackend fileDaemon M fh fuel w fv uio = some r) (hr0 : r.1 = 0)
    (hrw : uio.uio_rw = .UIO_WRITE) (hres : 0 ≤ uio.uio_resid) :
    (∀ x, uio.uio_offset ≤ x → x < uio.uio_offset + uio.uio_resid →
      r.2.1.st.data x = uio.mem (uio.iov_base + (x - uio.uio_offset).toNat)) ∧
    (0 < uio.uio_resid → uio.uio_offset + uio.uio_resid ≤ r.2.1.st.size) ∧
    r.2.2.1 = { fv with filesize := r.2.2.1.filesize } := by
  obtain ⟨_, s2, _⟩ := fuse_write_directbackend_size _ _ _ _ _ _ _ r.1 r.2.1 r.2.2.1 r.2.2.2 h
  unfold fuse_write_directbackend at h
  split at h
  · rename_i hz
    refine ⟨fun x h1 h2 => by omega, fun hp => by omega, s2⟩
  · obtain ⟨_, f2, _, f4⟩ := write_direct_loop_file M fh hM2 fuel w fv uio r h hrw hres
      (Or.inr hr0)
    refine ⟨fun x h1 h2 => ?_, f4, s2⟩
    rw [f2 x, if_pos ⟨h1, h2⟩]

/-- A direct read from the file service that returns 0, of a range within
the file: the whole range is delivered, and the caller holds the bytes of the
service. -/
theorem fuse_read_directbackend_file (M fh fuel : Nat) (w : World FileSt) (uio : Uio)
    (r : Nat × World FileSt × Uio)
    (h : fuse_read_directbackend fileDaemon M fh fuel w uio = some r) (hr0 : r.1 = 0)
    (hrw : uio.uio_rw = .UIO_READ) (hres : 0 ≤ uio.uio_resid)
    (hsz : 0 < uio.uio_resid → uio.uio_offset + uio.uio_resid ≤ w.st.size) :
    r.2.2.uio_resid = 0 ∧
    ∀ j : Nat, (j : Int) < uio.uio_resid →
      r.2.2.mem (uio.iov_base + j) = w.st.data (uio.uio_offset + j) := by
  unfold fuse_read_directbackend at h
  split at h
  · rename_i hz
    simp only [Option.some.injEq] at h
    subst h
    exact ⟨hz, fun j hj => by omega⟩
  · rename_i hz
    have hsz1 := hsz (by omega)
    obtain ⟨_, f2⟩ := read_direct_loop_file M fh fuel w uio r h hrw hres
    obtain ⟨_, g2, g3⟩ := f2 (Or.inr hr0)
    refine ⟨by rw [g2]; omega, fun j hj => ?_⟩
    rw [g3, if_pos ⟨by omega, by omega⟩]
    congr 1
    omega

theorem fuse_invalidate_attr_wf (vp : Vnode) (h : CacheWF vp) :
    CacheWF (fuse_invalidate_attr vp) := h

/-! ## Claims on the dispatcher and the direct backends -/

/-- C1 (amended): for every call to `fuse_io_dispatch` that returns, if an open
handle for the required intent is found then, whatever the backend returned
(success or error), `cached_attrs_valid` is zeroed on return; if no handle is
found the call returns the lookup error with the world, the vnode (its
attribute snapshot included) and the uio untouched. -/
theorem fuse_io_dispatch_invalidates {σ : Type} (d : Daemon σ) (mnt : Mount) (fuel : Nat)
    (io_direct : Bool) (w : World σ) (vp : Vnode) (uio : Uio)
    (r : Nat × World σ × Vnode × Uio)
    (hres : fuse_io_dispatch d mnt fuel io_direct w vp uio = some r) :
    (∀ fh, fuse_filehandle_getrw vp.v_data
        (if uio.uio_rw = .UIO_READ then .FUFH_RDONLY else .FUFH_WRONLY) = .ok fh →
      r.2.2.1.v_data.cached_attrs_valid = (0, 0)) ∧
    (∀ e, fuse_filehandle_getrw vp.v_data
        (if uio.uio_rw = .UIO_READ then .FUFH_RDONLY else .FUFH_WRONLY) = .error e →
      r = (e, w, vp, uio)) := by
  unfold fuse_io_dispatch at hres
  constructor
  · intro fh hfh
    rw [hfh] at hres
    simp only [Option.map_eq_some'] at hres
    obtain ⟨x, _, hx⟩ := hres
    rw [← hx]
    rfl
  · intro e he
    rw [he] at hres
    simp only [Option.some.injEq] at hres
    exact hres.symm

/-- C1, witness: a cached read of 10 bytes at offset 2 with an open handle
returns 0 and leaves the snapshot, valid before, invalidated. -/
theorem fuse_io_dispatch_invalidates_witness :
    ∃ r, fuse_io_dispatch fileDaemon exMount 20 false exWorld exVnode (exRead 2 10) = some r ∧
      r.1 = 0 ∧ exVnode.v_data.cached_attrs_valid = (3, 4) ∧
      r.2.2.1.v_data.cached_attrs_valid = (0, 0) :=
  ⟨_, rfl, rfl, rfl,
    (fuse_io_dispatch_invalidates fileDaemon exMount 20 false exWorld exVnode (exRead 2 10)
      _ rfl).1 5 rfl⟩

/-- C1, counterexample: a read on a node without an open handle returns the
lookup error and the attribute snapshot is still the one from before the
call, not zeroed. -/
theorem fuse_io_dispatch_no_handle_keeps_attr :
    ∃ r, fuse_io_dispatch fileDaemon exMount 20 false exWorld exVnodeClosed (exRead 2 10)
        = some r ∧
      r.1 = EBADF ∧ r.2.2.1.v_data.cached_attrs_valid = (3, 4) ∧
      r.2.2.1.v_data.cached_attrs_valid ≠ (0, 0) :=
  ⟨_, rfl, rfl, rfl, by decide⟩

/-- C3: a direct read of `N > 0` bytes at `start` from a caller whose buffer is
accessible, against a service that answers every request without error and
with exactly the size requested, with `max_read = M > 0`, returns 0 once the
fuel covers `ceil (N / M)` turns; it issues exactly `ceil (N / M)` requests,
request `i` at offset `start + i * M` (the start plus the bytes delivered so
far) and of size `min (N - i * M) M` (the smaller of the residual and `M`);
the residual is 0 afterwards and the position is `start + N`. -/
theorem fuse_read_directbackend_chunks {σ : Type} (d : Daemon σ) (M fh fuel : Nat)
    (w : World σ) (uio : Uio) (hM : 0 < M)
    (hfull : ∀ st fh off sz,
      (d.read st fh off sz).2.1 = 0 ∧ (d.read st fh off sz).2.2.length = sz)
    (hnf : NoFault uio) (hN : 0 < uio.uio_resid)
    (hfuel : (uio.uio_resid.toNat + M - 1) / M ≤ fuel) :
    ∃ w1 uio1, fuse_read_directbackend d M fh fuel w uio = some (0, w1, uio1) ∧
      w1.log = w.log ++ (List.range ((uio.uio_resid.toNat + M - 1) / M)).map
        (fun (i : Nat) => Event.read fh (uio.uio_offset + (i : Int) * (M : Int))
          (min (uio.uio_resid.toNat - i * M) M) 0 (min (uio.uio_resid.toNat - i * M) M)) ∧
      (∀ i, i < (uio.uio_resid.toNat + M - 1) / M →
        min (uio.uio_resid.toNat - i * M) M ≤ M) ∧
      uio1.uio_resid = 0 ∧ uio1.uio_offset = uio.uio_offset + uio.uio_resid ∧
      uio1.iov_base = uio.iov_base + uio.uio_resid.toNat := by
  obtain ⟨w1, uio1, h1, h2, h3, h4, h5⟩ :=
    read_direct_loop_full d M fh hM hfull fuel w uio hnf (le_of_lt hN) hfuel
  refine ⟨w1, uio1, ?_, h2, fun i _ => min_le_right _ _, h3, h4, h5⟩
  unfold fuse_read_directbackend
  rw [if_neg (by omega)]
  exact h1

/-- C3, witness: 10 bytes at offset 100 with `max_read = 3` take the four
requests `(100, 3)`, `(103, 3)`, `(106, 3)`, `(109, 1)`. -/
theorem fuse_read_directbackend_chunks_witness :
    ∃ w1 uio1, fuse_read_directbackend zeroDaemon 3 5 4 ⟨(), []⟩ (exRead 100 10)
        = some (0, w1, uio1) ∧
      w1.log = [Event.read 5 100 3 0 3, Event.read 5 103 3 0 3, Event.read 5 106 3 0 3,
        Event.read 5 109 1 0 1] ∧
      uio1.uio_resid = 0 ∧ uio1.uio_offset = 110 := by
  obtain ⟨w1, uio1, h1, h2, _, h4, h5, _⟩ :=
    fuse_read_directbackend_chunks zeroDaemon 3 5 4 ⟨(), []⟩ (exRead 100 10) (by decide)
      (fun _ _ _ sz => ⟨rfl, List.length_replicate sz 0⟩)
      (by intro a ha; simp only [exRead, Option.some.injEq] at ha; subst ha; decide)
      (by decide) (by decide)
  exact ⟨w1, uio1, h1, h2, h4, h5⟩

/-- C4: a direct read of `N` bytes with `max_read > 0` from a caller whose
buffer is accessible returns once the fuel covers `N` turns; and whenever one
of its exchanges is answered without error by fewer bytes than it asked for,
that exchange is the last one of the call, the call returns 0, and the
residual is still positive (fewer than `N` bytes were delivered). -/
theorem fuse_read_directbackend_short {σ : Type} (d : Daemon σ) (M fh fuel : Nat)
    (w : World σ) (uio : Uio) (hM : 0 < M) (hnf : NoFault uio)
    (hfuel : uio.uio_resid.toNat ≤ fuel) :
    ∃ e w1 uio1 L, fuse_read_directbackend d M fh fuel w uio = some (e, w1, uio1) ∧
      w1.log = w.log ++ L ∧
      ∀ i fh1 off sz m, L[i]? = some (Event.read fh1 off sz 0 m) → m < sz →
        i + 1 = L.length ∧ e = 0 ∧ 0 < uio1.uio_resid := by
  unfold fuse_read_directbackend
  by_cases hz : uio.uio_resid = 0
  · rw [if_pos hz]
    exact ⟨0, w, uio, [], rfl, by simp, by simp⟩
  · rw [if_neg hz]
    exact read_direct_loop_short d M fh hM fuel w uio hnf hfuel

/-- C4, witness: 10 bytes at offset 15 of a file of 20 bytes with
`max_read = 3`.  The second exchange asks for 3 bytes at 18 and gets 2: it is
the last one, the call returns 0 and 5 bytes remain undelivered. -/
theorem fuse_read_directbackend_short_witness :
    (∃ e w1 uio1 L, fuse_read_directbackend fileDaemon 3 5 10 exWorld (exRead 15 10)
        = some (e, w1, uio1) ∧ w1.log = exWorld.log ++ L ∧
      ∀ i fh1 off sz m, L[i]? = some (Event.read fh1 off sz 0 m) → m < sz →
        i + 1 = L.length ∧ e = 0 ∧ 0 < uio1.uio_resid) ∧
    (∃ r, fuse_read_directbackend fileDaemon 3 5 10 exWorld (exRead 15 10) = some r ∧
      r.2.1.log = [Event.read 5 15 3 0 3, Event.read 5 18 3 0 2] ∧
      r.1 = 0 ∧ r.2.2.uio_resid = 5) :=
  ⟨fuse_read_directbackend_short fileDaemon 3 5 10 exWorld (exRead 15 10) (by decide)
      (by intro a ha; simp only [exRead, Option.some.injEq] at ha; subst ha; decide)
      (by decide),
    ⟨_, rfl, rfl, rfl, rfl⟩⟩

theorem toInt32_of_range (x : Int) (h1 : -2147483648 ≤ x) (h2 : x < 2147483648) :
    toInt32 x = x := by
  unfold toInt32
  simp only
  split <;> omega

/-- The shortfall of a partial write, as long as it fits a C `int`: after a
chunk of `c` bytes at the offset `o` that the service acknowledges without
error with `a < c` bytes, `c - a < 2 ^ 31`, the loop goes on from the position
`o + a` with the residual lowered by `a` only, which is still positive. -/
theorem write_direct_loop_shortfall {σ : Type} (d : Daemon σ) (M fh fuel : Nat)
    (w : World σ) (fv : fuse_vnode_data) (uio : Uio) (hnf : NoFault uio)
    (hpos : 0 < uio.uio_resid)
    (herr : (d.write w.st fh uio.uio_offset (min uio.uio_resid.toNat M)
      (bytesOf (uiomove (fun _ => 0) (min uio.uio_resid.toNat M) uio).2.1
        (min uio.uio_resid.toNat M))).2.1 = 0)
    (hshort : (d.write w.st fh uio.uio_offset (min uio.uio_resid.toNat M)
      (bytesOf (uiomove (fun _ => 0) (min uio.uio_resid.toNat M) uio).2.1
        (min uio.uio_resid.toNat M))).2.2 % 4294967296 < min uio.uio_resid.toNat M)
    (hsmall : min uio.uio_resid.toNat M < 2147483648) :
    ∃ w1 fv1 uio1, write_direct_loop d M fh (fuel + 1) w fv uio
        = write_direct_loop d M fh fuel w1 fv1 uio1 ∧
      w1.log = w.log ++ [Event.write fh uio.uio_offset (min uio.uio_resid.toNat M)
        (bytesOf (uiomove (fun _ => 0) (min uio.uio_resid.toNat M) uio).2.1
          (min uio.uio_resid.toNat M)) 0
        ((d.write w.st fh uio.uio_offset (min uio.uio_resid.toNat M)
          (bytesOf (uiomove (fun _ => 0) (min uio.uio_resid.toNat M) uio).2.1
            (min uio.uio_resid.toNat M))).2.2 % 4294967296)] ∧
      uio1.uio_offset = uio.uio_offset +
        (((d.write w.st fh uio.uio_offset (min uio.uio_resid.toNat M)
          (bytesOf (uiomove (fun _ => 0) (min uio.uio_resid.toNat M) uio).2.1
            (min uio.uio_resid.toNat M))).2.2 % 4294967296 : Nat) : Int) ∧
      uio1.uio_resid = uio.uio_resid -
        (((d.write w.st fh uio.uio_offset (min uio.uio_resid.toNat M)
          (bytesOf (uiomove (fun _ => 0) (min uio.uio_resid.toNat M) uio).2.1
            (min uio.uio_resid.toNat M))).2.2 % 4294967296 : Nat) : Int) ∧
      0 < uio1.uio_resid := by
  set c := min uio.uio_resid.toNat M with hc
  set payload := bytesOf (uiomove (fun _ => 0) c uio).2.1 c with hp
  set ans := d.write w.st fh uio.uio_offset c payload with hans
  set a := ans.2.2 % 4294967296 with ha
  have hcle : (c : Int) ≤ uio.uio_resid := by omega
  obtain ⟨m1, m2, m3, _, _, _⟩ := uiomove_ok (fun _ => 0) c uio hnf hcle
  have hdiff : toInt32 ((c : Int) - (a : Int)) = (c : Int) - a :=
    toInt32_of_range _ (by omega) (by omega)
  refine ⟨{ st := ans.1, log := w.log ++ [Event.write fh uio.uio_offset c payload 0 a] },
    if fv.filesize < (uiomove (fun _ => 0) c uio).2.2.uio_offset - ((c : Int) - a)
      then fuse_vnode_setsize fv ((uiomove (fun _ => 0) c uio).2.2.uio_offset - ((c : Int) - a))
      else fv,
    { (uiomove (fun _ => 0) c uio).2.2 with
      uio_resid := (uiomove (fun _ => 0) c uio).2.2.uio_resid + ((c : Int) - a)
      uio_offset := (uiomove (fun _ => 0) c uio).2.2.uio_offset - ((c : Int) - a) },
    ?_, rfl, ?_, ?_, ?_⟩
  · rw [write_direct_loop]
    simp only [hpos, if_true, ← hc, m1, ne_eq, not_true_eq_false, if_false, ← hp, ← hans,
      herr, ← ha, hdiff]
    rw [if_neg (by omega)]
  · simp only [m3]; omega
  · simp only [m2]; omega
  · simp only [m2]; omega

/-- The same defect seen from the other side: an acknowledged size that
exceeds the chunk size `c` by at most `2 ^ 31` aborts the call with `EINVAL`
after that one exchange. -/
theorem write_direct_loop_overack {σ : Type} (d : Daemon σ) (M fh fuel : Nat)
    (w : World σ) (fv : fuse_vnode_data) (uio : Uio) (hnf : NoFault uio)
    (hpos : 0 < uio.uio_resid)
    (herr : (d.write w.st fh uio.uio_offset (min uio.uio_resid.toNat M)
      (bytesOf (uiomove (fun _ => 0) (min uio.uio_resid.toNat M) uio).2.1
        (min uio.uio_resid.toNat M))).2.1 = 0)
    (hover : min uio.uio_resid.toNat M < (d.write w.st fh uio.uio_offset (min uio.uio_resid.toNat M)
      (bytesOf (uiomove (fun _ => 0) (min uio.uio_resid.toNat M) uio).2.1
        (min uio.uio_resid.toNat M))).2.2 % 4294967296)
    (hsmall : (d.write w.st fh uio.uio_offset (min uio.uio_resid.toNat M)
      (bytesOf (uiomove (fun _ => 0) (min uio.uio_resid.toNat M) uio).2.1
        (min uio.uio_resid.toNat M))).2.2 % 4294967296
        ≤ min uio.uio_resid.toNat M + 2147483648) :
    ∃ w1 uio1, write_direct_loop d M fh (fuel + 1) w fv uio = some (EINVAL, w1, fv, uio1) ∧
      w1.log = w.log ++ [Event.write fh uio.uio_offset (min uio.uio_resid.toNat M)
        (bytesOf (uiomove (fun _ => 0) (min uio.uio_resid.toNat M) uio).2.1
          (min uio.uio_resid.toNat M)) 0
        ((d.write w.st fh uio.uio_offset (min uio.uio_resid.toNat M)
          (bytesOf (uiomove (fun _ => 0) (min uio.uio_resid.toNat M) uio).2.1
            (min uio.uio_resid.toNat M))).2.2 % 4294967296)] := by
  set c := min uio.uio_resid.toNat M with hc
  set payload := bytesOf (uiomove (fun _ => 0) c uio).2.1 c with hp
  set ans := d.write w.st fh uio.uio_offset c payload with hans
  set a := ans.2.2 % 4294967296 with ha
  have hcle : (c : Int) ≤ uio.uio_resid := by omega
  obtain ⟨m1, _, _, _, _, _⟩ := uiomove_ok (fun _ => 0) c uio hnf hcle
  have hdiff : toInt32 ((c : Int) - (a : Int)) = (c : Int) - a :=
    toInt32_of_range _ (by omega) (by omega)
  refine ⟨{ st := ans.1, log := w.log ++ [Event.write fh uio.uio_offset c payload 0 a] },
    (uiomove (fun _ => 0) c uio).2.2, ?_, rfl⟩
  rw [write_direct_loop]
  simp only [hpos, if_true, ← hc, m1, ne_eq, not_true_eq_false, if_false, ← hp, ← hans,
    herr, ← ha, hdiff]
  rw [if_pos (by omega)]

/-- C5, at the failing input: one chunk of `2 ^ 31` bytes (`max_write = 2 ^ 31`)
that the service acknowledges without error with 0 bytes.  The shortfall
`2 ^ 31` does not fit the `int diff`, which becomes negative: the call is
aborted with `EINVAL` after that single exchange instead of going on at the
same offset. -/
theorem fuse_write_directbackend_shortfall_overflow :
    (fuse_write_directbackend (ackDaemon 0) 2147483648 5 3 ⟨0, []⟩ exNode
        (exSysWrite 100 2147483648)).map (fun r => (r.1, r.2.1.log.length, r.2.1.st))
      = some (EINVAL, 1, 1) := by
  rfl

/-- C6, at the failing input: a chunk of 10 bytes at offset 100 that the
service acknowledges with `2 ^ 32 - 1` bytes.  The `int diff` is 11, not
negative: the call is not aborted, the position is moved back to 99 and a
second request of 11 bytes is issued there; the call returns 0. -/
theorem fuse_write_directbackend_overack_wraps :
    (fuse_write_directbackend (ackDaemon 4294967295) 16 5 3 ⟨0, []⟩ exNode
        (exSysWrite 100 10)).map (fun r => (r.1, r.2.1.log))
      = some (0, [Event.write 5 100 10 [1, 2, 3, 4, 5, 6, 7, 8, 9, 10] 0 4294967295,
          Event.write 5 99 11 [11, 12, 13, 14, 15, 16, 17, 18, 19, 20, 21] 0 11]) := by
  rfl

/-! ## Claims on the tracked size -/

/-- C8: with a positive block size, for every cached write and every direct
write that returns, the tracked size afterwards is not smaller than before,
whatever the offset, the length or the result; and when the call returns 0,
wrote `N > 0` bytes and started exactly at the tracked size `S`, the tracked
size afterwards is `S + N`. -/
theorem write_tracked_size {σ : Type} (d : Daemon σ) (mnt : Mount) (fh fuel : Nat)
    (w : World σ) (vp : Vnode) (uio : Uio) (hbs : 0 < fuse_iosize mnt) :
    (∀ r, fuse_write_biobackend d mnt fuel w vp uio = some r →
      vp.v_data.filesize ≤ r.2.2.1.v_data.filesize ∧
      (r.1 = 0 → 0 < uio.uio_resid → uio.uio_offset = vp.v_data.filesize →
        r.2.2.1.v_data.filesize = vp.v_data.filesize + uio.uio_resid)) ∧
    (∀ r, fuse_write_directbackend d mnt.max_write fh fuel w vp.v_data uio = some r →
      vp.v_data.filesize ≤ r.2.2.1.filesize ∧
      (r.1 = 0 → 0 < uio.uio_resid → uio.uio_offset = vp.v_data.filesize →
        r.2.2.1.filesize = vp.v_data.filesize + uio.uio_resid)) := by
  constructor
  · intro r h
    unfold fuse_write_biobackend at h
    split at h
    · simp only [Option.some.injEq] at h; subst h
      exact ⟨le_refl _, fun he => by simp [ EIO] at he⟩
    · split at h
      · simp only [Option.some.injEq] at h; subst h
        exact ⟨le_refl _, fun he => by simp [EINVAL] at he⟩
      · split at h
        · rename_i hz
          simp only [Option.some.injEq] at h; subst h
          exact ⟨le_refl _, fun _ hp => by omega⟩
        · obtain ⟨a, b⟩ := write_bio_loop_size d mnt hbs _ _ _ _ _ h
          refine ⟨a, fun he hp ho => ?_⟩
          rw [b he hp, ho]
          omega
  · intro r h
    obtain ⟨a, _, c⟩ := fuse_write_directbackend_size _ _ _ _ _ _ _ r.1 r.2.1 r.2.2.1 r.2.2.2 h
    refine ⟨a, fun he hp ho => ?_⟩
    rw [((c (by omega)).2 he).2.2 hp, ho]
    omega


/-- C8, witness: 10 bytes written at offset 20 of a file of tracked size 20,
through the cached backend and through the direct backend: both return 0 and
leave the tracked size at 30. -/
theorem write_tracked_size_witness :
    (∃ r, fuse_write_biobackend fileDaemon exMount 20 exWorld exVnode
        (exWrite 20 [50, 51, 52, 53, 54, 55, 56, 57, 58, 59]) = some r ∧
      r.1 = 0 ∧ exVnode.v_data.filesize = 20 ∧ r.2.2.1.v_data.filesize = 30) ∧
    (∃ r, fuse_write_directbackend fileDaemon exMount.max_write 5 20 exWorld exVnode.v_data
        (exWrite 20 [50, 51, 52, 53, 54, 55, 56, 57, 58, 59]) = some r ∧
      r.1 = 0 ∧ r.2.2.1.filesize = 30) :=
  ⟨⟨_, rfl, rfl, rfl,
      ((write_tracked_size fileDaemon exMount 5 20 exWorld exVnode
        (exWrite 20 [50, 51, 52, 53, 54, 55, 56, 57, 58, 59]) (by decide)).1 _ rfl).2
        rfl (by decide) rfl⟩,
    ⟨_, rfl, rfl,
      ((write_tracked_size fileDaemon exMount 5 20 exWorld exVnode
        (exWrite 20 [50, 51, 52, 53, 54, 55, 56, 57, 58, 59]) (by decide)).2 _ rfl).2
        rfl (by decide) rfl⟩⟩

/-! ## Claims on the cached read -/

/-- C7: a cached read at offset `off >= 0` of `R >= 0` bytes from an object of
tracked size `S`, with a power-of-two block size, the read handle open, a
service that reports no error (so that no fill fails) and an accessible
caller buffer (so that no copy fails), returns 0 once the fuel covers the
turns, and delivers exactly `min R (max 0 (S - off))` bytes: the residual
drops by that much and the position advances by that much.  In particular a
read that starts at or past the tracked size delivers nothing and returns
0. -/
theorem fuse_read_biobackend_count {σ : Type} (d : Daemon σ) (mnt : Mount) (k fh fuel : Nat)
    (w : World σ) (vp : Vnode) (uio : Uio)
    (hbs : fuse_iosize mnt = 2 ^ k) (hM : 0 < mnt.max_read)
    (herr : ∀ st fh off sz, (d.read st fh off sz).2.1 = 0)
    (hfh : vp.v_data.fufh .FUFH_RDONLY = some fh) (hnf : NoFault uio)
    (hoff : 0 ≤ uio.uio_offset) (hR : 0 ≤ uio.uio_resid)
    (hfuel : uio.uio_resid.toNat + fuse_iosize mnt + 1 ≤ fuel) :
    ∃ w1 vp1 uio1, fuse_read_biobackend d mnt fuel w vp uio = some (0, w1, vp1, uio1) ∧
      uio.uio_resid - uio1.uio_resid
        = min uio.uio_resid (max 0 (vp.v_data.filesize - uio.uio_offset)) ∧
      uio1.uio_offset - uio.uio_offset
        = min uio.uio_resid (max 0 (vp.v_data.filesize - uio.uio_offset)) ∧
      (vp.v_data.filesize ≤ uio.uio_offset → uio1.uio_resid = uio.uio_resid) := by
  unfold fuse_read_biobackend
  by_cases hz : uio.uio_resid = 0
  · rw [if_pos hz]
    refine ⟨w, vp, uio, rfl, ?_, ?_, fun _ => rfl⟩
    · rw [hz]; omega
    · rw [hz]; omega
  · rw [if_neg hz, if_neg (by omega)]
    have hmin : min (MAXBSIZE : Int) (fuse_iosize mnt : Int) = (fuse_iosize mnt : Int) := by
      have : fuse_iosize mnt ≤ MAXBSIZE := by unfold fuse_iosize; exact min_le_right _ _
      exact min_eq_right (by exact_mod_cast this)
    obtain ⟨w1, vp1, uio1, r1, r2, r3, _⟩ :=
      read_bio_loop_count d mnt k fh vp.v_data.filesize hbs hM herr fuel
        (min (MAXBSIZE : Int) (fuse_iosize mnt : Int)) w vp uio hfh hnf hoff (by omega)
        (Or.inl hmin) hfuel
    refine ⟨w1, vp1, uio1, r1, ?_, ?_, fun _ => ?_⟩
    · rw [r2]; omega
    · rw [r3]; omega
    · rw [r2]; omega

/-- C7, witness: 10 bytes at offset 15 of an object of tracked size 20, block
size 8: the call returns 0 and delivers 5 bytes. -/
theorem fuse_read_biobackend_count_witness :
    ∃ w1 vp1 uio1, fuse_read_biobackend fileDaemon exMount 20 exWorld exVnode (exRead 15 10)
        = some (0, w1, vp1, uio1) ∧
      (exRead 15 10).uio_resid - uio1.uio_resid = 5 ∧ uio1.uio_offset = 20 := by
  obtain ⟨w1, vp1, uio1, h1, h2, h3, _⟩ :=
    fuse_read_biobackend_count fileDaemon exMount 3 5 20 exWorld exVnode (exRead 15 10)
      (by decide) (by decide) (fun _ _ _ _ => rfl) rfl
      (by intro a ha; simp only [exRead, Option.some.injEq] at ha; subst ha; decide)
      (by decide) (by decide) (by decide)
  refine ⟨w1, vp1, uio1, h1, ?_, ?_⟩
  · rw [h2]; decide
  · have : uio1.uio_offset - (exRead 15 10).uio_offset = 5 := by rw [h3]; decide
    have h0 : (exRead 15 10).uio_offset = 15 := rfl
    omega

/-! ## The 4096-byte example of the cached write -/

set_option maxRecDepth 1000000 in
/-- C9 (amended): block size 4096, tracked size 4096, cached write of 10 bytes
at offset 4090, nothing cached.  The first turn is the chunk `(lbn 0, on 4090,
n 6)`; it is not an append (4090 is not the tracked size): block 0 is
acquired with allocation length 4096 and the tracked size stays 4096.  After
it the position is 4096, the tracked size: the second turn, the chunk `(lbn 1,
on 0, n 4)`, takes the append-extension path, which extends the tracked size
to 4100 and allocates the new block 1 with length 4 (it ends at file offset
4100).  The call returns 0 with tracked size 4100. -/
theorem fuse_write_biobackend_example :
    (write_bio_getblk exMount4k exVnode4k (exWrite 4090 [1, 2, 3, 4, 5, 6, 7, 8, 9, 10])
        0 4090 6).1 = 4096 ∧
    (write_bio_getblk exMount4k exVnode4k (exWrite 4090 [1, 2, 3, 4, 5, 6, 7, 8, 9, 10])
        0 4090 6).2.2.filesize = 4096 ∧
    (∃ r1, write_bio_again fileDaemon exMount4k 0 4090 6 40 exWorld4k exVnode4k
        (exWrite 4090 [1, 2, 3, 4, 5, 6, 7, 8, 9, 10]) = some r1 ∧
      r1.2.2.2.2.uio_offset = 4096 ∧ r1.2.2.2.1.v_data.filesize = 4096 ∧
      r1.2.2.2.2.uio_resid = 4 ∧
      (write_bio_getblk exMount4k r1.2.2.2.1 r1.2.2.2.2 1 0 4).1 = 4 ∧
      (write_bio_getblk exMount4k r1.2.2.2.1 r1.2.2.2.2 1 0 4).2.1.b_bcount = 4 ∧
      (write_bio_getblk exMount4k r1.2.2.2.1 r1.2.2.2.2 1 0 4).2.2.filesize = 4100) ∧
    (∃ r, fuse_write_biobackend fileDaemon exMount4k 40 exWorld4k exVnode4k
        (exWrite 4090 [1, 2, 3, 4, 5, 6, 7, 8, 9, 10]) = some r ∧
      r.1 = 0 ∧ r.2.2.1.v_data.filesize = 4100 ∧ r.2.2.2.uio_resid = 0 ∧
      r.2.1.log.filter Event.isCopyin
        = [Event.copyin 0 4090 6 0 0, Event.copyin 1 0 4 0 0] ∧
      (r.2.2.1.bufs 0).map (fun b => b.b_bcount) = some 4096 ∧
      (r.2.2.1.bufs 1).map (fun b => b.b_bcount) = some 4) :=
  ⟨rfl, rfl, ⟨_, rfl, rfl, rfl, rfl, rfl, rfl, rfl⟩, ⟨_, rfl, rfl, rfl, rfl, rfl, rfl, rfl⟩⟩

set_option maxRecDepth 1000000 in
/-- C9, counterexample: in that run the new block, block 1, has allocation
length 4, and block 0 has 4096; neither has 4100, and the blocks next to
them do not exist. -/
theorem fuse_write_biobackend_example_alloc :
    ∃ r, fuse_write_biobackend fileDaemon exMount4k 40 exWorld4k exVnode4k
        (exWrite 4090 [1, 2, 3, 4, 5, 6, 7, 8, 9, 10]) = some r ∧
      (r.2.2.1.bufs 1).map (fun b => b.b_bcount) = some 4 ∧
      (r.2.2.1.bufs 1).map (fun b => b.b_bcount) ≠ some 4100 ∧
      (r.2.2.1.bufs 0).map (fun b => b.b_bcount) ≠ some 4100 ∧
      (r.2.2.1.bufs 2).map (fun b => b.b_bcount) = none ∧
      (r.2.2.1.bufs (-1)).map (fun b => b.b_bcount) = none :=
  ⟨_, rfl, rfl, by decide, by decide, rfl, rfl⟩

/-! ## Claims on the dirty interval -/

/-- C11 (amended): for every flush (`fuse_io_strategy` on a write) with the
write handle open, whose dirty interval is still non-empty after its end was
chopped at the tracked size: the call returns what the direct write returned;
on a retryable error (`EINTR`, `ETIMEDOUT`) the dirty interval is kept as it
was after the chop (so untouched when it lay within the tracked size) and the
block is not marked invalid; on any other error the dirty interval is
cleared, the block is marked invalid and the error is recorded in it; on
success the dirty interval is cleared, unless the block is marked
`B_NEEDCOMMIT`, in which case the interval is kept. -/
theorem fuse_io_strategy_flush_outcome {σ : Type} (d : Daemon σ) (mnt : Mount) (fuel fh : Nat)
    (w : World σ) (fv : fuse_vnode_data) (bp : Buf)
    (r : Nat × World σ × fuse_vnode_data × Uio)
    (hcmd : bp.b_iocmd = .BIO_WRITE) (hfh : fv.fufh .FUFH_WRONLY = some fh)
    (hne : bp.b_dirtyoff < min bp.b_dirtyend (fv.filesize - bp.b_blkno * (fuse_iosize mnt : Int)))
    (hdw : fuse_write_directbackend d mnt.max_write fh fuel w fv
      (strategy_write_uio mnt (strategy_write_clamp mnt fv (strategy_clear bp))) = some r) :
    ∃ bp1, fuse_io_strategy d mnt fuel w fv bp = some (r.1, r.2.1, r.2.2.1, bp1) ∧
      ((r.1 = EINTR ∨ r.1 = ETIMEDOUT) →
        bp1.b_dirtyoff = bp.b_dirtyoff ∧
        bp1.b_dirtyend = min bp.b_dirtyend (fv.filesize - bp.b_blkno * (fuse_iosize mnt : Int)) ∧
        (bp.b_blkno * (fuse_iosize mnt : Int) + bp.b_dirtyend ≤ fv.filesize →
          bp1.b_dirtyend = bp.b_dirtyend) ∧
        bp1.B_INVAL = false) ∧
      (r.1 ≠ 0 → r.1 ≠ EINTR → r.1 ≠ ETIMEDOUT →
        bp1.b_dirtyoff = 0 ∧ bp1.b_dirtyend = 0 ∧ bp1.B_INVAL = true ∧
        bp1.BIO_ERROR = true ∧ bp1.b_error = r.1) ∧
      (r.1 = 0 → bp.B_NEEDCOMMIT = false →
        bp1.b_dirtyoff = 0 ∧ bp1.b_dirtyend = 0 ∧ bp1.B_INVAL = false) ∧
      (r.1 = 0 → bp.B_NEEDCOMMIT = true →
        bp1.b_dirtyoff = bp.b_dirtyoff ∧
        bp1.b_dirtyend = min bp.b_dirtyend (fv.filesize - bp.b_blkno * (fuse_iosize mnt : Int)) ∧
        bp1.B_INVAL = false) := by
  obtain ⟨cb, _, co, _, ce⟩ := strategy_write_clamp_fields mnt fv (strategy_clear bp)
  obtain ⟨cn, ci, _⟩ := strategy_write_clamp_flags mnt fv (strategy_clear bp)
  have hb : (strategy_clear bp).b_blkno = bp.b_blkno := rfl
  have ho : (strategy_clear bp).b_dirtyoff = bp.b_dirtyoff := rfl
  have he : (strategy_clear bp).b_dirtyend = bp.b_dirtyend := rfl
  have hn : (strategy_clear bp).B_NEEDCOMMIT = bp.B_NEEDCOMMIT := rfl
  have hi : (strategy_clear bp).B_INVAL = false := rfl
  rw [hb, he] at ce
  rw [ho] at co
  rw [hn] at cn
  rw [hi] at ci
  have hne1 : (strategy_write_clamp mnt fv (strategy_clear bp)).b_dirtyoff
      < (strategy_write_clamp mnt fv (strategy_clear bp)).b_dirtyend := by
    rw [co, ce]; exact hne
  rw [fuse_io_strategy_write_eq d mnt fuel fh w fv bp hcmd hfh hne1, hdw]
  obtain ⟨f1, f2, f3, f4⟩ :=
    strategy_write_flags_cases (strategy_write_clamp mnt fv (strategy_clear bp)) r.1
  refine ⟨_, rfl, ?_, ?_, ?_, ?_⟩
  · intro h
    obtain ⟨a, b, c, _⟩ := f1 h
    refine ⟨?_, ?_, ?_, ?_⟩
    · rw [(bufdone_fields _).2.2.1]; simp only; rw [a, co]
    · rw [(bufdone_fields _).2.2.2.1]; simp only; rw [b, ce]
    · intro hin
      rw [(bufdone_fields _).2.2.2.1]; simp only; rw [b, ce]
      omega
    · rw [(bufdone_fields _).2.2.2.2.2.2.1]; simp only; rw [c]
  · intro h0 h1 h2
    obtain ⟨a, b, c, e, g⟩ := f2 h0 h1 h2
    refine ⟨?_, ?_, ?_, ?_, ?_⟩
    · rw [(bufdone_fields _).2.2.1]; simp only; rw [a]
    · rw [(bufdone_fields _).2.2.2.1]; simp only; rw [b]
    · rw [(bufdone_fields _).2.2.2.2.2.2.1]; simp only; rw [c]
    · rw [(bufdone_fields _).2.2.2.2.2.2.2.1]; simp only; rw [e]
    · rw [(bufdone_fields _).2.2.2.2.2.1]; simp only; rw [g]
  · intro h0 hnc
    obtain ⟨a, b, c⟩ := f3 h0 (by rw [cn]; exact hnc)
    refine ⟨?_, ?_, ?_⟩
    · rw [(bufdone_fields _).2.2.1]; simp only; rw [a]
    · rw [(bufdone_fields _).2.2.2.1]; simp only; rw [b]
    · rw [(bufdone_fields _).2.2.2.2.2.2.1]; simp only; rw [c, ci]
  · intro h0 hnc
    obtain ⟨a, b, c, _⟩ := f4 h0 (by rw [cn]; exact hnc)
    refine ⟨?_, ?_, ?_⟩
    · rw [(bufdone_fields _).2.2.1]; simp only; rw [a, co]
    · rw [(bufdone_fields _).2.2.2.1]; simp only; rw [b, ce]
    · rw [(bufdone_fields _).2.2.2.2.2.2.1]; simp only; rw [c]

/-- C11, witness: block 2 with the dirty interval `[1, 3)`, within the
tracked size, flushed to a service that fails the write with `EINTR`: the
call returns `EINTR`, the interval is still `[1, 3)` and the block is not
invalid. -/
theorem fuse_io_strategy_flush_outcome_witness :
    ∃ bp1, fuse_io_strategy (failDaemon EINTR) exMount 5 ⟨(), []⟩ exNode (exDirtyBuf 1 3)
        = some (EINTR, ⟨(), [Event.write 5 17 2 [2, 3] EINTR 0]⟩, exNode, bp1) ∧
      bp1.b_dirtyoff = 1 ∧ bp1.b_dirtyend = 3 ∧ bp1.B_INVAL = false := by
  obtain ⟨bp1, h1, h2, _⟩ :=
    fuse_io_strategy_flush_outcome (failDaemon EINTR) exMount 5 5 ⟨(), []⟩ exNode
      (exDirtyBuf 1 3) (EINTR, ⟨(), [Event.write 5 17 2 [2, 3] EINTR 0]⟩, exNode, _)
      rfl rfl (by decide) rfl
  obtain ⟨a, _, c, e⟩ := h2 (Or.inl rfl)
  exact ⟨bp1, h1, a, c (by decide), e⟩

/-- C11, counterexample: (1) a flush of the dirty interval `[1, 3)` of a block
marked `B_NEEDCOMMIT` that succeeds (returns 0) leaves the dirty interval at
`[1, 3)`, not cleared; (2) a flush of the dirty interval `[0, 8)` of block 2
of a file of tracked size 20 (the block holds the file bytes from 16 on)
that fails with `EINTR` leaves the dirty interval at `[0, 4)`, not
untouched. -/
theorem fuse_io_strategy_flush_keeps_or_chops :
    (∃ r, fuse_io_strategy zeroDaemon exMount 5 ⟨(), []⟩ exNode
        { exDirtyBuf 1 3 with B_NEEDCOMMIT := true } = some r ∧
      r.1 = 0 ∧ r.2.2.2.b_dirtyoff = 1 ∧ r.2.2.2.b_dirtyend = 3) ∧
    (∃ r, fuse_io_strategy (failDaemon EINTR) exMount 5 ⟨(), []⟩ exNode (exDirtyBuf 0 8)
        = some r ∧
      r.1 = EINTR ∧ (exDirtyBuf 0 8).b_dirtyend = 8 ∧ r.2.2.2.b_dirtyoff = 0 ∧
      r.2.2.2.b_dirtyend = 4) :=
  ⟨⟨_, rfl, rfl, rfl, rfl⟩, ⟨_, rfl, rfl, rfl, rfl, rfl⟩⟩

/-! ## Claims on the errors of the cached write -/

/-- The write-back forced before a disjoint chunk, failing with `EINTR`: the
test `bp->b_error == EINTR` after `bwrite` does not see the interruption
(the strategy routine reports it through `B_EINTR`, and `bwrite` through its
return value), so the turn is retried; with a service that fails only its
first write the cached write then returns 0. -/
theorem fuse_write_biobackend_writeback_eintr :
    ∃ r, fuse_write_biobackend (failFirstDaemon EINTR) exMount 10 ⟨0, []⟩ exVnodeDirty
        (exWrite 19 [7]) = some r ∧ r.1 = 0 ∧
      r.2.1.log = [Event.bwrite 2 0 1, Event.write 5 16 1 [1] EINTR 1,
        Event.bwrite 2 0 1, Event.write 5 16 1 [1] 0 1, Event.copyin 2 3 1 0 0,
        Event.bwrite 2 3 4, Event.write 5 19 1 [7] 0 1] :=
  ⟨_, rfl, rfl, rfl⟩

/-! ## Claims on the identity table -/

/-- C13: for every fill (`fuse_io_strategy` with a read command) of a block of
length `L = b_bcount` (at most `MAXBSIZE`) at block index `k = b_blkno`, the
read handle being open: the one direct read is issued at the byte offset
`k * blockSize` for `L` bytes into the block; if it ends with no error
leaving a residual `L - m > 0`, that is after delivering only `m < L` bytes,
the call returns 0 (success), the residual of the block is 0, bytes `[0, m)`
of the block are as the direct read delivered them and bytes `[m, L)` are
all zero. -/
theorem fuse_io_strategy_fill_short {σ : Type} (d : Daemon σ) (mnt : Mount) (fuel fh : Nat)
    (w w1 : World σ) (fv : fuse_vnode_data) (bp : Buf) (uio1 : Uio)
    (hcmd : bp.b_iocmd = .BIO_READ) (hfh : fv.fufh .FUFH_RDONLY = some fh)
    (hL : bp.b_bcount ≤ MAXBSIZE)
    (hdr : fuse_read_directbackend d mnt.max_read fh fuel w
      { uio_rw := .UIO_READ
        uio_offset := bp.b_blkno * (fuse_iosize mnt : Int)
        uio_resid := bp.b_bcount
        iov_base := 0
        mem := bp.b_data
        limit := none } = some (0, w1, uio1))
    (hshort : 0 < uio1.uio_resid) :
    ∃ bp1, fuse_io_strategy d mnt fuel w fv bp = some (0, w1, fv, bp1) ∧
      bp1.b_resid = 0 ∧ 0 ≤ bp.b_bcount - uio1.uio_resid ∧
      (∀ i : Nat, (i : Int) < bp.b_bcount - uio1.uio_resid → bp1.b_data i = uio1.mem i) ∧
      (∀ i : Nat, bp.b_bcount - uio1.uio_resid ≤ (i : Int) → (i : Int) < bp.b_bcount →
        bp1.b_data i = 0) := by
  have hres := (fuse_read_directbackend_resid d mnt.max_read fh fuel w _ _ hdr).1
  dsimp only at hres
  have hM : bp.b_bcount < 2147483648 := by
    have : (MAXBSIZE : Int) = 65536 := rfl
    omega
  obtain ⟨r1, r2⟩ := strategy_read_done_short (strategy_clear bp) uio1 hshort hres hM
  have hb : (strategy_clear bp).b_bcount = bp.b_bcount := rfl
  rw [hb] at r2
  have hc : (strategy_clear bp).b_iocmd = .BIO_READ := hcmd
  have hu : strategy_read_uio mnt (strategy_clear bp) =
      { uio_rw := .UIO_READ
        uio_offset := bp.b_blkno * (fuse_iosize mnt : Int)
        uio_resid := bp.b_bcount
        iov_base := 0
        mem := bp.b_data
        limit := none } := rfl
  refine ⟨strategy_read_done (strategy_clear bp) 0 uio1, ?_, r1, by omega, ?_, ?_⟩
  · unfold fuse_io_strategy
    simp only [hcmd, if_true, fuse_filehandle_getrw, hfh]
    simp only [hc, if_true, hu, hdr]
  · intro i hi
    rw [r2]
    unfold bzero
    rw [if_neg (by omega)]
  · intro i h1 h2
    rw [r2]
    unfold bzero
    rw [if_pos (by omega)]

/-- C13, witness: block 2 of the example file (20 bytes, block size 8) is
filled with the length 8: the file ends after 4 bytes of the block, the
direct read delivers these 4 bytes (file bytes 16 to 19, that is 3, 4, 5, 6)
and leaves a residual of 4; the fill returns 0, with the residual 0 and the
bytes 4 to 7 of the block zero. -/
theorem fuse_io_strategy_fill_short_witness :
    ∃ bp1, fuse_io_strategy fileDaemon exMount 8 exWorld exNode
        (set_iocmd (allocbuf (newbuf 2) 8) .BIO_READ) =
        some (0, ⟨exFile, [Event.read 5 16 3 0 3, Event.read 5 19 3 0 1]⟩, exNode, bp1) ∧
      bp1.b_resid = 0 ∧
      [bp1.b_data 0, bp1.b_data 1, bp1.b_data 2, bp1.b_data 3] = [3, 4, 5, 6] ∧
      [bp1.b_data 4, bp1.b_data 5, bp1.b_data 6, bp1.b_data 7] = [0, 0, 0, 0] := by
  obtain ⟨bp1, h1, h2, _, h4, h5⟩ :=
    fuse_io_strategy_fill_short fileDaemon exMount 8 5 exWorld
      ⟨exFile, [Event.read 5 16 3 0 3, Event.read 5 19 3 0 1]⟩ exNode
      (set_iocmd (allocbuf (newbuf 2) 8) .BIO_READ) _ rfl rfl (by decide) rfl (by decide)
  refine ⟨bp1, h1, h2, ?_, ?_⟩
  · rw [h4 0 (by decide), h4 1 (by decide), h4 2 (by decide), h4 3 (by decide)]
    rfl
  · rw [h5 4 (by decide) (by decide), h5 5 (by decide) (by decide),
      h5 6 (by decide) (by decide), h5 7 (by decide) (by decide)]

/-! ## Claims on the range of a flush -/

/-- C15 (amended): for every flush (`fuse_io_strategy` with a write command)
of a block at index `k` with dirty interval `[dirtyOff, dirtyEnd)`,
`0 <= dirtyOff`, the write handle being open and the service acknowledging
every chunk in full (`0 < max_write < 2^32`, enough fuel for the chunks):
with `e` the smaller of `dirtyEnd` and the tracked size less `k * blockSize`,
if `e <= dirtyOff` (in particular if the dirty interval is empty) no request
is sent and the call returns 0; otherwise the call returns 0 and the direct
write sends exactly the file range `[k * blockSize + dirtyOff,
k * blockSize + e)`, in chunks of at most `max_write` bytes, taking its bytes
from the block at offset `dirtyOff`; every request lies within that range. -/
theorem fuse_io_strategy_flush_range {σ : Type} (d : Daemon σ) (mnt : Mount) (fuel fh : Nat)
    (w : World σ) (fv : fuse_vnode_data) (bp : Buf)
    (hcmd : bp.b_iocmd = .BIO_WRITE) (hfh : fv.fufh .FUFH_WRONLY = some fh)
    (hM : 0 < mnt.max_write) (hM2 : mnt.max_write < 4294967296)
    (hfull : ∀ st fh off sz p,
      (d.write st fh off sz p).2.1 = 0 ∧ (d.write st fh off sz p).2.2 = sz)
    (_h0 : 0 ≤ bp.b_dirtyoff)
    (hfuel : ((min bp.b_dirtyend (fv.filesize - bp.b_blkno * (fuse_iosize mnt : Int))
      - bp.b_dirtyoff).toNat + mnt.max_write - 1) / mnt.max_write ≤ fuel) :
    (min bp.b_dirtyend (fv.filesize - bp.b_blkno * (fuse_iosize mnt : Int)) ≤ bp.b_dirtyoff →
      ∃ bp1, fuse_io_strategy d mnt fuel w fv bp = some (0, w, fv, bp1)) ∧
    (bp.b_dirtyoff < min bp.b_dirtyend (fv.filesize - bp.b_blkno * (fuse_iosize mnt : Int)) →
      ∃ w1 fv1 bp1, fuse_io_strategy d mnt fuel w fv bp = some (0, w1, fv1, bp1) ∧
        w1.log = w.log ++ fullWriteLog fh (bp.b_blkno * (fuse_iosize mnt : Int) + bp.b_dirtyoff)
          (min bp.b_dirtyend (fv.filesize - bp.b_blkno * (fuse_iosize mnt : Int))
            - bp.b_dirtyoff).toNat mnt.max_write
          (fun j => bp.b_data (bp.b_dirtyoff.toNat + j)) ∧
        ∀ ev ∈ fullWriteLog fh (bp.b_blkno * (fuse_iosize mnt : Int) + bp.b_dirtyoff)
          (min bp.b_dirtyend (fv.filesize - bp.b_blkno * (fuse_iosize mnt : Int))
            - bp.b_dirtyoff).toNat mnt.max_write
          (fun j => bp.b_data (bp.b_dirtyoff.toNat + j)),
          ∃ o s p, ev = Event.write fh o s p 0 s ∧
            bp.b_blkno * (fuse_iosize mnt : Int) + bp.b_dirtyoff ≤ o ∧
            o + (s : Int) ≤ bp.b_blkno * (fuse_iosize mnt : Int) +
              min bp.b_dirtyend (fv.filesize - bp.b_blkno * (fuse_iosize mnt : Int))) := by
  obtain ⟨cb, _, co, cd, ce⟩ := strategy_write_clamp_fields mnt fv (strategy_clear bp)
  have hb : (strategy_clear bp).b_blkno = bp.b_blkno := rfl
  have ho : (strategy_clear bp).b_dirtyoff = bp.b_dirtyoff := rfl
  have he : (strategy_clear bp).b_dirtyend = bp.b_dirtyend := rfl
  have hdt : (strategy_clear bp).b_data = bp.b_data := rfl
  rw [hb, he] at ce
  rw [ho] at co
  rw [hb] at cb
  rw [hdt] at cd
  refine ⟨?_, ?_⟩
  · intro hle
    unfold fuse_io_strategy
    have h1 : (if bp.b_iocmd = BioCmd.BIO_READ then FufhType.FUFH_RDONLY
        else FufhType.FUFH_WRONLY) = FufhType.FUFH_WRONLY := by
      rw [hcmd]; rfl
    rw [h1]
    simp only [fuse_filehandle_getrw, hfh]
    have h2 : ¬ (strategy_clear bp).b_iocmd = BioCmd.BIO_READ := by
      rw [(strategy_clear_fields bp).2.2.2.2.2.1, hcmd]; decide
    rw [if_neg h2, if_neg (by rw [co, ce]; omega)]
    exact ⟨_, rfl⟩
  · intro hlt
    have hne : (strategy_write_clamp mnt fv (strategy_clear bp)).b_dirtyoff
        < (strategy_write_clamp mnt fv (strategy_clear bp)).b_dirtyend := by
      rw [co, ce]; exact hlt
    rw [fuse_io_strategy_write_eq d mnt fuel fh w fv bp hcmd hfh hne]
    have hu1 : (strategy_write_uio mnt (strategy_write_clamp mnt fv (strategy_clear bp))).uio_resid
        = min bp.b_dirtyend (fv.filesize - bp.b_blkno * (fuse_iosize mnt : Int))
          - bp.b_dirtyoff := by
      show (strategy_write_clamp mnt fv (strategy_clear bp)).b_dirtyend -
        (strategy_write_clamp mnt fv (strategy_clear bp)).b_dirtyoff = _
      rw [co, ce]
    have hu2 : (strategy_write_uio mnt (strategy_write_clamp mnt fv (strategy_clear bp))).uio_offset
        = bp.b_blkno * (fuse_iosize mnt : Int) + bp.b_dirtyoff := by
      show (strategy_write_clamp mnt fv (strategy_clear bp)).b_blkno * (fuse_iosize mnt : Int) +
        (strategy_write_clamp mnt fv (strategy_clear bp)).b_dirtyoff = _
      rw [co, cb]
    have hu3 : (strategy_write_uio mnt (strategy_write_clamp mnt fv (strategy_clear bp))).iov_base
        = bp.b_dirtyoff.toNat := by
      show (strategy_write_clamp mnt fv (strategy_clear bp)).b_dirtyoff.toNat = _
      rw [co]
    have hu4 : (strategy_write_uio mnt (strategy_write_clamp mnt fv (strategy_clear bp))).mem
        = bp.b_data := by
      show (strategy_write_clamp mnt fv (strategy_clear bp)).b_data = _
      rw [cd]
    obtain ⟨w1, fv1, uio1, r1, r2, r3⟩ :=
      write_direct_loop_full d mnt.max_write fh hM hM2 hfull fuel w fv
        (strategy_write_uio mnt (strategy_write_clamp mnt fv (strategy_clear bp)))
        rfl rfl (by rw [hu1]; omega) (by rw [hu1]; exact hfuel)
    rw [hu1, hu2, hu3, hu4] at r2
    have hdw : fuse_write_directbackend d mnt.max_write fh fuel w fv
        (strategy_write_uio mnt (strategy_write_clamp mnt fv (strategy_clear bp)))
        = some (0, w1, fv1, uio1) := by
      unfold fuse_write_directbackend
      rw [if_neg (by rw [hu1]; omega)]
      exact r1
    rw [hdw]
    refine ⟨w1, fv1, _, rfl, r2, ?_⟩
    intro ev hev
    obtain ⟨o, s, p, e1, e2, e3, _⟩ := fullWriteLog_range fh _ _ mnt.max_write _ hM ev hev
    refine ⟨o, s, p, e1, e2, ?_⟩
    have : ((min bp.b_dirtyend (fv.filesize - bp.b_blkno * (fuse_iosize mnt : Int))
        - bp.b_dirtyoff).toNat : Int)
        = min bp.b_dirtyend (fv.filesize - bp.b_blkno * (fuse_iosize mnt : Int))
          - bp.b_dirtyoff := by
      omega
    omega

/-- C15, witness: block 2 of the example file with the dirty interval
`[1, 3)`, within the tracked size 20: the flush returns 0 after one request,
the 2 bytes of the block from offset 1 to the file offset 17. -/
theorem fuse_io_strategy_flush_range_witness :
    ∃ w1 fv1 bp1, fuse_io_strategy zeroDaemon exMount 5 ⟨(), []⟩ exNode (exDirtyBuf 1 3)
        = some (0, w1, fv1, bp1) ∧
      w1.log = [Event.write 5 17 2 [2, 3] 0 2] := by
  obtain ⟨w1, fv1, bp1, h1, h2, _⟩ :=
    (fuse_io_strategy_flush_range zeroDaemon exMount 5 5 ⟨(), []⟩ exNode (exDirtyBuf 1 3)
      rfl rfl (by decide) (by decide) (fun _ _ _ _ _ => ⟨rfl, rfl⟩) (by decide)
      (by decide)).2 (by decide)
  exact ⟨w1, fv1, bp1, h1, by rw [h2]; rfl⟩

/-- C15, counterexample: block 2 of the example file (tracked size 20, block
size 8, the block starts at the file offset 16).  (1) With the dirty interval
`[0, 8)` the flush writes the file range `[16, 20)` only (3 bytes at 16 and 1
byte at 19), not `[16, 24)`.  (2) With the non-empty dirty interval `[4, 8)`
the flush sends no request and returns 0. -/
theorem fuse_io_strategy_flush_chopped :
    (∃ r, fuse_io_strategy zeroDaemon exMount 5 ⟨(), []⟩ exNode (exDirtyBuf 0 8) = some r ∧
      r.1 = 0 ∧
      r.2.1.log = [Event.write 5 16 3 [1, 2, 3] 0 3, Event.write 5 19 1 [4] 0 1]) ∧
    (∃ r, fuse_io_strategy zeroDaemon exMount 5 ⟨(), []⟩ exNode (exDirtyBuf 4 8) = some r ∧
      r.1 = 0 ∧ r.2.1.log = []) :=
  ⟨⟨_, rfl, rfl, rfl⟩, ⟨_, rfl, rfl, rfl⟩⟩

/-! ## Claims on a write followed by a read -/

/-- C2 (amended): with the file service (it stores what it is sent and
acknowledges every write in full), a power-of-two block size, a write chunk
limit below `2^32` and a well-filed buffer cache: after a write of `N` bytes
at `off >= 0` through `fuse_io_dispatch` that returns 0, a read of the range
`[off, off + N)` through `fuse_io_dispatch` on the state the write left that
returns 0 delivers the whole range and exactly the written bytes, when the
write was cached (the read being cached or direct) and when both were direct.
The combination of a direct write with a cached read is left out. -/
theorem fuse_io_dispatch_round_trip (mnt : Mount) (k fuel1 fuel2 : Nat) (dw dr : Bool)
    (w : World FileSt) (vp : Vnode) (uw ur : Uio)
    (r1 r2 : Nat × World FileSt × Vnode × Uio)
    (hbs : fuse_iosize mnt = 2 ^ k) (hM2 : mnt.max_write < 4294967296)
    (hwf : CacheWF vp)
    (huw : uw.uio_rw = .UIO_WRITE) (hur : ur.uio_rw = .UIO_READ)
    (hres : 0 ≤ uw.uio_resid)
    (hro : ur.uio_offset = uw.uio_offset) (hrr : ur.uio_resid = uw.uio_resid)
    (hmode : (dw || !vp.v_data.cache_enable) = true → (dr || !vp.v_data.cache_enable) = true)
    (h1 : fuse_io_dispatch fileDaemon mnt fuel1 dw w vp uw = some r1) (h1ok : r1.1 = 0)
    (h2 : fuse_io_dispatch fileDaemon mnt fuel2 dr r1.2.1 r1.2.2.1 ur = some r2)
    (h2ok : r2.1 = 0) :
    r2.2.2.2.uio_resid = 0 ∧
    ∀ j : Nat, (j : Int) < uw.uio_resid →
      r2.2.2.2.mem (ur.iov_base + j) = uw.mem (uw.iov_base + j) := by
  -- what the write left: the bytes on the service, the size of the file, and the cache
  have hW : r1.2.2.1.v_data.cache_enable = vp.v_data.cache_enable ∧
      (∀ x, uw.uio_offset ≤ x → x < uw.uio_offset + uw.uio_resid →
        r1.2.1.st.data x = uw.mem (uw.iov_base + (x - uw.uio_offset).toNat)) ∧
      (0 < uw.uio_resid → uw.uio_offset + uw.uio_resid ≤ r1.2.1.st.size) ∧
      ((dw || !vp.v_data.cache_enable) = false → 0 < uw.uio_resid →
        CacheWF r1.2.2.1 ∧ uw.uio_offset + uw.uio_resid ≤ r1.2.2.1.v_data.filesize ∧
        ∀ x, uw.uio_offset ≤ x → x < uw.uio_offset + uw.uio_resid →
          ∀ b, r1.2.2.1.bufs (x / (fuse_iosize mnt : Int)) = some b →
            b.b_data (x % (fuse_iosize mnt : Int)).toNat
              = uw.mem (uw.iov_base + (x - uw.uio_offset).toNat)) := by
    obtain ⟨fh, hfh, hc⟩ := fuse_io_dispatch_write_inv fileDaemon mnt fuel1 dw w vp uw r1 huw
      h1 h1ok
    rcases hc with ⟨hd, x, hx, hr⟩ | ⟨hd, x, hx, hr⟩
    · subst hr
      obtain ⟨a1, a2, a3⟩ := fuse_write_directbackend_file mnt.max_write fh fuel1 w vp.v_data
        uw x hM2 hx h1ok huw hres
      refine ⟨?_, a1, a2, fun hc => ?_⟩
      · show x.2.2.1.cache_enable = vp.v_data.cache_enable
        rw [a3]
      · rw [hd] at hc
        exact absurd hc (by simp)
    · subst hr
      by_cases hpos : 0 < uw.uio_resid
      · obtain ⟨a1, a2, a3, a4, a5⟩ := fuse_write_biobackend_file mnt fh k fuel1 w vp uw x
          hbs hM2 hx h1ok hwf hfh huw hpos
        refine ⟨?_, fun y h1 h2 => (a4 y h1 h2).1, fun _ => a5, fun _ _ =>
          ⟨fuse_invalidate_attr_wf _ a1, a3, fun y h1 h2 => (a4 y h1 h2).2⟩⟩
        show x.2.2.1.v_data.cache_enable = vp.v_data.cache_enable
        rw [a2]
      · refine ⟨?_, fun y h1 h2 => by omega, fun hp => absurd hp hpos,
          fun _ hp => absurd hp hpos⟩
        unfold fuse_write_biobackend at hx
        split at hx
        · simp only [Option.some.injEq] at hx
          subst hx
          rfl
        · split at hx
          · simp only [Option.some.injEq] at hx
            subst hx
            rfl
          · rw [if_pos (by omega)] at hx
            simp only [Option.some.injEq] at hx
            subst hx
            rfl
  obtain ⟨w1, w2, w3, w4⟩ := hW
  -- the read
  have hR : r2.2.2.2.uio_resid = 0 ∧
      ∀ j : Nat, (j : Int) < ur.uio_resid →
        r2.2.2.2.mem (ur.iov_base + j) = r1.2.1.st.data (ur.uio_offset + j) := by
    obtain ⟨fh, hfh, hc⟩ := fuse_io_dispatch_read_inv fileDaemon mnt fuel2 dr r1.2.1 r1.2.2.1
      ur r2 hur h2 h2ok
    rcases hc with ⟨hd, y, hy, hr⟩ | ⟨hd, y, hy, hr⟩
    · subst hr
      exact fuse_read_directbackend_file mnt.max_read fh fuel2 r1.2.1 ur y hy h2ok hur
        (by rw [hrr]; exact hres) (by rw [hrr, hro]; exact w3)
    · subst hr
      rw [w1] at hd
      have hdw : (dw || !vp.v_data.cache_enable) = false := by
        cases hh : (dw || !vp.v_data.cache_enable)
        · rfl
        · rw [hmode hh] at hd
          exact absurd hd (by simp)
      by_cases hpos : 0 < uw.uio_resid
      · obtain ⟨c1, c2, c3⟩ := w4 hdw hpos
        obtain ⟨e1, e2⟩ := fuse_read_biobackend_file mnt fh k fuel2 r1.2.1 r1.2.2.1 ur y hbs
          hy h2ok c1 hfh hur (by rw [hrr]; exact hpos) (by rw [hro, hrr]; exact c2)
          (by rw [hro, hrr]; exact w3 hpos)
          (by
            intro x hx1 hx2 b hb _ _
            rw [hro] at hx1 hx2
            rw [hrr] at hx2
            rw [c3 x hx1 hx2 b hb, w2 x hx1 hx2])
        refine ⟨e1, fun j hj => ?_⟩
        show y.2.2.2.mem (ur.iov_base + j) = _
        rw [e2, if_pos ⟨by omega, by omega⟩]
        congr 1
        omega
      · unfold fuse_read_biobackend at hy
        rw [if_pos (by omega)] at hy
        simp only [Option.some.injEq] at hy
        subst hy
        exact ⟨by show ur.uio_resid = 0; omega, fun j hj => by omega⟩
  refine ⟨hR.1, fun j hj => ?_⟩
  rw [hR.2 j (by rw [hrr]; exact hj), hro, w2 _ (by omega) (by omega)]
  congr 2
  omega

/-- C2, witness: block size 8; 4 bytes are written through the cache at
offset 6 (they span the blocks 0 and 1) and read back through the cache: both
calls return 0 and the read delivers the 4 written bytes. -/
theorem fuse_io_dispatch_round_trip_witness :
    ∃ r1 r2, fuse_io_dispatch fileDaemon exMount 20 false exWorld exVnode
        (exWrite 6 [50, 51, 52, 53]) = some r1 ∧ r1.1 = 0 ∧
      fuse_io_dispatch fileDaemon exMount 20 false r1.2.1 r1.2.2.1 (exRead 6 4) = some r2 ∧
      r2.1 = 0 ∧ r2.2.2.2.uio_resid = 0 ∧
      (∀ j : Nat, (j : Int) < 4 →
        r2.2.2.2.mem (0 + j) = (exWrite 6 [50, 51, 52, 53]).mem (0 + j)) :=
  ⟨_, _, rfl, rfl, rfl, rfl,
    fuse_io_dispatch_round_trip exMount 3 20 20 false false exWorld exVnode
      (exWrite 6 [50, 51, 52, 53]) (exRead 6 4) _ _ rfl (by decide)
      (fun _ _ h => by cases h) rfl rfl (by decide) rfl rfl (fun h => h) rfl rfl rfl rfl⟩

/-- C2, counterexample: a cached read of `[0, 4)` brings block 0 into the
cache; a direct write of the bytes 50, 51 at offset 0 returns 0 and the
service holds them; the cached read of `[0, 2)` that follows returns 0 and
delivers the bytes 1, 2 the block held before the write, without any request
to the service. -/
theorem fuse_io_dispatch_stale_cache :
    ∃ r0 r1 r2,
      fuse_io_dispatch fileDaemon exMount 20 false exWorld exVnode (exRead 0 4) = some r0 ∧
      fuse_io_dispatch fileDaemon exMount 20 true r0.2.1 r0.2.2.1 (exWrite 0 [50, 51])
        = some r1 ∧ r1.1 = 0 ∧
      fuse_io_dispatch fileDaemon exMount 20 false r1.2.1 r1.2.2.1 (exRead 0 2) = some r2 ∧
      r2.1 = 0 ∧ r2.2.2.2.uio_resid = 0 ∧ r2.2.1.log = r1.2.1.log ∧
      [r1.2.1.st.data 0, r1.2.1.st.data 1] = [50, 51] ∧
      [r2.2.2.2.mem 0, r2.2.2.2.mem 1] = [1, 2] :=
  ⟨_, _, _, rfl, rfl, rfl, rfl, rfl, rfl, rfl, rfl, rfl⟩

/-- After a partial acknowledgement the direct write rewinds `uio_resid` and
`uio_offset` but not the position in the caller's buffer, which `uiomove` has
moved past the whole chunk: of 6 bytes written with a chunk limit of 3, the
first chunk (bytes 50, 51, 52) being acknowledged with 1 byte, the second
request goes to the offset 1 with the bytes 53, 54, 55, not with the
unacknowledged 51, 52. -/
theorem fuse_write_directbackend_resend_skips :
    ∃ r, fuse_write_directbackend (ackDaemon 1) 3 5 20 ⟨0, []⟩ exNode
        (exWrite 0 [50, 51, 52, 53, 54, 55]) = some r ∧
      r.2.1.log.take 2
        = [Event.write 5 0 3 [50, 51, 52] 0 1, Event.write 5 1 3 [53, 54, 55] 0 3] :=
  ⟨_, rfl, rfl⟩

end Fuse
